import Mathlib

/-!
Verification of the tile-matching board-resolution engine shared by the
"fragments" and "edgeflow" games (src/arcade/fragments/fragments.js and
src/arcade/edgeflow/edgeflow.js).

Boards are embedded as total functions `Fin ROWS → Fin COLS → Option Tile`
(`grid[y][x]` in the source).  Coordinates handed to the flood-fill are
integers, as in the source, where `x - 1` may fall outside the grid and is
rejected by `inBounds`.  The breadth-first searches of the source are
`while` loops over a queue plus a visited set; they are embedded with an
explicit fuel argument large enough that the queue always empties (every
enqueue adds a fresh in-bounds coordinate to the visited set, so the number
of dequeues is bounded by the cell count).
-/

namespace GB

/-- A board coordinate `(x, y)`, as the integer pairs traversed by the
source's flood fills. -/
abbrev Coord : Type := Int × Int

/-- `inBounds(x, y)` from both game files. -/
def inB (cols rows : Nat) (p : Coord) : Bool :=
  decide (0 ≤ p.1) && decide (p.1 < (cols : Int)) &&
    decide (0 ≤ p.2) && decide (p.2 < (rows : Int))

/-- Reading `grid[y][x]`: `none` outside the grid (JS `undefined`). -/
def cellAt {A : Type} (cols rows : Nat) (g : Fin rows → Fin cols → Option A)
    (p : Coord) : Option A :=
  if h : 0 ≤ p.1 ∧ p.1 < (cols : Int) ∧ 0 ≤ p.2 ∧ p.2 < (rows : Int) then
    g ⟨p.2.toNat, by omega⟩ ⟨p.1.toNat, by omega⟩
  else none

/-- The four orthogonal neighbours `[[x+1,y],[x-1,y],[x,y+1],[x,y-1]]`. -/
def nbs (p : Coord) : List Coord :=
  [(p.1 + 1, p.2), (p.1 - 1, p.2), (p.1, p.2 + 1), (p.1, p.2 - 1)]

section BFS

variable {A : Type} (cols rows : Nat) (kind : A → Nat) (adm : A → Bool)
  (idOf : A → Nat)

/-- A cell participates in the flood fill for kind `t` iff it holds a tile
that the variant admits (edgeflow: non-bomb; fragments: any tile) whose kind
equals the seed's. -/
def isGood (g : Fin rows → Fin cols → Option A) (t : Nat) (p : Coord) : Bool :=
  match cellAt cols rows g p with
  | some c => adm c && (kind c == t)
  | none => false

/-- Body of the neighbour loop of `groupAt`: skip when out of bounds, seen,
empty, rejected or of the wrong kind; otherwise mark seen and enqueue. -/
def pushNb (g : Fin rows → Fin cols → Option A) (t : Nat)
    (st : Finset Coord × List Coord) (nb : Coord) : Finset Coord × List Coord :=
  if inB cols rows nb = false then st
  else if nb ∈ st.1 then st
  else
    match cellAt cols rows g nb with
    | some c => if adm c && (kind c == t) then (insert nb st.1, st.2 ++ [nb]) else st
    | none => st

/-- The `while (q.length)` loop of `groupAt`, with explicit fuel.  One unit
of fuel is spent per dequeue; the loop needs at most `rows * cols` dequeues
because every enqueue adds a fresh in-bounds coordinate to `seen`. -/
def bfsAux (g : Fin rows → Fin cols → Option A) (t : Nat) :
    Nat → List Coord → Finset Coord → List (Coord × Nat) → List (Coord × Nat)
  | 0, _, _, out => out
  | _ + 1, [], _, out => out
  | fuel + 1, p :: q, seen, out =>
    match cellAt cols rows g p with
    | none => bfsAux g t fuel q seen out
    | some c =>
      if adm c && (kind c == t) then
        let st := (nbs p).foldl (pushNb cols rows kind adm g t) (seen, q)
        bfsAux g t fuel st.2 st.1 (out ++ [(p, idOf c)])
      else bfsAux g t fuel q seen out

/-- `groupAt(grid, sx, sy)` from the source: breadth-first flood fill of the
4-connected same-kind region seeded at `(sx, sy)`.  The edgeflow variant
instantiates `adm c := !c.bomb` (its seed guard is
`if (!start || start.bomb) return []`); the fragments variant has no bomb
check anywhere, i.e. `adm c := true`. -/
def groupAt (g : Fin rows → Fin cols → Option A) (sx sy : Int) :
    List (Coord × Nat) :=
  match cellAt cols rows g (sx, sy) with
  | none => []
  | some start =>
    if adm start then
      bfsAux cols rows kind adm idOf g (kind start)
        (2 * (rows * cols) + 1) [(sx, sy)] {(sx, sy)} []
    else []

/-- Specification-side edge relation: two good cells of kind `t` that are
orthogonal neighbours. -/
def E (g : Fin rows → Fin cols → Option A) (t : Nat) (p q : Coord) : Prop :=
  isGood cols rows kind adm g t p = true ∧
    isGood cols rows kind adm g t q = true ∧ q ∈ nbs p

/-- Specification-side reachability: the maximal 4-connected same-kind
component containing the seed is exactly the set of coordinates reachable
from it through good cells. -/
def reach (g : Fin rows → Fin cols → Option A) (t : Nat) (s p : Coord) : Prop :=
  Relation.ReflTransGen (E cols rows kind adm g t) s p


/-- The finite set of in-bounds coordinates of a `cols x rows` grid. -/
def IB (cols rows : Nat) : Finset Coord :=
  (Finset.univ : Finset (Fin cols × Fin rows)).image
    (fun q => ((q.1.val : Int), (q.2.val : Int)))

/-- Loop invariant of `bfsAux`: the seen set is exactly the coordinates of
the emitted entries plus the pending queue, without duplication; everything
seen is a good cell reachable from the seed; every emitted cell has all its
good neighbours seen; emitted ids are the ids of the emitted cells; the
seed is seen. -/
def Inv (g : Fin rows → Fin cols → Option A) (t : Nat) (s : Coord)
    (q : List Coord) (seen : Finset Coord) (out : List (Coord × Nat)) : Prop :=
  (out.map Prod.fst ++ q).Nodup ∧
  seen = (out.map Prod.fst ++ q).toFinset ∧
  (∀ p ∈ seen, isGood cols rows kind adm g t p = true ∧
    reach cols rows kind adm g t s p) ∧
  (∀ p ∈ out.map Prod.fst, ∀ nb ∈ nbs p,
    isGood cols rows kind adm g t nb = true → nb ∈ seen) ∧
  (∀ pr ∈ out, ∃ c, cellAt cols rows g pr.1 = some c ∧ pr.2 = idOf c) ∧
  s ∈ seen

end BFS

end GB

/-! ## fragments.js -/

namespace fragments

abbrev COLS : Nat := 12
abbrev ROWS : Nat := 15
abbrev TYPES : Nat := 4
abbrev MIN_GROUP : Nat := 3

/-- A fragments tile `{ id, t, bomb }`. -/
structure Tile where
  id : Nat
  t : Nat
  bomb : Bool
deriving DecidableEq, Repr

/-- `newTile(idGen, t, bomb)` with the id generator modelled as the next
counter value. -/
def newTile (n t : Nat) (bomb : Bool) : Tile := ⟨n, t, bomb⟩

/-- A fragments board: `ROWS × COLS` grid of optional tiles, `grid[y][x]`. -/
abbrev Board : Type := Fin ROWS → Fin COLS → Option Tile

instance : DecidableEq Board :=
  inferInstanceAs (DecidableEq (Fin ROWS → Fin COLS → Option Tile))

/-- `groupAt(grid, sx, sy)` from fragments.js: pure kind-based flood fill,
with no special treatment of bomb tiles. -/
def groupAt (g : Board) (sx sy : Int) : List (GB.Coord × Nat) :=
  GB.groupAt COLS ROWS Tile.t (fun _ => true) Tile.id g sx sy

/-- The per-column `stack` of `applyGravity`: the present tiles of column
`x`, collected bottom to top (`for (let y = ROWS - 1; y >= 0; y--)`). -/
def colStack (g : Board) (x : Fin COLS) : List Tile :=
  (List.finRange ROWS).reverse.filterMap (fun y => g y x)

/-- `applyGravity(grid)` from fragments.js: per column, the stack is written
back from the bottom (`g[ROWS-1][x] = stack[0]`, …), and the cells above are
cleared, so cell `(x, y)` receives `stack[ROWS-1-y]` when that index exists. -/
def applyGravity (g : Board) : Board :=
  fun y x => (colStack g x)[ROWS - 1 - y.val]?

/-- `isColEmpty(grid, x)`. -/
def isColEmpty (g : Board) (x : Fin COLS) : Bool :=
  (List.finRange ROWS).all (fun y => (g y x).isNone)

/-- `Math.floor(COLS / 2)`, the `centerRight` constant (6). -/
def centerRight : Nat := COLS / 2

/-- `centerRight - 1`, the `centerLeft` constant (5). -/
def centerLeft : Nat := centerRight - 1

/-- Source column feeding each output column of `centerOutCompressCols`.
The loop writes the left-half non-empty columns right-aligned so that the
last one lands on `centerLeft`, and the right-half ones left-aligned from
`centerRight`; remaining output columns stay empty.  Left half: output
column `c` receives `leftCols[c + leftCols.length - 1 - centerLeft]`, which
is the `padL` list below indexed at `c`.

`nonEmptyCols` is the `nonEmpty` array computed by `centerOutCompressCols`:
indices of columns holding at least one tile, in increasing order. -/
def nonEmptyCols (g : Board) : List (Fin COLS) :=
  (List.finRange COLS).filter (fun x => !(isColEmpty g x))

/-- `leftCols` of `centerOutCompressCols`: non-empty columns with index at
most `centerLeft`, in increasing order. -/
def leftColsOf (g : Board) : List (Fin COLS) :=
  (nonEmptyCols g).filter (fun x => x.val ≤ centerLeft)

/-- `rightCols` of `centerOutCompressCols`. -/
def rightColsOf (g : Board) : List (Fin COLS) :=
  (nonEmptyCols g).filter (fun x => ¬(x.val ≤ centerLeft))

def srcOf (g : Board) (x : Fin COLS) : Option (Fin COLS) :=
  let padL : List (Option (Fin COLS)) :=
    List.replicate (centerRight - (leftColsOf g).length) none ++
      (leftColsOf g).map some
  let padR : List (Option (Fin COLS)) :=
    (rightColsOf g).map some ++
      List.replicate (COLS - centerRight - (rightColsOf g).length) none
  (if x.val ≤ centerLeft then padL[x.val]?
   else padR[x.val - centerRight]?).join

/-- `centerOutCompressCols(grid)` from fragments.js: returns the grid
unchanged when no column or every column is non-empty; otherwise each output
column is a whole copy of its source column (`out[y][writeX] = grid[y][srcX]`)
or empty. -/
def centerOutCompressCols (g : Board) : Board :=
  if (nonEmptyCols g).length = 0 ∨ (nonEmptyCols g).length = COLS then g
  else fun y x =>
    match srcOf g x with
    | some s => g y s
    | none => none

/-- Policy A settle, as composed at both call sites of fragments.js:
`centerOutCompressCols(applyGravity(next))`. -/
def settleA (g : Board) : Board := centerOutCompressCols (applyGravity g)

/-- A pending next-line entry `{ t, bomb }` (from `makeNextLineTiles`). -/
structure NextTile where
  t : Nat
  bomb : Bool
deriving DecidableEq, Repr

/-- Result of `pushLine`: the new grid, the game-over flag, and the id
counter after the call (`nextId` is unchanged when no tile was created). -/
structure PushResult where
  grid : Board
  gameOver : Bool
  nextId : Nat
deriving DecidableEq

/-- `pushLine(grid, idGen, nextLineTiles)` from fragments.js: game over
(without touching the grid or the id generator) if the top row holds any
tile; otherwise shift every row up and create the new bottom row, whose
column-`x` tile receives id `n0 + x`. -/
def pushLine (g : Board) (n0 : Nat) (next : Fin COLS → NextTile) : PushResult :=
  if (List.finRange COLS).any (fun x => (g 0 x).isSome) then
    { grid := g, gameOver := true, nextId := n0 }
  else
    { grid := fun y x =>
        if h : y.val + 1 < ROWS then g ⟨y.val + 1, h⟩ x
        else some (newTile (n0 + x.val) (next x).t (next x).bomb),
      gameOver := false, nextId := n0 + COLS }

/-- The bomb branch of fragments' `onCellClick`: with `target` the clicked
tile, every tile whose `t` equals `target.t` is removed, anywhere on the
board; its result is `none` when the click misses (empty cell, not a bomb,
or nothing removed — the code's `removedCount === 0` early return). -/
def bombClick (g : Board) (x : Fin COLS) (y : Fin ROWS) :
    Option (Board × Finset Nat × Nat) :=
  match g y x with
  | none => none
  | some target =>
    if target.bomb then
      let next : Board := fun yy xx =>
        match g yy xx with
        | some tile => if tile.t = target.t then none else some tile
        | none => none
      let removedIds : List Nat :=
        (List.finRange ROWS).flatMap (fun yy =>
          (List.finRange COLS).filterMap (fun xx =>
            match g yy xx with
            | some tile => if tile.t = target.t then some tile.id else none
            | none => none))
      if removedIds.length = 0 then none
      else some (next, removedIds.toFinset, removedIds.length)
    else none

end fragments

namespace fragments

/-- Row-major list of the tiles present on the board, as collected by
`collectTiles(grid)`. -/
def tileList (g : Board) : List Tile :=
  (List.finRange ROWS).flatMap (fun y =>
    (List.finRange COLS).filterMap (fun x => g y x))

/-- The multiset of tiles present on the board. -/
def tileMultiset (g : Board) : Multiset Tile := (tileList g : Multiset Tile)

end fragments

/-! ## edgeflow.js -/

namespace edgeflow

abbrev COLS : Nat := 7
abbrev ROWS : Nat := 7
abbrev TYPES : Nat := 4
abbrev MIN_GROUP : Nat := 3
abbrev BOMB_RADIUS : Nat := 2
abbrev FLOW_CHANGE_THRESHOLD : Int := 1

/-- An edgeflow tile `{ id, value, bomb }`. -/
structure Tile where
  id : Nat
  value : Nat
  bomb : Bool
deriving DecidableEq, Repr

/-- An edgeflow board: `7 × 7` grid of optional tiles, `grid[y][x]`. -/
abbrev Board : Type := Fin ROWS → Fin COLS → Option Tile

instance : DecidableEq Board :=
  inferInstanceAs (DecidableEq (Fin ROWS → Fin COLS → Option Tile))

/-- `groupAt(grid, sx, sy)` from edgeflow.js: flood fill over same-value
non-bomb tiles, returning `[]` when the seed is empty or a bomb. -/
def groupAt (g : Board) (sx sy : Int) : List (GB.Coord × Nat) :=
  GB.groupAt COLS ROWS Tile.value (fun c => !c.bomb) Tile.id g sx sy

/-- Row-major list of the tiles present on the board (`collectTiles`). -/
def tileList (g : Board) : List Tile :=
  (List.finRange ROWS).flatMap (fun y =>
    (List.finRange COLS).filterMap (fun x => g y x))

/-- The multiset of tiles present on the board. -/
def tileMultiset (g : Board) : Multiset Tile := (tileList g : Multiset Tile)

/-- The four gravity directions, in the order of the `DIRS` constant. -/
inductive Dir where
  | UP
  | DOWN
  | LEFT
  | RIGHT
deriving DecidableEq, Repr, Fintype

/-- `DIRS = ["UP", "DOWN", "LEFT", "RIGHT"]`. -/
def DIRS : List Dir := [Dir.UP, Dir.DOWN, Dir.LEFT, Dir.RIGHT]

/-- The `votes` accumulator of `computeGravity`. -/
structure Votes where
  up : Nat
  down : Nat
  left : Nat
  right : Nat
deriving DecidableEq, Repr

/-- `votes[dir]`. -/
def Votes.get (v : Votes) : Dir → Nat
  | Dir.UP => v.up
  | Dir.DOWN => v.down
  | Dir.LEFT => v.left
  | Dir.RIGHT => v.right

/-- The body of `computeGravity`'s cell loop: an occupied cell contributes
nothing; an empty cell adds one vote to every direction whose distance to
the board edge equals the minimum of the four distances. -/
def voteStep (g : Board) (v : Votes) (p : Fin ROWS × Fin COLS) : Votes :=
  match g p.1 p.2 with
  | some _ => v
  | none =>
    let distUp := p.1.val
    let distDown := (ROWS - 1) - p.1.val
    let distLeft := p.2.val
    let distRight := (COLS - 1) - p.2.val
    let m := min distUp (min distDown (min distLeft distRight))
    { up := v.up + (if distUp = m then 1 else 0),
      down := v.down + (if distDown = m then 1 else 0),
      left := v.left + (if distLeft = m then 1 else 0),
      right := v.right + (if distRight = m then 1 else 0) }

/-- Row-major list of all cells `(y, x)`, as iterated by the source's
double loops. -/
def allCells : List (Fin ROWS × Fin COLS) :=
  (List.finRange ROWS).flatMap (fun y =>
    (List.finRange COLS).map (fun x => (y, x)))

/-- The vote totals of `computeGravity`. -/
def votesOf (g : Board) : Votes :=
  allCells.foldl (voteStep g) ⟨0, 0, 0, 0⟩

/-- `anyEmpty` of `computeGravity`. -/
def anyEmpty (g : Board) : Bool :=
  allCells.any (fun p => (g p.1 p.2).isNone)

/-- The best-direction fold of `computeGravity`: starting from the current
direction and its votes, each direction of `DIRS` in order replaces the best
when its votes strictly exceed the best so far. -/
def pickBest (v : Votes) (current : Dir) : Dir × Nat :=
  DIRS.foldl (fun b d => if v.get d > b.2 then (d, v.get d) else b)
    (current, v.get current)

/-- `computeGravity(grid, current)` from edgeflow.js. -/
def computeGravity (g : Board) (current : Dir) : Dir :=
  if anyEmpty g = false then current
  else
    let bd := pickBest (votesOf g) current
    if bd.1 = current then current
    else if (bd.2 : Int) - ((votesOf g).get current : Int) < FLOW_CHANGE_THRESHOLD
    then current
    else bd.1

/-- Whether the direction's gravity axis is vertical. -/
def Dir.vertical : Dir → Bool
  | Dir.UP => true
  | Dir.DOWN => true
  | _ => false

/-- Whether gravity compacts toward index 0 of its axis
(`dir === "UP" || dir === "LEFT"`). -/
def Dir.towardStart : Dir → Bool
  | Dir.UP => true
  | Dir.LEFT => true
  | _ => false

/-- The cells of one gravity line, in the read/write scan order of
`applyGravity`'s inner `while` loop: along the gravity axis, starting from
index 0 for UP/LEFT and from the far end for DOWN/RIGHT. -/
def readLine (g : Board) (d : Dir) (fixed : Nat) : List (Option Tile) :=
  if d.vertical then
    (if h : fixed < COLS then
      (let ys := List.finRange ROWS
       let ys := if d.towardStart then ys else ys.reverse
       ys.map (fun y => g y ⟨fixed, h⟩))
     else [])
  else
    (if h : fixed < ROWS then
      (let xs := List.finRange COLS
       let xs := if d.towardStart then xs else xs.reverse
       xs.map (fun x => g ⟨fixed, h⟩ x))
     else [])

/-- One compacted line in scan order: the present tiles are written to the
first write positions in read order, the rest of the line is left empty
(the result grid starts from `emptyGrid()`). -/
def compactFront (l : List (Option Tile)) : List (Option Tile) :=
  l.reduceOption.map some ++ List.replicate (l.length - l.reduceOption.length) none

/-- The scan positions (in read order) at which the line holds a tile; the
`j`-th present tile is read at `presentIdxs[j]` and written at position `j`,
so the loop's `write !== read` test fires iff this list differs from
`range`. -/
def presentIdxs (l : List (Option Tile)) : List Nat :=
  l.enum.filterMap (fun p => if p.2.isSome then some p.1 else none)

/-- The `moved` contribution of one line of `applyGravity`. -/
def movedLine (l : List (Option Tile)) : Bool :=
  decide (presentIdxs l ≠ List.range l.reduceOption.length)

/-- Number of lines perpendicular to the gravity axis (`fixedMax`). -/
def fixedMax (d : Dir) : Nat := if d.vertical then COLS else ROWS

/-- `applyGravity(grid, dir)` from edgeflow.js: per line, compact the
present tiles toward the near end of the gravity axis, preserving scan
order; `moved` reports whether any tile's write position differed from its
read position. -/
def applyGravity (g : Board) (d : Dir) : Board × Bool :=
  (fun y x =>
    (if d.vertical then
      (let idx := if d.towardStart then y.val else ROWS - 1 - y.val
       (compactFront (readLine g d x.val))[idx]?.join)
     else
      (let idx := if d.towardStart then x.val else COLS - 1 - x.val
       (compactFront (readLine g d y.val))[idx]?.join)),
   (List.range (fixedMax d)).any (fun f => movedLine (readLine g d f)))

end edgeflow

namespace edgeflow

/-- The inner scan of `hasAvailableMoves(grid)`: bombs win immediately,
already-grouped cells are skipped via `seen` (keyed by `(x, y)`), and any
group reaching `MIN_GROUP` wins.  Matches the row-major double loop of the
source. -/
def hamAux (g : Board) : List (Fin ROWS × Fin COLS) → Finset GB.Coord → Bool
  | [], _ => false
  | p :: rest, seen =>
    match g p.1 p.2 with
    | none => hamAux g rest seen
    | some c =>
      if c.bomb then true
      else if ((p.2.val : Int), (p.1.val : Int)) ∈ seen then hamAux g rest seen
      else
        let grp := groupAt g p.2.val p.1.val
        if MIN_GROUP ≤ grp.length then true
        else hamAux g rest (seen ∪ (grp.map Prod.fst).toFinset)

/-- `hasAvailableMoves(grid)` from edgeflow.js. -/
def hasAvailableMoves (g : Board) : Bool := hamAux g allCells ∅

/-- `ensurePlayable(grid, maxShuffles)` from edgeflow.js.  `shuffleGrid`
draws on `Math.random`; per the spec's randomness-injection note it is
abstracted here into the `shuffle` argument, an arbitrary board-to-board
function applied once per attempt. -/
def ensurePlayable (shuffle : Board → Board) : Board → Nat → Board
  | g, 0 => g
  | g, guard + 1 =>
    if hasAvailableMoves g then g else ensurePlayable shuffle (shuffle g) guard

/-- The blast diamond of `detonateBomb`, as offsets `(dx, dy)`: for each
`dy` in `[-R, R]`, `dx` ranges over `[-(R-|dy|), R-|dy|]`. -/
def blastOffsets : List GB.Coord :=
  (List.range (2 * BOMB_RADIUS + 1)).flatMap (fun i =>
    let dy : Int := (i : Int) - (BOMB_RADIUS : Int)
    let m : Nat := BOMB_RADIUS - dy.natAbs
    (List.range (2 * m + 1)).map (fun j => (((j : Int) - (m : Int)), dy)))

/-- State of the `detonateBomb` chain loop: the pending bomb queue, the
`queued` dedup set, the `removeKeys` dedup set, the `removedPositions`
list and the `removeIds` set. -/
structure DetSt where
  queue : List GB.Coord
  queued : Finset GB.Coord
  keys : Finset GB.Coord
  pos : List GB.Coord
  ids : Finset Nat
deriving DecidableEq

/-- Body of the diamond scan of `detonateBomb` for one target cell: skip
out-of-bounds or empty targets; record an unseen occupied target as removed;
enqueue an unqueued bomb target. -/
def detOff (g : Board) (center : GB.Coord) (st : DetSt) (off : GB.Coord) : DetSt :=
  let nb : GB.Coord := (center.1 + off.1, center.2 + off.2)
  if GB.inB COLS ROWS nb = false then st
  else
    match GB.cellAt COLS ROWS g nb with
    | none => st
    | some c =>
      let st1 :=
        if nb ∈ st.keys then st
        else { st with keys := insert nb st.keys, pos := st.pos ++ [nb],
                       ids := insert c.id st.ids }
      if c.bomb then
        (if nb ∈ st1.queued then st1
         else { st1 with queued := insert nb st1.queued, queue := st1.queue ++ [nb] })
      else st1

/-- The `while (queue.length)` loop of `detonateBomb`, with fuel: one unit
per dequeued bomb centre; at most `ROWS * COLS + 1` coordinates can ever be
queued. -/
def detAux (g : Board) : Nat → DetSt → DetSt
  | 0, st => st
  | fuel + 1, st =>
    match st.queue with
    | [] => st
    | center :: rest =>
      detAux g fuel (blastOffsets.foldl (detOff g center) { st with queue := rest })

/-- The removal computation of `detonateBomb(cx, cy)` from edgeflow.js:
chained diamond blasts seeded at the clicked bomb. -/
def detonateRemove (g : Board) (cx cy : Int) : DetSt :=
  detAux g (2 * (ROWS * COLS + 1) + 1)
    { queue := [(cx, cy)], queued := {(cx, cy)}, keys := ∅, pos := [], ids := ∅ }

/-- Specification-side trigger step: bomb `b` triggers the cell `b'` when
`b'` is an in-bounds occupied bomb cell within Manhattan distance
`BOMB_RADIUS` of `b`. -/
def trig (g : Board) (b b' : GB.Coord) : Prop :=
  (b'.1 - b.1).natAbs + (b'.2 - b.2).natAbs ≤ BOMB_RADIUS ∧
    ∃ c, GB.cellAt COLS ROWS g b' = some c ∧ c.bomb = true

/-- Specification-side transitive triggering from the detonation origin. -/
def trigReach (g : Board) (o b : GB.Coord) : Prop :=
  Relation.ReflTransGen (trig g) o b

end edgeflow

namespace edgeflow

/-- The mutable state touched by `resolveAfterRemoval` and its timer
callbacks, abstracted over the board representation `B` (the board values
committed by a resolution are computed from its own closure, never read back
from this state).  `spawning` models the `spawningIds` set as a flag. -/
structure RState (B : Type) where
  token : Nat
  board : B
  locked : Bool
  gravity : Dir
  shiftAnim : Bool
  spawning : Bool
deriving DecidableEq

/-- The token-observing continuations of one resolution, each carrying the
captured token `rid` and the boards it would commit (precomputed in the
source from closure variables):
* `frame` — the code after `await nextFrame()`; when `moved` it commits the
  shifted board and raises the shift-animation flag, otherwise it proceeds
  straight to the refill commit;
* `anim` — the code after `await animateShiftWAAPI(...)`, which clears the
  shift-animation flag and then commits the refilled board;
* `spawnTimer` — the `SPAWN_MS` timeout clearing `spawningIds`;
* `lockTimer` — the `LOCK_PAD` timeout clearing `locked`. -/
inductive Cont (B : Type) where
  | frame (rid : Nat) (shifted : B) (moved : Bool) (final : B) (spawnFlag : Bool)
  | anim (rid : Nat) (final : B) (spawnFlag : Bool)
  | spawnTimer (rid : Nat)
  | lockTimer (rid : Nat)
deriving DecidableEq

/-- The captured token of a continuation. -/
def Cont.rid {B : Type} : Cont B → Nat
  | .frame r _ _ _ _ => r
  | .anim r _ _ => r
  | .spawnTimer r => r
  | .lockTimer r => r

/-- Effect of one continuation on the shared state, as in the source:
every continuation first compares the current token with its captured one.
A stale `frame` returns without any change; a stale `anim` clears the
shift-animation flag and returns (`if (resolutionIdRef.current !== rid)
{ setShiftAnimating(false); return; }`); stale timers do nothing. -/
def applyCont {B : Type} : Cont B → RState B → RState B
  | .frame rid shifted moved final spawnFlag, s =>
    if s.token ≠ rid then s
    else if moved then { s with board := shifted, shiftAnim := true }
    else { s with board := final, spawning := spawnFlag }
  | .anim rid final spawnFlag, s =>
    if s.token ≠ rid then { s with shiftAnim := false }
    else { s with shiftAnim := false, board := final, spawning := spawnFlag }
  | .spawnTimer rid, s =>
    if s.token = rid then { s with spawning := false } else s
  | .lockTimer rid, s =>
    if s.token = rid then { s with locked := false } else s

/-- The synchronous prefix of a resolution: the click handler locks input,
`cancelResolution()` increments the token (whose new value the resolution
captures as its `rid`), and the post-removal board and possibly changed
gravity are committed before the first `await`. -/
def startResolve {B : Type} (nextGrid : B) (newGrav : Dir) (s : RState B) :
    RState B :=
  { s with token := s.token + 1, locked := true, board := nextGrid,
           gravity := newGrav }

/-- Running a list of continuations in order (the single-threaded event
loop dispatching them). -/
def runEvents {B : Type} (evs : List (Cont B)) (s : RState B) : RState B :=
  evs.foldl (fun s e => applyCont e s) s

end edgeflow

namespace GB

/-- The coordinates of a group, forgetting the ids. -/
def coordsOf (l : List (Coord × Nat)) : List Coord := l.map Prod.fst

end GB

namespace fragments

/-- Reachability through same-kind cells on a fragments board (no cell is
excluded: fragments' flood fill has no bomb check). -/
def reachF (g : Board) (t : Nat) (s p : GB.Coord) : Prop :=
  GB.reach COLS ROWS Tile.t (fun _ => true) g t s p

/-- Column `x` read top to bottom. -/
def colList (g : Board) (x : Fin COLS) : List (Option Tile) :=
  (List.finRange ROWS).map (fun y => g y x)

/-- The present tiles of column `x`, top to bottom. -/
def presentCol (g : Board) (x : Fin COLS) : List Tile :=
  (colList g x).reduceOption

/-- Column `j` of the board for a bare natural index (empty list when out of
range), for stating the column-relocation property. -/
def colAt (g : Board) (j : Nat) : List (Option Tile) :=
  if h : j < COLS then colList g ⟨j, h⟩ else []

/-- Present tiles of column `j` for a bare natural index. -/
def presentAt (g : Board) (j : Nat) : List Tile := (colAt g j).reduceOption

/-- Indices of the non-empty columns, in increasing order. -/
def nonEmptyIdxs (g : Board) : List Nat :=
  ((List.finRange COLS).map Fin.val).filter (fun j => decide (presentAt g j ≠ []))

/-- Non-empty columns in the left half (index at most `COLS / 2 - 1`). -/
def leftIdxs (g : Board) : List Nat :=
  (nonEmptyIdxs g).filter (fun j => j ≤ COLS / 2 - 1)

/-- Non-empty columns in the right half (index at least `COLS / 2`). -/
def rightIdxs (g : Board) : List Nat :=
  (nonEmptyIdxs g).filter (fun j => COLS / 2 ≤ j)

/-- "No empty gaps below any tile" — the claim's notion of an
already-settled board for the downward gravity of fragments: every cell
below an occupied cell is occupied. -/
def noVerticalGaps (g : Board) : Bool :=
  decide (∀ (x : Fin COLS) (y y' : Fin ROWS),
    y.val ≤ y'.val → (g y x).isSome = true → (g y' x).isSome = true)

/-- Example board: a single bomb tile of kind 0 at `(0, 0)`. -/
def exBomb : Board :=
  fun y x => if y.val = 0 ∧ x.val = 0 then some ⟨1, 0, true⟩ else none

/-- Example board: a single ordinary tile at the bottom of column 0. -/
def exCorner : Board :=
  fun y x => if y.val = ROWS - 1 ∧ x.val = 0 then some ⟨1, 0, false⟩ else none

/-- Example board: empty. -/
def exEmpty : Board := fun _ _ => none

end fragments

namespace edgeflow

/-- Reachability through same-value non-bomb cells on an edgeflow board. -/
def reachE (g : Board) (t : Nat) (s p : GB.Coord) : Prop :=
  GB.reach COLS ROWS Tile.value (fun c => !c.bomb) g t s p

/-- The claim's notion of an already-settled board for direction `d`: no
empty gap beyond any tile in the gravity direction. -/
def settledIn (g : Board) (d : Dir) : Prop :=
  match d with
  | Dir.UP => ∀ (x : Fin COLS) (y y' : Fin ROWS),
      y'.val ≤ y.val → (g y x).isSome = true → (g y' x).isSome = true
  | Dir.DOWN => ∀ (x : Fin COLS) (y y' : Fin ROWS),
      y.val ≤ y'.val → (g y x).isSome = true → (g y' x).isSome = true
  | Dir.LEFT => ∀ (y : Fin ROWS) (x x' : Fin COLS),
      x'.val ≤ x.val → (g y x).isSome = true → (g y x').isSome = true
  | Dir.RIGHT => ∀ (y : Fin ROWS) (x x' : Fin COLS),
      x.val ≤ x'.val → (g y x).isSome = true → (g y x').isSome = true

/-- Example board: two adjacent value-1 tiles at `(0,0)` and `(1,0)`,
otherwise empty. -/
def exPair : Board :=
  fun y x => if y.val = 0 ∧ x.val ≤ 1 then some ⟨x.val + 1, 1, false⟩ else none

/-- Example board: fully occupied 7×7 board, all value 1, with the single
bomb at `(3, 3)`. -/
def exFull : Board :=
  fun y x =>
    some ⟨y.val * COLS + x.val + 1, 1, decide (y.val = 3 ∧ x.val = 3)⟩

/-- The 13 cells of the Manhattan-distance-2 diamond around `(3,3)` listed
in the specification. -/
def diamond13 : Finset GB.Coord :=
  {(3, 1), (2, 2), (3, 2), (4, 2), (1, 3), (2, 3), (3, 3), (4, 3), (5, 3),
   (2, 4), (3, 4), (4, 4), (3, 5)}

end edgeflow

namespace edgeflow

/-- Distance from a cell to the board edge in direction `d`, as computed by
`computeGravity` (`distUp`, `distDown`, `distLeft`, `distRight`). -/
def distTo (d : Dir) (p : Fin ROWS × Fin COLS) : Nat :=
  match d with
  | Dir.UP => p.1.val
  | Dir.DOWN => (ROWS - 1) - p.1.val
  | Dir.LEFT => p.2.val
  | Dir.RIGHT => (COLS - 1) - p.2.val

/-- Direction `d` realizes the cell's minimum distance to an edge. -/
def realizesMin (d : Dir) (p : Fin ROWS × Fin COLS) : Prop :=
  ∀ d', distTo d p ≤ distTo d' p

instance (d : Dir) (p : Fin ROWS × Fin COLS) : Decidable (realizesMin d p) :=
  inferInstanceAs (Decidable (∀ d', distTo d p ≤ distTo d' p))

end edgeflow

namespace edgeflow

/-- Loop invariant of `detAux`: the queue is duplicate-free and covered by
the `queued` dedup set; every queued centre is transitively triggered from
the origin and is the origin or in bounds; the origin is queued; removed
positions are duplicate-free and mirrored by `removeKeys`; every removed
position is an occupied cell within blast radius of a queued centre; and
every already-processed centre (queued but no longer pending) has its
whole occupied blast diamond removed and its bombs queued. -/
def DInv (g : Board) (o : GB.Coord) (st : DetSt) : Prop :=
  st.queue.Nodup ∧
  (∀ b ∈ st.queue, b ∈ st.queued) ∧
  (∀ b ∈ st.queued, trigReach g o b) ∧
  (∀ b ∈ st.queued, b = o ∨ b ∈ GB.IB COLS ROWS) ∧
  o ∈ st.queued ∧
  st.pos.Nodup ∧
  st.keys = st.pos.toFinset ∧
  (∀ p ∈ st.keys, ∃ b ∈ st.queued,
    (p.1 - b.1).natAbs + (p.2 - b.2).natAbs ≤ BOMB_RADIUS ∧
    ∃ c, GB.cellAt COLS ROWS g p = some c) ∧
  (∀ b ∈ st.queued, b ∉ st.queue →
    ∀ p, (p.1 - b.1).natAbs + (p.2 - b.2).natAbs ≤ BOMB_RADIUS →
      ∀ c, GB.cellAt COLS ROWS g p = some c →
        p ∈ st.keys ∧ (c.bomb = true → p ∈ st.queued))

end edgeflow

/-! ## Theorems -/


/-- C7: `pushLine` reports game over and returns the board and id counter
untouched when the top row holds any tile; otherwise it shifts every row up
by one and creates the supplied new line in the bottom row. -/
theorem C7_pushLine (g : fragments.Board) (n0 : Nat)
    (next : Fin fragments.COLS → fragments.NextTile) :
    ((∃ x, (g 0 x).isSome = true) →
      (fragments.pushLine g n0 next).gameOver = true ∧
      (fragments.pushLine g n0 next).grid = g ∧
      (fragments.pushLine g n0 next).nextId = n0) ∧
    ((∀ x, g 0 x = none) →
      (fragments.pushLine g n0 next).gameOver = false ∧
      (fragments.pushLine g n0 next).nextId = n0 + fragments.COLS ∧
      (∀ (x : Fin fragments.COLS) (y : Fin fragments.ROWS)
        (h : y.val + 1 < fragments.ROWS),
        (fragments.pushLine g n0 next).grid y x = g ⟨y.val + 1, h⟩ x) ∧
      (∀ x : Fin fragments.COLS,
        (fragments.pushLine g n0 next).grid ⟨fragments.ROWS - 1, by decide⟩ x =
          some (fragments.newTile (n0 + x.val) (next x).t (next x).bomb))) := by
  constructor
  · rintro ⟨x, hx⟩
    have hc : (List.finRange fragments.COLS).any (fun x => (g 0 x).isSome) = true :=
      List.any_eq_true.mpr ⟨x, List.mem_finRange x, hx⟩
    simp [fragments.pushLine, hc]
  · intro h0
    have hc : (List.finRange fragments.COLS).any (fun x => (g 0 x).isSome) = false := by
      simp only [List.any_eq_false]
      intro x _
      simp [h0 x]
    refine ⟨by simp [fragments.pushLine, hc], by simp [fragments.pushLine, hc], ?_, ?_⟩
    · intro x y h
      simp only [fragments.pushLine, hc, Bool.false_eq_true, if_false]
      exact dif_pos h
    · intro x
      simp only [fragments.pushLine, hc, Bool.false_eq_true, if_false]
      rw [dif_neg (by decide)]

/-- Witness for C7 at concrete boards: a board whose top row holds a tile,
and the empty board. -/
theorem C7_pushLine_witness :
    ((fragments.exBomb 0 ⟨0, by decide⟩).isSome = true ∧
      (fragments.pushLine fragments.exBomb 5 (fun _ => ⟨2, false⟩)).gameOver = true) ∧
    ((∀ x, fragments.exEmpty 0 x = none) ∧
      (fragments.pushLine fragments.exEmpty 5 (fun _ => ⟨2, false⟩)).gameOver = false) :=
  ⟨⟨by decide,
    ((C7_pushLine fragments.exBomb 5 (fun _ => ⟨2, false⟩)).1
      ⟨⟨0, by decide⟩, by decide⟩).1⟩,
   ⟨fun x => rfl,
    ((C7_pushLine fragments.exEmpty 5 (fun _ => ⟨2, false⟩)).2
      (fun x => rfl)).1⟩⟩

/-- C10: clicking a bomb in fragments removes exactly the tiles whose kind
equals the clicked bomb's kind — every such tile anywhere on the board,
including the clicked bomb itself — independent of position or adjacency. -/
theorem C10_bombClick (g : fragments.Board) (x : Fin fragments.COLS)
    (y : Fin fragments.ROWS) (target : fragments.Tile)
    (hc : g y x = some target) (hb : target.bomb = true) :
    ∃ next ids cnt, fragments.bombClick g x y = some (next, ids, cnt) ∧
      (∀ (yy : Fin fragments.ROWS) (xx : Fin fragments.COLS) (tile : fragments.Tile),
        g yy xx = some tile → tile.t = target.t → next yy xx = none) ∧
      (∀ (yy : Fin fragments.ROWS) (xx : Fin fragments.COLS),
        (∀ tile, g yy xx = some tile → tile.t ≠ target.t) → next yy xx = g yy xx) ∧
      next y x = none ∧
      (∀ i, i ∈ ids ↔ ∃ yy xx tile, g yy xx = some tile ∧
        tile.t = target.t ∧ tile.id = i) ∧
      0 < cnt := by
  have hlist : ∀ i,
      (i ∈ (List.finRange fragments.ROWS).flatMap (fun yy =>
        (List.finRange fragments.COLS).filterMap (fun xx =>
          match g yy xx with
          | some tile => if tile.t = target.t then some tile.id else none
          | none => none))) ↔
      ∃ yy xx tile, g yy xx = some tile ∧ tile.t = target.t ∧ tile.id = i := by
    intro i
    simp only [List.mem_flatMap, List.mem_filterMap, List.mem_finRange, true_and]
    constructor
    · rintro ⟨yy, xx, hm⟩
      cases hg : g yy xx with
      | none => rw [hg] at hm; simp at hm
      | some tile =>
        rw [hg] at hm
        by_cases ht : tile.t = target.t
        · simp only [ht, if_true, Option.some_inj] at hm
          exact ⟨yy, xx, tile, hg, ht, hm⟩
        · simp [ht] at hm
    · rintro ⟨yy, xx, tile, hg, ht, hid⟩
      exact ⟨yy, xx, by rw [hg]; simp [ht, hid]⟩
  have hne : ((List.finRange fragments.ROWS).flatMap (fun yy =>
      (List.finRange fragments.COLS).filterMap (fun xx =>
        match g yy xx with
        | some tile => if tile.t = target.t then some tile.id else none
        | none => none))).length ≠ 0 := by
    have hmem : target.id ∈ (List.finRange fragments.ROWS).flatMap (fun yy =>
        (List.finRange fragments.COLS).filterMap (fun xx =>
          match g yy xx with
          | some tile => if tile.t = target.t then some tile.id else none
          | none => none)) :=
      (hlist target.id).mpr ⟨y, x, target, hc, rfl, rfl⟩
    intro h0
    rw [List.length_eq_zero] at h0
    rw [h0] at hmem
    simp at hmem
  refine ⟨fun yy xx =>
      match g yy xx with
      | some tile => if tile.t = target.t then none else some tile
      | none => none,
    ((List.finRange fragments.ROWS).flatMap (fun yy =>
      (List.finRange fragments.COLS).filterMap (fun xx =>
        match g yy xx with
        | some tile => if tile.t = target.t then some tile.id else none
        | none => none))).toFinset,
    ((List.finRange fragments.ROWS).flatMap (fun yy =>
      (List.finRange fragments.COLS).filterMap (fun xx =>
        match g yy xx with
        | some tile => if tile.t = target.t then some tile.id else none
        | none => none))).length,
    ?_, ?_, ?_, ?_, ?_, ?_⟩
  · simp only [fragments.bombClick, hc, hb, if_true]
    rw [if_neg hne]
  · intro yy xx tile hg ht
    simp only [hg, ht, if_true]
  · intro yy xx hno
    cases hg : g yy xx with
    | none => simp [hg]
    | some tile => simp [hg, hno tile hg]
  · simp only [hc]
    simp
  · intro i
    rw [List.mem_toFinset]
    exact hlist i
  · exact Nat.pos_of_ne_zero hne

/-- Witness for C10: the single-bomb example board. -/
theorem C10_bombClick_witness :
    fragments.exBomb 0 ⟨0, by decide⟩ = some ⟨1, 0, true⟩ ∧
    ∃ next ids cnt,
      fragments.bombClick fragments.exBomb ⟨0, by decide⟩ 0 = some (next, ids, cnt) ∧
      0 < cnt := by
  refine ⟨rfl, ?_⟩
  obtain ⟨next, ids, cnt, h1, _, _, _, _, h6⟩ :=
    C10_bombClick fragments.exBomb ⟨0, by decide⟩ 0 ⟨1, 0, true⟩ rfl rfl
  exact ⟨next, ids, cnt, h1, h6⟩

/-- Continuations never change the resolution token. -/
theorem ef_applyCont_token {B : Type} (c : edgeflow.Cont B) (s : edgeflow.RState B) :
    (edgeflow.applyCont c s).token = s.token := by
  cases c <;> simp only [edgeflow.applyCont] <;> split_ifs <;> rfl

/-- A continuation holding a stale token leaves the state unchanged, except
that a stale `anim` clears the shift-animation flag. -/
theorem ef_applyCont_stale {B : Type} (c : edgeflow.Cont B) (s : edgeflow.RState B)
    (h : c.rid ≠ s.token) :
    edgeflow.applyCont c s = s ∨
      edgeflow.applyCont c s = { s with shiftAnim := false } := by
  cases c with
  | frame rid sh mv fin sp =>
    left
    simp only [edgeflow.Cont.rid] at h
    simp only [edgeflow.applyCont]
    rw [if_pos (Ne.symm h)]
  | anim rid fin sp =>
    right
    simp only [edgeflow.Cont.rid] at h
    simp only [edgeflow.applyCont]
    rw [if_pos (Ne.symm h)]
  | spawnTimer rid =>
    left
    simp only [edgeflow.Cont.rid] at h
    simp only [edgeflow.applyCont]
    rw [if_neg (fun hh => h hh.symm)]
  | lockTimer rid =>
    left
    simp only [edgeflow.Cont.rid] at h
    simp only [edgeflow.applyCont]
    rw [if_neg (fun hh => h hh.symm)]

/-- A stale continuation touches neither the board, the lock, the token,
the gravity nor the spawning flag. -/
theorem ef_applyCont_stale_fields {B : Type} (c : edgeflow.Cont B)
    (s : edgeflow.RState B) (h : c.rid ≠ s.token) :
    (edgeflow.applyCont c s).token = s.token ∧
    (edgeflow.applyCont c s).board = s.board ∧
    (edgeflow.applyCont c s).locked = s.locked ∧
    (edgeflow.applyCont c s).gravity = s.gravity ∧
    (edgeflow.applyCont c s).spawning = s.spawning := by
  rcases ef_applyCont_stale c s h with he | he <;> rw [he] <;>
    exact ⟨rfl, rfl, rfl, rfl, rfl⟩

/-- One continuation step acts identically on states that agree on token,
board, lock and spawning flag (its effect never reads the animation flag). -/
theorem ef_applyCont_agree {B : Type} (e : edgeflow.Cont B)
    (s t : edgeflow.RState B) (h1 : s.token = t.token) (h2 : s.board = t.board)
    (h3 : s.locked = t.locked) (h4 : s.spawning = t.spawning) :
    (edgeflow.applyCont e s).token = (edgeflow.applyCont e t).token ∧
    (edgeflow.applyCont e s).board = (edgeflow.applyCont e t).board ∧
    (edgeflow.applyCont e s).locked = (edgeflow.applyCont e t).locked ∧
    (edgeflow.applyCont e s).spawning = (edgeflow.applyCont e t).spawning := by
  cases e <;> simp only [edgeflow.applyCont, h1] <;> split_ifs <;> simp_all

/-- Runs from states agreeing on token, board, lock and spawning flag agree
on those fields forever. -/
theorem ef_run_agree {B : Type} :
    ∀ (evs : List (edgeflow.Cont B)) (s t : edgeflow.RState B),
    s.token = t.token → s.board = t.board → s.locked = t.locked →
    s.spawning = t.spawning →
    (edgeflow.runEvents evs s).token = (edgeflow.runEvents evs t).token ∧
    (edgeflow.runEvents evs s).board = (edgeflow.runEvents evs t).board ∧
    (edgeflow.runEvents evs s).locked = (edgeflow.runEvents evs t).locked ∧
    (edgeflow.runEvents evs s).spawning = (edgeflow.runEvents evs t).spawning := by
  intro evs
  induction evs with
  | nil => intro s t h1 h2 h3 h4; exact ⟨h1, h2, h3, h4⟩
  | cons e rest ih =>
    intro s t h1 h2 h3 h4
    obtain ⟨k1, k2, k3, k4⟩ := ef_applyCont_agree e s t h1 h2 h3 h4
    simpa only [edgeflow.runEvents, List.foldl_cons] using
      ih (edgeflow.applyCont e s) (edgeflow.applyCont e t) k1 k2 k3 k4

/-- Dropping the events whose captured token differs from the state's
current token does not change the resulting token, board, lock or spawning
flag: stale events are no-ops on those fields. -/
theorem ef_run_filter {B : Type} :
    ∀ (evs : List (edgeflow.Cont B)) (s : edgeflow.RState B),
    (edgeflow.runEvents evs s).token =
      (edgeflow.runEvents (evs.filter (fun e => decide (e.rid = s.token))) s).token ∧
    (edgeflow.runEvents evs s).board =
      (edgeflow.runEvents (evs.filter (fun e => decide (e.rid = s.token))) s).board ∧
    (edgeflow.runEvents evs s).locked =
      (edgeflow.runEvents (evs.filter (fun e => decide (e.rid = s.token))) s).locked ∧
    (edgeflow.runEvents evs s).spawning =
      (edgeflow.runEvents (evs.filter (fun e => decide (e.rid = s.token))) s).spawning := by
  intro evs
  induction evs with
  | nil => intro s; exact ⟨rfl, rfl, rfl, rfl⟩
  | cons e rest ih =>
    intro s
    by_cases he : e.rid = s.token
    · have hp : List.filter
          (fun x => decide (x.rid = (edgeflow.applyCont e s).token)) rest =
          List.filter (fun x => decide (x.rid = s.token)) rest := by
        simp only [ef_applyCont_token]
      have hih := ih (edgeflow.applyCont e s)
      rw [hp] at hih
      simpa [edgeflow.runEvents, List.filter_cons, he] using hih
    · obtain ⟨k1, k2, k3, k4⟩ :=
        ef_applyCont_stale_fields e s he
      obtain ⟨a1, a2, a3, a4⟩ :=
        ef_run_agree rest (edgeflow.applyCont e s) s k1 k2 k3 k4.2
      obtain ⟨b1, b2, b3, b4⟩ := ih s
      simp only [edgeflow.runEvents, List.foldl_cons, List.filter_cons, he,
        decide_eq_true_eq, if_false]
      exact ⟨a1.trans b1, a2.trans b2, a3.trans b3, a4.trans b4⟩

/-- C9 counterexample: the claim that a stale continuation performs "no
other state change" fails — a stale post-animation continuation clears the
shift-animation flag (`if (resolutionIdRef.current !== rid)
{ setShiftAnimating(false); return; }`). -/
theorem C9_cex :
    (edgeflow.Cont.anim 0 true false : edgeflow.Cont Bool).rid ≠
      (⟨1, false, false, edgeflow.Dir.DOWN, true, false⟩ :
        edgeflow.RState Bool).token ∧
    edgeflow.applyCont (edgeflow.Cont.anim 0 true false)
        (⟨1, false, false, edgeflow.Dir.DOWN, true, false⟩ :
          edgeflow.RState Bool) ≠
      (⟨1, false, false, edgeflow.Dir.DOWN, true, false⟩ :
        edgeflow.RState Bool) := by
  decide

/-- C9 (amended): a continuation observing a stale token performs no board
commit, no unlock, no token, gravity or spawning change — the only state it
may still touch is clearing the transient shift-animation flag.
Consequently, once a later resolution has bumped the token (here modelled by
`startResolve`, which increments it), any interleaving of stale events with
the new resolution's own events commits exactly the boards, lock and
spawning transitions of the new resolution alone. -/
theorem C9_token (B : Type) :
    (∀ (c : edgeflow.Cont B) (s : edgeflow.RState B), c.rid ≠ s.token →
      ((edgeflow.applyCont c s).token = s.token ∧
       (edgeflow.applyCont c s).board = s.board ∧
       (edgeflow.applyCont c s).locked = s.locked ∧
       (edgeflow.applyCont c s).gravity = s.gravity ∧
       (edgeflow.applyCont c s).spawning = s.spawning) ∧
      (edgeflow.applyCont c s = s ∨
       edgeflow.applyCont c s = { s with shiftAnim := false })) ∧
    (∀ (s : edgeflow.RState B) (nextG : B) (grav : edgeflow.Dir)
      (evs : List (edgeflow.Cont B)),
      (edgeflow.startResolve nextG grav s).token = s.token + 1 ∧
      (edgeflow.runEvents evs (edgeflow.startResolve nextG grav s)).board =
        (edgeflow.runEvents (evs.filter (fun e => decide (e.rid = s.token + 1)))
          (edgeflow.startResolve nextG grav s)).board ∧
      (edgeflow.runEvents evs (edgeflow.startResolve nextG grav s)).locked =
        (edgeflow.runEvents (evs.filter (fun e => decide (e.rid = s.token + 1)))
          (edgeflow.startResolve nextG grav s)).locked ∧
      (edgeflow.runEvents evs (edgeflow.startResolve nextG grav s)).token =
        (edgeflow.runEvents (evs.filter (fun e => decide (e.rid = s.token + 1)))
          (edgeflow.startResolve nextG grav s)).token) := by
  constructor
  · intro c s h
    exact ⟨ef_applyCont_stale_fields c s h, ef_applyCont_stale c s h⟩
  · intro s nextG grav evs
    obtain ⟨t1, b1, l1, _⟩ :=
      ef_run_filter evs (edgeflow.startResolve nextG grav s)
    exact ⟨rfl, b1, l1, t1⟩

/-- Witness for C9 at a concrete stale continuation and state. -/
theorem C9_token_witness :
    (edgeflow.Cont.lockTimer 0 : edgeflow.Cont Bool).rid ≠
      (⟨1, false, true, edgeflow.Dir.DOWN, false, false⟩ :
        edgeflow.RState Bool).token ∧
    (edgeflow.applyCont (edgeflow.Cont.lockTimer 0)
      (⟨1, false, true, edgeflow.Dir.DOWN, false, false⟩ :
        edgeflow.RState Bool)).locked = true := by
  refine ⟨by decide, ?_⟩
  have h := ((C9_token Bool).1 (edgeflow.Cont.lockTimer 0)
    ⟨1, false, true, edgeflow.Dir.DOWN, false, false⟩ (by decide)).1.2.2.1
  rw [h]

/-- Each direction's realizes-the-minimum test, as the code computes it
(`dist· === min`), coincides with the specification's formulation. -/
theorem ef_realizes_iff (p : Fin edgeflow.ROWS × Fin edgeflow.COLS) :
    ∀ d, (edgeflow.distTo d p =
        min p.1.val (min ((edgeflow.ROWS - 1) - p.1.val)
          (min p.2.val ((edgeflow.COLS - 1) - p.2.val)))) ↔
      edgeflow.realizesMin d p := by
  intro d
  constructor
  · intro h d'
    cases d <;> cases d' <;>
      simp only [edgeflow.distTo] at h ⊢ <;> omega
  · intro h
    have h1 := h edgeflow.Dir.UP
    have h2 := h edgeflow.Dir.DOWN
    have h3 := h edgeflow.Dir.LEFT
    have h4 := h edgeflow.Dir.RIGHT
    cases d <;> simp only [edgeflow.distTo] at h1 h2 h3 h4 ⊢ <;> omega

/-- The vote fold of `computeGravity` counts, per direction, the empty
cells whose distance in that direction equals the minimum distance. -/
theorem ef_votes_fold (g : edgeflow.Board) :
    ∀ (l : List (Fin edgeflow.ROWS × Fin edgeflow.COLS)) (v : edgeflow.Votes),
    ∀ d, (l.foldl (edgeflow.voteStep g) v).get d = v.get d +
      l.countP (fun p => (g p.1 p.2).isNone &&
        decide (edgeflow.distTo d p =
          min p.1.val (min ((edgeflow.ROWS - 1) - p.1.val)
            (min p.2.val ((edgeflow.COLS - 1) - p.2.val))))) := by
  intro l
  induction l with
  | nil => intro v d; simp
  | cons p rest ih =>
    intro v d
    rw [List.foldl_cons, List.countP_cons, ih]
    cases hg : g p.1 p.2 with
    | some tile =>
      simp [edgeflow.voteStep, hg]
    | none =>
      simp only [edgeflow.voteStep, hg, Option.isNone_none, Bool.true_and,
        decide_eq_true_eq]
      cases d <;>
        simp only [edgeflow.Votes.get, edgeflow.distTo] <;>
        split_ifs <;> omega

/-- `votesOf` gives each empty cell one vote for every direction realizing
its minimum distance to an edge. -/
theorem ef_votesOf_get (g : edgeflow.Board) (d : edgeflow.Dir) :
    (edgeflow.votesOf g).get d = edgeflow.allCells.countP
      (fun p => (g p.1 p.2).isNone && decide (edgeflow.realizesMin d p)) := by
  rw [edgeflow.votesOf, ef_votes_fold g edgeflow.allCells ⟨0, 0, 0, 0⟩ d]
  have h0 : (edgeflow.Votes.mk 0 0 0 0).get d = 0 := by cases d <;> rfl
  rw [h0, Nat.zero_add]
  apply List.countP_congr
  intro p _
  cases hg : g p.1 p.2 with
  | some tile => simp [hg]
  | none =>
    simp only [hg, Option.isNone_none, Bool.true_and]
    simpa only [decide_eq_true_eq] using ef_realizes_iff p d

/-- The best-direction fold of `computeGravity` returns a direction whose
vote count is maximal, together with that count; it moves off the current
direction only for a strictly larger count. -/
theorem ef_pickBest_spec (v : edgeflow.Votes) (cur : edgeflow.Dir) :
    (edgeflow.pickBest v cur).2 = v.get (edgeflow.pickBest v cur).1 ∧
    (∀ d, v.get d ≤ (edgeflow.pickBest v cur).2) ∧
    v.get cur ≤ (edgeflow.pickBest v cur).2 ∧
    ((edgeflow.pickBest v cur).1 = cur ∨
      v.get cur < (edgeflow.pickBest v cur).2) := by
  simp only [edgeflow.pickBest, edgeflow.DIRS, List.foldl_cons, List.foldl_nil,
    edgeflow.Votes.get]
  split_ifs <;>
    refine ⟨rfl, fun d => ?_, ?_, ?_⟩ <;>
    try cases d <;> simp only [edgeflow.Votes.get] <;> omega
  all_goals first
    | omega
    | exact Or.inl rfl

/-- On a board with no empty cell every direction's vote count is zero. -/
theorem ef_votes_zero (g : edgeflow.Board) (hf : edgeflow.anyEmpty g = false)
    (d : edgeflow.Dir) : (edgeflow.votesOf g).get d = 0 := by
  rw [ef_votesOf_get]
  rw [List.countP_eq_zero]
  intro p hp
  have := List.any_eq_false.mp hf p hp
  simp only [Bool.and_eq_true, decide_eq_true_eq]
  rintro ⟨h1, -⟩
  exact this h1

/-- C4: `computeGravity` votes per empty cell for every direction realizing
the minimal distance to an edge; it keeps the current direction on a full
board, and also whenever no other direction's total exceeds the current
one's by at least `FLOW_CHANGE_THRESHOLD`; otherwise it returns a direction
of maximal vote total, which beats the current one by at least the
threshold. -/
theorem C4_computeGravity (g : edgeflow.Board) (cur : edgeflow.Dir) :
    (∀ d, (edgeflow.votesOf g).get d = edgeflow.allCells.countP
      (fun p => (g p.1 p.2).isNone && decide (edgeflow.realizesMin d p))) ∧
    ((∀ p : Fin edgeflow.ROWS × Fin edgeflow.COLS, (g p.1 p.2).isSome = true) →
      edgeflow.computeGravity g cur = cur) ∧
    ((∀ d, ((edgeflow.votesOf g).get d : Int) <
        ((edgeflow.votesOf g).get cur : Int) + edgeflow.FLOW_CHANGE_THRESHOLD) →
      edgeflow.computeGravity g cur = cur) ∧
    ((∃ d, ((edgeflow.votesOf g).get cur : Int) + edgeflow.FLOW_CHANGE_THRESHOLD ≤
        ((edgeflow.votesOf g).get d : Int)) →
      edgeflow.computeGravity g cur ≠ cur ∧
      (∀ d, (edgeflow.votesOf g).get d ≤
        (edgeflow.votesOf g).get (edgeflow.computeGravity g cur)) ∧
      ((edgeflow.votesOf g).get cur : Int) + edgeflow.FLOW_CHANGE_THRESHOLD ≤
        ((edgeflow.votesOf g).get (edgeflow.computeGravity g cur) : Int)) := by
  obtain ⟨p1, p2, p3, p4⟩ := ef_pickBest_spec (edgeflow.votesOf g) cur
  refine ⟨ef_votesOf_get g, ?_, ?_, ?_⟩
  · intro hfull
    have hae : edgeflow.anyEmpty g = false := by
      rw [edgeflow.anyEmpty, List.any_eq_false]
      intro p _
      have hp := hfull p
      intro hnone
      rw [Option.isNone_iff_eq_none] at hnone
      rw [hnone] at hp
      simp at hp
    simp [edgeflow.computeGravity, hae]
  · intro hlt
    by_cases hae : edgeflow.anyEmpty g = false
    · simp [edgeflow.computeGravity, hae]
    · rw [Bool.not_eq_false] at hae
      simp only [edgeflow.computeGravity, hae, Bool.true_eq_false, if_false]
      by_cases hbc : (edgeflow.pickBest (edgeflow.votesOf g) cur).1 = cur
      · simp [hbc]
      · have hth : ((edgeflow.pickBest (edgeflow.votesOf g) cur).2 : Int) -
            ((edgeflow.votesOf g).get cur : Int) < edgeflow.FLOW_CHANGE_THRESHOLD := by
          have hl := hlt (edgeflow.pickBest (edgeflow.votesOf g) cur).1
          rw [← p1] at hl
          omega
        simp [hbc, hth]
  · rintro ⟨d, hd⟩
    have hne : edgeflow.anyEmpty g = true := by
      by_contra hae
      rw [Bool.not_eq_true] at hae
      rw [ef_votes_zero g hae d, ef_votes_zero g hae cur] at hd
      simp [edgeflow.FLOW_CHANGE_THRESHOLD] at hd
    have hd' : (edgeflow.votesOf g).get cur + 1 ≤ (edgeflow.votesOf g).get d := by
      exact_mod_cast hd
    have hbne : (edgeflow.pickBest (edgeflow.votesOf g) cur).1 ≠ cur := by
      intro he
      rw [he] at p1
      have h2d := p2 d
      omega
    have hbig : (edgeflow.votesOf g).get cur + 1 ≤
        (edgeflow.pickBest (edgeflow.votesOf g) cur).2 :=
      le_trans hd' (p2 d)
    have hth : ¬ (((edgeflow.pickBest (edgeflow.votesOf g) cur).2 : Int) -
        ((edgeflow.votesOf g).get cur : Int) < edgeflow.FLOW_CHANGE_THRESHOLD) := by
      simp only [edgeflow.FLOW_CHANGE_THRESHOLD]
      omega
    have hres : edgeflow.computeGravity g cur =
        (edgeflow.pickBest (edgeflow.votesOf g) cur).1 := by
      simp only [edgeflow.computeGravity, hne, Bool.true_eq_false, if_false]
      rw [if_neg hbne, if_neg hth]
    refine ⟨by rw [hres]; exact hbne, fun d' => ?_, ?_⟩
    · rw [hres, ← p1]
      exact p2 d'
    · rw [hres, ← p1]
      exact_mod_cast hbig

/-- Witness for C4: on the fully occupied example board the direction is
unchanged; on the two-tile example board DOWN's votes beat UP's by the
threshold, and the computed direction indeed moves off UP. -/
theorem C4_computeGravity_witness :
    ((∀ p : Fin edgeflow.ROWS × Fin edgeflow.COLS,
        (edgeflow.exFull p.1 p.2).isSome = true) ∧
      edgeflow.computeGravity edgeflow.exFull edgeflow.Dir.UP = edgeflow.Dir.UP) ∧
    ((((edgeflow.votesOf edgeflow.exPair).get edgeflow.Dir.UP : Int) +
        edgeflow.FLOW_CHANGE_THRESHOLD ≤
        ((edgeflow.votesOf edgeflow.exPair).get edgeflow.Dir.DOWN : Int)) ∧
      edgeflow.computeGravity edgeflow.exPair edgeflow.Dir.UP ≠ edgeflow.Dir.UP) :=
  ⟨⟨fun _ => rfl,
    (C4_computeGravity edgeflow.exFull edgeflow.Dir.UP).2.1 (fun _ => rfl)⟩,
   ⟨by decide,
    ((C4_computeGravity edgeflow.exPair edgeflow.Dir.UP).2.2.2
      ⟨edgeflow.Dir.DOWN, by decide⟩).1⟩⟩

/-- The gravity stack of a column is its list of present tiles reversed
(collected bottom to top). -/
theorem frag_colStack_eq (g : fragments.Board) (x : Fin fragments.COLS) :
    fragments.colStack g x = (fragments.presentCol g x).reverse := by
  rw [fragments.colStack, fragments.presentCol, fragments.colList,
    List.reduceOption, List.filterMap_map, List.filterMap_reverse]
  rfl

theorem frag_presentCol_len (g : fragments.Board) (x : Fin fragments.COLS) :
    (fragments.presentCol g x).length ≤ fragments.ROWS := by
  have h := List.reduceOption_length_le (fragments.colList g x)
  rwa [fragments.colList, List.length_map, List.length_finRange] at h

/-- Column shape after fragments' gravity: the present tiles of the column,
in their original top-to-bottom order, occupy the bottom-most cells, with
the empties above them. -/
theorem frag_grav_colList (g : fragments.Board) (x : Fin fragments.COLS) :
    fragments.colList (fragments.applyGravity g) x =
      List.replicate (fragments.ROWS - (fragments.presentCol g x).length) none ++
        (fragments.presentCol g x).map some := by
  have hk := frag_presentCol_len g x
  have h15 : fragments.ROWS = 15 := rfl
  apply List.ext_getElem
  · simp only [fragments.colList, List.length_map, List.length_finRange,
      List.length_append, List.length_replicate]
    omega
  · intro i hi1 hi2
    simp only [fragments.colList, List.length_map, List.length_finRange] at hi1
    have hget : (fragments.colList (fragments.applyGravity g) x)[i] =
        fragments.applyGravity g ⟨i, hi1⟩ x := by
      simp [fragments.colList]
    rw [hget]
    show (fragments.colStack g x)[fragments.ROWS - 1 - i]? = _
    rw [frag_colStack_eq]
    by_cases hcase : i < fragments.ROWS - (fragments.presentCol g x).length
    · rw [List.getElem_append_left (by simp only [List.length_replicate]; omega)]
      rw [List.getElem_replicate]
      rw [List.getElem?_eq_none]
      rw [List.length_reverse]
      omega
    · rw [List.getElem_append_right (by simp only [List.length_replicate]; omega)]
      have hidx : fragments.ROWS - 1 - i < (fragments.presentCol g x).reverse.length := by
        rw [List.length_reverse]
        omega
      rw [List.getElem?_eq_getElem hidx]
      rw [List.getElem_reverse]
      simp only [List.getElem_map, List.length_replicate]
      have hrev : (fragments.presentCol g x).reverse.length =
          (fragments.presentCol g x).length := List.length_reverse _
      rw [← List.getElem?_eq_getElem, ← List.getElem?_eq_getElem]
      congr 1
      omega

/-- Gravity preserves each column's present tiles and their order. -/
theorem frag_grav_present (g : fragments.Board) (x : Fin fragments.COLS) :
    fragments.presentCol (fragments.applyGravity g) x = fragments.presentCol g x := by
  rw [fragments.presentCol, frag_grav_colList, List.reduceOption_append]
  simp [List.reduceOption, List.filterMap_replicate, List.filterMap_map,
    Function.comp, List.filterMap_some]

/-- Reading cell `(x, y)` out of a column list. -/
theorem frag_colList_get (g : fragments.Board) (x : Fin fragments.COLS)
    (y : Fin fragments.ROWS) :
    (fragments.colList g x)[y.val]? = some (g y x) := by
  rw [fragments.colList, List.getElem?_map]
  rw [List.getElem?_eq_getElem (by simp)]
  simp

/-- Boards with equal columns are equal. -/
theorem frag_board_ext {g g' : fragments.Board}
    (h : ∀ x, fragments.colList g x = fragments.colList g' x) : g = g' := by
  funext y x
  have h1 : (fragments.colList g x)[y.val]? = (fragments.colList g' x)[y.val]? := by
    rw [h x]
  rw [frag_colList_get, frag_colList_get] at h1
  exact Option.some_injective _ h1

/-- A board whose every column is bottom-packed is a fixed point of
fragments' gravity. -/
theorem frag_grav_fixed {g : fragments.Board}
    (h : ∀ x, fragments.colList g x =
      List.replicate (fragments.ROWS - (fragments.presentCol g x).length) none ++
        (fragments.presentCol g x).map some) :
    fragments.applyGravity g = g := by
  apply frag_board_ext
  intro x
  rw [frag_grav_colList, ← h x]

/-- `isColEmpty` agrees with the specification-side emptiness test. -/
theorem frag_isColEmpty_iff (g : fragments.Board) (x : Fin fragments.COLS) :
    fragments.isColEmpty g x = true ↔ fragments.presentCol g x = [] := by
  rw [fragments.isColEmpty, List.all_eq_true, fragments.presentCol,
    fragments.colList, List.reduceOption, List.filterMap_map,
    List.filterMap_eq_nil_iff]
  constructor
  · intro h a ha
    have := h a ha
    simpa [Option.isNone_iff_eq_none] using this
  · intro h a ha
    have h2 := h a ha
    simp only [Function.comp, id] at h2
    simp [Option.isNone_iff_eq_none, h2]

theorem frag_leftCols_len (g : fragments.Board) :
    (fragments.leftColsOf g).length ≤ fragments.centerRight := by
  have hs : List.Sublist (fragments.leftColsOf g)
      ((List.finRange fragments.COLS).filter
        (fun x => decide (x.val ≤ fragments.centerLeft))) :=
    List.Sublist.filter _ (List.filter_sublist _)
  exact hs.length_le.trans (by decide)

theorem frag_rightCols_len (g : fragments.Board) :
    (fragments.rightColsOf g).length ≤ fragments.COLS - fragments.centerRight := by
  have hs : List.Sublist (fragments.rightColsOf g)
      ((List.finRange fragments.COLS).filter
        (fun x => !decide (x.val ≤ fragments.centerLeft))) :=
    List.Sublist.filter _ (List.filter_sublist _)
  exact hs.length_le.trans (by decide)

/-- Left-half source mapping of the compaction: output column
`centerRight - leftCols.length + i` receives left source column `i`. -/
theorem frag_srcOf_left (g : fragments.Board) (i : Nat)
    (hi : i < (fragments.leftColsOf g).length) :
    fragments.srcOf g
      ⟨fragments.centerRight - (fragments.leftColsOf g).length + i, by
        have := frag_leftCols_len g
        have h6 : fragments.centerRight = 6 := rfl
        have h12 : fragments.COLS = 12 := rfl
        omega⟩ = some ((fragments.leftColsOf g)[i]) := by
  have h6 : fragments.centerRight = 6 := rfl
  have h5 : fragments.centerLeft = 5 := rfl
  have hlen := frag_leftCols_len g
  have hle : fragments.centerRight - (fragments.leftColsOf g).length + i ≤
      fragments.centerLeft := by omega
  simp only [fragments.srcOf]
  rw [if_pos hle]
  rw [List.getElem?_append_right (by simp only [List.length_replicate]; exact Nat.le_add_right _ _)]
  rw [show fragments.centerRight - (fragments.leftColsOf g).length + i -
      (List.replicate (fragments.centerRight - (fragments.leftColsOf g).length)
        (none : Option (Fin fragments.COLS))).length = i from by
    simp only [List.length_replicate]; omega]
  rw [List.getElem?_map]
  rw [List.getElem?_eq_getElem hi]
  rfl

/-- Output columns left of the packed left half are empty. -/
theorem frag_srcOf_left_none (g : fragments.Board) (x : Fin fragments.COLS)
    (hx : x.val + (fragments.leftColsOf g).length < fragments.centerRight) :
    fragments.srcOf g x = none := by
  have h6 : fragments.centerRight = 6 := rfl
  have h5 : fragments.centerLeft = 5 := rfl
  have hx5 : x.val ≤ fragments.centerLeft := by omega
  simp only [fragments.srcOf]
  rw [if_pos hx5]
  rw [List.getElem?_append_left (by simp only [List.length_replicate]; omega)]
  rw [List.getElem?_replicate_of_lt (by omega)]
  rfl

/-- Right-half source mapping: output column `centerRight + i` receives
right source column `i`. -/
theorem frag_srcOf_right (g : fragments.Board) (i : Nat)
    (hi : i < (fragments.rightColsOf g).length) :
    fragments.srcOf g
      ⟨fragments.centerRight + i, by
        have := frag_rightCols_len g
        have h6 : fragments.centerRight = 6 := rfl
        have h12 : fragments.COLS = 12 := rfl
        omega⟩ = some ((fragments.rightColsOf g)[i]) := by
  have h6 : fragments.centerRight = 6 := rfl
  have h5 : fragments.centerLeft = 5 := rfl
  have hgt : ¬ (fragments.centerRight + i ≤ fragments.centerLeft) := by omega
  simp only [fragments.srcOf]
  rw [if_neg hgt]
  rw [show fragments.centerRight + i - fragments.centerRight = i from by omega]
  rw [List.getElem?_append_left (by simp only [List.length_map]; omega)]
  rw [List.getElem?_map]
  rw [List.getElem?_eq_getElem hi]
  rfl

/-- Output columns right of the packed right half are empty. -/
theorem frag_srcOf_right_none (g : fragments.Board) (x : Fin fragments.COLS)
    (hx : fragments.centerRight + (fragments.rightColsOf g).length ≤ x.val) :
    fragments.srcOf g x = none := by
  have h6 : fragments.centerRight = 6 := rfl
  have h5 : fragments.centerLeft = 5 := rfl
  have h12 : fragments.COLS = 12 := rfl
  have hxlt : x.val < fragments.COLS := x.isLt
  have hgt : ¬ (x.val ≤ fragments.centerLeft) := by omega
  have hlen := frag_rightCols_len g
  simp only [fragments.srcOf]
  rw [if_neg hgt]
  rw [List.getElem?_append_right (by simp only [List.length_map]; omega)]
  rw [List.getElem?_replicate]
  rw [if_pos (by simp only [List.length_map]; omega)]
  rfl

/-- In the compacting branch, each output column of `centerOutCompressCols`
is a whole copy of its source column, or empty. -/
theorem frag_centerOut_col (g : fragments.Board)
    (hnt : ¬ ((fragments.nonEmptyCols g).length = 0 ∨
      (fragments.nonEmptyCols g).length = fragments.COLS))
    (x : Fin fragments.COLS) :
    fragments.colList (fragments.centerOutCompressCols g) x =
      (match fragments.srcOf g x with
       | some s => fragments.colList g s
       | none => List.replicate fragments.ROWS none) := by
  cases hs : fragments.srcOf g x with
  | some s =>
    simp only [fragments.colList, fragments.centerOutCompressCols, hnt, if_false]
    simp [hs]
  | none =>
    simp only [fragments.colList, fragments.centerOutCompressCols, hnt, if_false]
    simp [hs, List.map_const']

/-- Membership in `nonEmptyCols` is non-emptiness of the column. -/
theorem frag_mem_nonEmptyCols (g : fragments.Board) (x : Fin fragments.COLS) :
    x ∈ fragments.nonEmptyCols g ↔ fragments.presentCol g x ≠ [] := by
  rw [fragments.nonEmptyCols, List.mem_filter]
  simp only [List.mem_finRange, true_and, Bool.not_eq_true']
  constructor
  · intro h hc
    rw [← frag_isColEmpty_iff] at hc
    rw [hc] at h
    cases h
  · intro h
    cases hce : fragments.isColEmpty g x
    · rfl
    · exact absurd ((frag_isColEmpty_iff g x).mp hce) h

/-- With no non-empty column the board is entirely empty. -/
theorem frag_nonEmptyCols_zero (g : fragments.Board)
    (hz : (fragments.nonEmptyCols g).length = 0) :
    ∀ x, fragments.presentCol g x = [] := by
  intro x
  rw [List.length_eq_zero] at hz
  by_contra hne
  have := (frag_mem_nonEmptyCols g x).mpr hne
  rw [hz] at this
  cases this

/-- With every column non-empty, `nonEmptyCols` is the full index list. -/
theorem frag_nonEmptyCols_full (g : fragments.Board)
    (hf : (fragments.nonEmptyCols g).length = fragments.COLS) :
    fragments.nonEmptyCols g = List.finRange fragments.COLS := by
  apply List.Sublist.eq_of_length (List.filter_sublist _)
  simpa using hf

/-- Gravity does not change which columns are empty. -/
theorem frag_grav_isColEmpty (g : fragments.Board) (x : Fin fragments.COLS) :
    fragments.isColEmpty (fragments.applyGravity g) x = fragments.isColEmpty g x := by
  cases hce : fragments.isColEmpty g x
  · cases hg : fragments.isColEmpty (fragments.applyGravity g) x
    · rfl
    · have h1 := (frag_isColEmpty_iff _ x).mp hg
      rw [frag_grav_present] at h1
      rw [← frag_isColEmpty_iff] at h1
      rw [h1] at hce
      cases hce
  · have h1 := (frag_isColEmpty_iff g x).mp hce
    rw [← frag_grav_present g x] at h1
    exact (frag_isColEmpty_iff _ x).mpr h1

theorem frag_grav_nonEmptyCols (g : fragments.Board) :
    fragments.nonEmptyCols (fragments.applyGravity g) = fragments.nonEmptyCols g := by
  rw [fragments.nonEmptyCols, fragments.nonEmptyCols]
  apply List.filter_congr
  intro x _
  rw [frag_grav_isColEmpty]

/-- `nonEmptyIdxs` of the original board names exactly the `nonEmpty`
columns the compaction computes on the gravity output. -/
theorem frag_nonEmptyIdxs_eq (g : fragments.Board) :
    fragments.nonEmptyIdxs g =
      (fragments.nonEmptyCols (fragments.applyGravity g)).map Fin.val := by
  rw [frag_grav_nonEmptyCols, fragments.nonEmptyIdxs, fragments.nonEmptyCols,
    List.filter_map]
  congr 1
  apply List.filter_congr
  intro x _
  simp only [Function.comp]
  have hpa : fragments.presentAt g x.val = fragments.presentCol g x := by
    rw [fragments.presentAt, fragments.colAt, dif_pos x.isLt]
    congr
  rw [hpa]
  cases hce : fragments.isColEmpty g x
  · have h1 : fragments.presentCol g x ≠ [] := by
      intro hc
      rw [← frag_isColEmpty_iff] at hc
      rw [hc] at hce
      cases hce
    simp [h1]
  · have h1 := (frag_isColEmpty_iff g x).mp hce
    simp [h1]

theorem frag_leftIdxs_eq (g : fragments.Board) :
    fragments.leftIdxs g =
      (fragments.leftColsOf (fragments.applyGravity g)).map Fin.val := by
  rw [fragments.leftIdxs, frag_nonEmptyIdxs_eq, fragments.leftColsOf,
    List.filter_map]
  exact congrArg (List.map Fin.val) (List.filter_congr (fun x _ => rfl))

theorem frag_rightIdxs_eq (g : fragments.Board) :
    fragments.rightIdxs g =
      (fragments.rightColsOf (fragments.applyGravity g)).map Fin.val := by
  rw [fragments.rightIdxs, frag_nonEmptyIdxs_eq, fragments.rightColsOf,
    List.filter_map]
  congr 1
  apply List.filter_congr
  intro x _
  simp only [Function.comp]
  apply decide_eq_decide.mpr
  have h6 : fragments.centerLeft = 5 := rfl
  have h2 : fragments.COLS / 2 = 6 := rfl
  omega

/-- Present tiles of an output column of the compacting branch. -/
theorem frag_centerOut_present (g : fragments.Board)
    (hnt : ¬ ((fragments.nonEmptyCols g).length = 0 ∨
      (fragments.nonEmptyCols g).length = fragments.COLS))
    (x : Fin fragments.COLS) :
    fragments.presentCol (fragments.centerOutCompressCols g) x =
      (match fragments.srcOf g x with
       | some s => fragments.presentCol g s
       | none => []) := by
  rw [fragments.presentCol, frag_centerOut_col g hnt]
  cases fragments.srcOf g x with
  | some s => rfl
  | none => simp [List.reduceOption, List.filterMap_replicate]

theorem frag_packed_reduce (l : List fragments.Tile) :
    (List.replicate (fragments.ROWS - l.length) (none : Option fragments.Tile) ++
      l.map some).reduceOption = l := by
  rw [List.reduceOption_append]
  simp [List.reduceOption, List.filterMap_replicate, List.filterMap_map,
    Function.comp, List.filterMap_some]

theorem frag_colAt_pos (g : fragments.Board) (j : Nat) (h : j < fragments.COLS) :
    fragments.colAt g j = fragments.colList g ⟨j, h⟩ :=
  dif_pos h

/-- C2: Policy A settling (column gravity, then center-out column
compaction).  Gravity bottom-packs every column preserving the tiles'
relative vertical order; the settled board is still bottom-packed per
column; the non-empty columns of the left half are packed rightward ending
at `COLS/2 - 1` and those of the right half leftward starting at `COLS/2`,
each half preserving its original relative order; all other columns of the
settled board are empty, so empty columns end up at the two outer edges. -/
theorem C2_settleA (g : fragments.Board) :
    (∀ x : Fin fragments.COLS,
      fragments.colList (fragments.applyGravity g) x =
        List.replicate (fragments.ROWS - (fragments.presentCol g x).length) none ++
          (fragments.presentCol g x).map some) ∧
    (∀ x : Fin fragments.COLS,
      fragments.colList (fragments.settleA g) x =
        List.replicate
            (fragments.ROWS - (fragments.presentCol (fragments.settleA g) x).length)
            none ++
          (fragments.presentCol (fragments.settleA g) x).map some) ∧
    (fragments.leftIdxs g).length ≤ fragments.COLS / 2 ∧
    (fragments.rightIdxs g).length ≤ fragments.COLS / 2 ∧
    (∀ i (h : i < (fragments.leftIdxs g).length),
      fragments.colAt (fragments.settleA g)
          (fragments.COLS / 2 - (fragments.leftIdxs g).length + i) =
        fragments.colAt (fragments.applyGravity g)
          ((fragments.leftIdxs g).get ⟨i, h⟩)) ∧
    (∀ i (h : i < (fragments.rightIdxs g).length),
      fragments.colAt (fragments.settleA g) (fragments.COLS / 2 + i) =
        fragments.colAt (fragments.applyGravity g)
          ((fragments.rightIdxs g).get ⟨i, h⟩)) ∧
    (∀ x : Fin fragments.COLS,
      (x.val + (fragments.leftIdxs g).length < fragments.COLS / 2 ∨
       fragments.COLS / 2 + (fragments.rightIdxs g).length ≤ x.val) →
      fragments.presentCol (fragments.settleA g) x = []) := by
  have h15 : fragments.ROWS = 15 := rfl
  have h12 : fragments.COLS = 12 := rfl
  have h2 : fragments.COLS / 2 = 6 := rfl
  have hCR : fragments.centerRight = 6 := rfl
  have hLlen : (fragments.leftIdxs g).length =
      (fragments.leftColsOf (fragments.applyGravity g)).length := by
    rw [frag_leftIdxs_eq, List.length_map]
  have hRlen : (fragments.rightIdxs g).length =
      (fragments.rightColsOf (fragments.applyGravity g)).length := by
    rw [frag_rightIdxs_eq, List.length_map]
  by_cases htriv : (fragments.nonEmptyCols (fragments.applyGravity g)).length = 0 ∨
      (fragments.nonEmptyCols (fragments.applyGravity g)).length = fragments.COLS
  · -- the early-return branch: the compaction returns the gravity output
    have hs : fragments.settleA g = fragments.applyGravity g := by
      rw [fragments.settleA, fragments.centerOutCompressCols, if_pos htriv]
    cases htriv with
    | inl hz =>
      have hempty := frag_nonEmptyCols_zero _ hz
      have hLz : (fragments.leftColsOf (fragments.applyGravity g)).length = 0 := by
        rw [fragments.leftColsOf, List.length_eq_zero, List.filter_eq_nil_iff]
        intro x hx
        exact absurd ((frag_mem_nonEmptyCols _ x).mp hx) (by simp [hempty x])
      have hRz : (fragments.rightColsOf (fragments.applyGravity g)).length = 0 := by
        rw [fragments.rightColsOf, List.length_eq_zero, List.filter_eq_nil_iff]
        intro x hx
        exact absurd ((frag_mem_nonEmptyCols _ x).mp hx) (by simp [hempty x])
      refine ⟨fun x => frag_grav_colList g x, ?_, by omega, by omega, ?_, ?_, ?_⟩
      · intro x
        rw [hs, frag_grav_present g x, frag_grav_colList g x]
      · intro i h
        rw [hLlen, hLz] at h
        omega
      · intro i h
        rw [hRlen, hRz] at h
        omega
      · intro x _
        rw [hs, frag_grav_present]
        have hp := frag_grav_present g x
        rw [hempty x] at hp
        simpa using hp
    | inr hf =>
      have hne := frag_nonEmptyCols_full _ hf
      have hLc : fragments.leftColsOf (fragments.applyGravity g) =
          ((List.finRange fragments.COLS).filter
            (fun x => decide (x.val ≤ fragments.centerLeft))) := by
        rw [fragments.leftColsOf, hne]
      have hRc : fragments.rightColsOf (fragments.applyGravity g) =
          ((List.finRange fragments.COLS).filter
            (fun x => decide (¬ (x.val ≤ fragments.centerLeft)))) := by
        rw [fragments.rightColsOf, hne]
      have hLi : fragments.leftIdxs g = [0, 1, 2, 3, 4, 5] := by
        rw [frag_leftIdxs_eq, hLc]
        decide
      have hRi : fragments.rightIdxs g = [6, 7, 8, 9, 10, 11] := by
        rw [frag_rightIdxs_eq, hRc]
        decide
      refine ⟨fun x => frag_grav_colList g x, ?_, ?_, ?_, ?_, ?_, ?_⟩
      · intro x
        rw [hs, frag_grav_present g x, frag_grav_colList g x]
      · rw [hLi]; decide
      · rw [hRi]; decide
      · intro i h
        rw [hs]
        have h6 : i < 6 := by rw [hLi] at h; simpa using h
        have hgi : (fragments.leftIdxs g).get ⟨i, h⟩ = i := by
          rw [List.get_eq_getElem]
          have : ∀ (j : Nat) (hj : j < ([0,1,2,3,4,5] : List Nat).length),
              ([0,1,2,3,4,5] : List Nat)[j] = j := by
            intro j hj
            simp only [List.length_cons, List.length_nil] at hj
            interval_cases j <;> rfl
          simp only [hLi]
          exact this i (by simpa [hLi] using h)
        rw [hgi]
        have hlen6 : (fragments.leftIdxs g).length = 6 := by rw [hLi]; rfl
        rw [hlen6]
        congr 1
        omega
      · intro i h
        rw [hs]
        have h6 : i < 6 := by rw [hRi] at h; simpa using h
        have hgi : (fragments.rightIdxs g).get ⟨i, h⟩ = 6 + i := by
          rw [List.get_eq_getElem]
          have : ∀ (j : Nat) (hj : j < ([6,7,8,9,10,11] : List Nat).length),
              ([6,7,8,9,10,11] : List Nat)[j] = 6 + j := by
            intro j hj
            simp only [List.length_cons, List.length_nil] at hj
            interval_cases j <;> rfl
          simp only [hRi]
          exact this i (by simpa [hRi] using h)
        rw [hgi, h2]
      · intro x hx
        rw [hLlen, hLc] at hx
        rw [hRlen, hRc] at hx
        have hx12 := x.isLt
        rcases hx with hx | hx
        · rw [show ((List.finRange fragments.COLS).filter
            (fun x => decide (x.val ≤ fragments.centerLeft))).length = 6 from by decide]
            at hx
          omega
        · rw [show ((List.finRange fragments.COLS).filter
            (fun x => decide (¬ (x.val ≤ fragments.centerLeft)))).length = 6 from by decide]
            at hx
          omega
  · -- the compacting branch
    have hseq : fragments.settleA g =
        fragments.centerOutCompressCols (fragments.applyGravity g) := rfl
    have hLle := frag_leftCols_len (fragments.applyGravity g)
    have hRle := frag_rightCols_len (fragments.applyGravity g)
    refine ⟨fun x => frag_grav_colList g x, ?_, by omega, by omega, ?_, ?_, ?_⟩
    · intro x
      rw [hseq, frag_centerOut_present _ htriv x, frag_centerOut_col _ htriv x]
      cases hsrc : fragments.srcOf (fragments.applyGravity g) x with
      | some src =>
        simp only
        rw [frag_grav_colList g src, frag_grav_present g src]
      | none =>
        simp
    · intro i h
      have hi' : i < (fragments.leftColsOf (fragments.applyGravity g)).length := by
        omega
      have hidx : fragments.COLS / 2 - (fragments.leftIdxs g).length + i =
          fragments.centerRight -
            (fragments.leftColsOf (fragments.applyGravity g)).length + i := by
        omega
      have hbound : fragments.centerRight -
          (fragments.leftColsOf (fragments.applyGravity g)).length + i <
          fragments.COLS := by omega
      rw [hseq, hidx, frag_colAt_pos _ _ hbound, frag_centerOut_col _ htriv]
      rw [frag_srcOf_left (fragments.applyGravity g) i hi']
      have hgval : (fragments.leftIdxs g).get ⟨i, h⟩ =
          ((fragments.leftColsOf (fragments.applyGravity g)).get
            ⟨i, hi'⟩).val := by
        rw [List.get_eq_getElem, List.get_eq_getElem]
        have hh := frag_leftIdxs_eq g
        rw [List.getElem_of_eq hh, List.getElem_map]
      rw [hgval, frag_colAt_pos _ _ (Fin.isLt _)]
      rfl
    · intro i h
      have hi' : i < (fragments.rightColsOf (fragments.applyGravity g)).length := by
        omega
      have hidx : fragments.COLS / 2 + i = fragments.centerRight + i := by omega
      have hbound : fragments.centerRight + i < fragments.COLS := by omega
      rw [hseq, hidx, frag_colAt_pos _ _ hbound, frag_centerOut_col _ htriv]
      rw [frag_srcOf_right (fragments.applyGravity g) i hi']
      have hgval : (fragments.rightIdxs g).get ⟨i, h⟩ =
          ((fragments.rightColsOf (fragments.applyGravity g)).get
            ⟨i, hi'⟩).val := by
        rw [List.get_eq_getElem, List.get_eq_getElem]
        have hh := frag_rightIdxs_eq g
        rw [List.getElem_of_eq hh, List.getElem_map]
      rw [hgval, frag_colAt_pos _ _ (Fin.isLt _)]
      rfl
    · intro x hx
      rw [hseq, frag_centerOut_present _ htriv x]
      rcases hx with hx | hx
      · rw [frag_srcOf_left_none (fragments.applyGravity g) x (by omega)]
      · rw [frag_srcOf_right_none (fragments.applyGravity g) x (by omega)]

/-- Witness for C2 at the single-corner-tile example board: its one
non-empty column (index 0) is relocated to end at column `COLS/2 - 1`, and
column 0 of the settled board is empty. -/
theorem C2_settleA_witness :
    0 < (fragments.leftIdxs fragments.exCorner).length ∧
    fragments.colAt (fragments.settleA fragments.exCorner)
        (fragments.COLS / 2 - (fragments.leftIdxs fragments.exCorner).length + 0) =
      fragments.colAt (fragments.applyGravity fragments.exCorner)
        ((fragments.leftIdxs fragments.exCorner).get ⟨0, by decide⟩) ∧
    fragments.presentCol (fragments.settleA fragments.exCorner) ⟨0, by decide⟩ = [] :=
  ⟨by decide,
   (C2_settleA fragments.exCorner).2.2.2.2.1 0 (by decide),
   (C2_settleA fragments.exCorner).2.2.2.2.2.2 ⟨0, by decide⟩
     (Or.inl (by decide))⟩

/-- The multiset of a `filterMap` is the sum of per-element contributions. -/
theorem ms_filterMap {α β : Type} (f : α → Option β) :
    ∀ l : List α, ((l.filterMap f : List β) : Multiset β) =
      (l.map (fun a => ((f a).toList : Multiset β))).sum := by
  intro l
  induction l with
  | nil => simp
  | cons a l ih =>
    rw [List.filterMap_cons]
    cases hf : f a with
    | none => simpa [hf] using ih
    | some b =>
      simp only [List.map_cons, List.sum_cons, hf]
      rw [← ih]
      rfl

/-- The multiset of a `flatMap` is the sum of its pieces. -/
theorem ms_flatMap {α β : Type} (f : α → List β) :
    ∀ l : List α, ((l.flatMap f : List β) : Multiset β) =
      (l.map (fun a => (f a : Multiset β))).sum := by
  intro l
  induction l with
  | nil => simp
  | cons a l ih =>
    rw [List.flatMap_cons]
    simp only [List.map_cons, List.sum_cons]
    rw [← ih]
    rfl

/-- The multiset of a `reduceOption` is the sum of entry contributions. -/
theorem ms_reduceOption {β : Type} (l : List (Option β)) :
    ((l.reduceOption : List β) : Multiset β) =
      (l.map (fun o => ((Option.toList o : List β) : Multiset β))).sum := by
  rw [List.reduceOption]
  rw [ms_filterMap]
  rfl

/-- List sums of mapped `finRange` as `Finset` sums. -/
theorem ms_sum_finRange {M : Type} [AddCommMonoid M] (n : Nat) (f : Fin n → M) :
    ((List.finRange n).map f).sum = ∑ i : Fin n, f i :=
  (Fin.sum_univ_def f).symm

/-- The column multiset: present tiles of a column, as cell contributions. -/
theorem frag_colMS (g : fragments.Board) (x : Fin fragments.COLS) :
    ((fragments.presentCol g x : List fragments.Tile) : Multiset fragments.Tile) =
      ∑ y : Fin fragments.ROWS, (((g y x).toList : List fragments.Tile) :
        Multiset fragments.Tile) := by
  rw [fragments.presentCol, fragments.colList, List.reduceOption,
    List.filterMap_map]
  rw [ms_filterMap]
  rw [← ms_sum_finRange]
  rfl

/-- The board multiset decomposes as the sum of its column multisets. -/
theorem frag_tileMS (g : fragments.Board) :
    fragments.tileMultiset g =
      ∑ x : Fin fragments.COLS,
        ((fragments.presentCol g x : List fragments.Tile) :
          Multiset fragments.Tile) := by
  rw [fragments.tileMultiset, fragments.tileList, ms_flatMap]
  have hrow : ∀ y : Fin fragments.ROWS,
      (((List.finRange fragments.COLS).filterMap (fun x => g y x) :
        List fragments.Tile) : Multiset fragments.Tile) =
      ∑ x : Fin fragments.COLS, (((g y x).toList : List fragments.Tile) :
        Multiset fragments.Tile) := by
    intro y
    rw [ms_filterMap, ← ms_sum_finRange]
  calc ((List.finRange fragments.ROWS).map (fun y =>
        (((List.finRange fragments.COLS).filterMap (fun x => g y x) :
          List fragments.Tile) : Multiset fragments.Tile))).sum
      = ((List.finRange fragments.ROWS).map (fun y =>
          ∑ x : Fin fragments.COLS, (((g y x).toList : List fragments.Tile) :
            Multiset fragments.Tile))).sum := by
        congr 1
        exact List.map_congr_left (fun y _ => hrow y)
    _ = ∑ y : Fin fragments.ROWS, ∑ x : Fin fragments.COLS,
          (((g y x).toList : List fragments.Tile) : Multiset fragments.Tile) := by
        rw [ms_sum_finRange]
    _ = ∑ x : Fin fragments.COLS, ∑ y : Fin fragments.ROWS,
          (((g y x).toList : List fragments.Tile) : Multiset fragments.Tile) :=
        Finset.sum_comm
    _ = ∑ x : Fin fragments.COLS,
          ((fragments.presentCol g x : List fragments.Tile) :
            Multiset fragments.Tile) := by
        apply Finset.sum_congr rfl
        intro x _
        rw [frag_colMS]

/-- Splitting a sum over the 12 columns into the two halves. -/
theorem fin12_sum_split {M : Type} [AddCommMonoid M] (F : Fin 12 → M) :
    ∑ x : Fin 12, F x =
      (∑ i : Fin 6, F ⟨i.val, by omega⟩) + ∑ i : Fin 6, F ⟨6 + i.val, by omega⟩ :=
  Fin.sum_univ_add (fun x : Fin (6 + 6) => F x)

/-- Summing an option-selector over the positions of a six-element list. -/
theorem pad_sum6 {M : Type} [AddCommMonoid M] (P : List (Option (Fin 12)))
    (hP : P.length = 6) (h : Option (Fin 12) → M) :
    ∑ i : Fin 6, h ((P[i.val]?).join) = (P.map h).sum := by
  rcases P with _ | ⟨a, _ | ⟨b, _ | ⟨c, _ | ⟨d, _ | ⟨e, _ | ⟨f0, _ | ⟨g0, P⟩⟩⟩⟩⟩⟩⟩ <;>
    simp at hP
  simp [Fin.sum_univ_succ]

/-- Sums over a filtered list agree with sums over the list when dropped
elements contribute zero. -/
theorem filter_sum_zero {α M : Type} [AddCommMonoid M] (q : α → Bool)
    (f : α → M) :
    ∀ l : List α, (∀ a ∈ l, q a = false → f a = 0) →
    ((l.filter q).map f).sum = (l.map f).sum := by
  intro l
  induction l with
  | nil => intro h0; rfl
  | cons a l ih =>
    intro h0
    rw [List.filter_cons]
    cases hq : q a with
    | true =>
      simp only [if_true, List.map_cons, List.sum_cons]
      rw [ih (fun b hb => h0 b (List.mem_cons_of_mem a hb))]
    | false =>
      simp only [Bool.false_eq_true, if_false, List.map_cons, List.sum_cons]
      rw [h0 a (List.mem_cons_self a l) hq, ih
        (fun b hb => h0 b (List.mem_cons_of_mem a hb)), zero_add]

theorem frag_rightCols_not (g : fragments.Board) :
    fragments.rightColsOf g = (fragments.nonEmptyCols g).filter
      (fun x => !(decide (x.val ≤ fragments.centerLeft))) := by
  rw [fragments.rightColsOf]
  apply List.filter_congr
  intro x _
  exact decide_not

/-- Center-out column compaction preserves the board's tile multiset. -/
theorem frag_centerOut_ms (h : fragments.Board) :
    fragments.tileMultiset (fragments.centerOutCompressCols h) =
      fragments.tileMultiset h := by
  by_cases htriv : (fragments.nonEmptyCols h).length = 0 ∨
      (fragments.nonEmptyCols h).length = fragments.COLS
  · rw [fragments.centerOutCompressCols, if_pos htriv]
  · have hCL : fragments.centerLeft = 5 := rfl
    have hCR : fragments.centerRight = 6 := rfl
    have h12 : fragments.COLS = 12 := rfl
    have hLle := frag_leftCols_len h
    have hRle := frag_rightCols_len h
    set f : Fin fragments.COLS → Multiset fragments.Tile :=
      fun s => ((fragments.presentCol h s : List fragments.Tile) :
        Multiset fragments.Tile) with hf
    set hfun : Option (Fin fragments.COLS) → Multiset fragments.Tile :=
      fun o => (match o with | some s => f s | none => 0) with hhfun
    have hcol : ∀ x, ((fragments.presentCol (fragments.centerOutCompressCols h) x :
        List fragments.Tile) : Multiset fragments.Tile) =
        hfun (fragments.srcOf h x) := by
      intro x
      rw [frag_centerOut_present h htriv x]
      cases fragments.srcOf h x <;> rfl
    rw [frag_tileMS, frag_tileMS]
    calc ∑ x : Fin fragments.COLS,
          ((fragments.presentCol (fragments.centerOutCompressCols h) x :
            List fragments.Tile) : Multiset fragments.Tile)
        = ∑ x : Fin fragments.COLS, hfun (fragments.srcOf h x) :=
          Finset.sum_congr rfl (fun x _ => hcol x)
      _ = (∑ i : Fin 6, hfun (fragments.srcOf h ⟨i.val, by omega⟩)) +
          ∑ i : Fin 6, hfun (fragments.srcOf h ⟨6 + i.val, by omega⟩) :=
          fin12_sum_split (fun x => hfun (fragments.srcOf h x))
      _ = ((fragments.leftColsOf h).map f).sum +
          ((fragments.rightColsOf h).map f).sum := by
          congr 1
          · have hsrc : ∀ i : Fin 6, fragments.srcOf h ⟨i.val, by omega⟩ =
                ((List.replicate
                    (fragments.centerRight - (fragments.leftColsOf h).length)
                    (none : Option (Fin fragments.COLS)) ++
                  (fragments.leftColsOf h).map some)[i.val]?).join := by
              intro i
              simp only [fragments.srcOf]
              rw [if_pos (show i.val ≤ fragments.centerLeft by omega)]
            calc ∑ i : Fin 6, hfun (fragments.srcOf h ⟨i.val, by omega⟩)
                = ∑ i : Fin 6, hfun ((( List.replicate
                    (fragments.centerRight - (fragments.leftColsOf h).length)
                    (none : Option (Fin fragments.COLS)) ++
                  (fragments.leftColsOf h).map some)[i.val]?).join) :=
                  Finset.sum_congr rfl (fun i _ => by rw [hsrc i])
              _ = ((List.replicate
                    (fragments.centerRight - (fragments.leftColsOf h).length)
                    (none : Option (Fin fragments.COLS)) ++
                  (fragments.leftColsOf h).map some).map hfun).sum := by
                  apply pad_sum6
                  simp only [List.length_append, List.length_replicate,
                    List.length_map]
                  omega
              _ = ((fragments.leftColsOf h).map f).sum := by
                  rw [List.map_append, List.map_replicate, List.map_map,
                    List.sum_append]
                  have hz : hfun (none : Option (Fin fragments.COLS)) = 0 := rfl
                  rw [hz]
                  simp only [List.sum_replicate, smul_zero, zero_add]
                  rfl
          · have hsrc : ∀ i : Fin 6, fragments.srcOf h ⟨6 + i.val, by omega⟩ =
                (((fragments.rightColsOf h).map some ++
                  List.replicate (fragments.COLS - fragments.centerRight -
                    (fragments.rightColsOf h).length)
                    (none : Option (Fin fragments.COLS)))[i.val]?).join := by
              intro i
              simp only [fragments.srcOf]
              rw [if_neg (show ¬ (6 + i.val ≤ fragments.centerLeft) by omega)]
              rw [show 6 + i.val - fragments.centerRight = i.val from by omega]
            calc ∑ i : Fin 6, hfun (fragments.srcOf h ⟨6 + i.val, by omega⟩)
                = ∑ i : Fin 6, hfun ((((fragments.rightColsOf h).map some ++
                  List.replicate (fragments.COLS - fragments.centerRight -
                    (fragments.rightColsOf h).length)
                    (none : Option (Fin fragments.COLS)))[i.val]?).join) :=
                  Finset.sum_congr rfl (fun i _ => by rw [hsrc i])
              _ = (((fragments.rightColsOf h).map some ++
                  List.replicate (fragments.COLS - fragments.centerRight -
                    (fragments.rightColsOf h).length)
                    (none : Option (Fin fragments.COLS))).map hfun).sum := by
                  apply pad_sum6
                  simp only [List.length_append, List.length_replicate,
                    List.length_map]
                  omega
              _ = ((fragments.rightColsOf h).map f).sum := by
                  rw [List.map_append, List.map_replicate, List.map_map,
                    List.sum_append]
                  have hz : hfun (none : Option (Fin fragments.COLS)) = 0 := rfl
                  rw [hz]
                  simp only [List.sum_replicate, smul_zero, add_zero]
                  rfl
      _ = (((fragments.leftColsOf h) ++ (fragments.rightColsOf h)).map f).sum := by
          rw [List.map_append, List.sum_append]
      _ = ((fragments.nonEmptyCols h).map f).sum := by
          apply List.Perm.sum_eq
          apply List.Perm.map
          rw [fragments.leftColsOf, frag_rightCols_not]
          exact List.filter_append_perm _ _
      _ = ((List.finRange fragments.COLS).map f).sum := by
          rw [fragments.nonEmptyCols]
          apply filter_sum_zero
          intro x _ hq
          have hce : fragments.isColEmpty h x = true := by
            cases hc : fragments.isColEmpty h x
            · rw [hc] at hq; cases hq
            · rfl
          rw [hf]
          simp only
          rw [(frag_isColEmpty_iff h x).mp hce]
          rfl
      _ = ∑ x : Fin fragments.COLS, f x := ms_sum_finRange _ f

theorem ef_compactFront_len (l : List (Option edgeflow.Tile)) :
    (edgeflow.compactFront l).length = l.length := by
  rw [edgeflow.compactFront, List.length_append, List.length_map,
    List.length_replicate]
  have := List.reduceOption_length_le l
  omega

theorem ef_compactFront_reduce (l : List (Option edgeflow.Tile)) :
    (edgeflow.compactFront l).reduceOption = l.reduceOption := by
  rw [edgeflow.compactFront, List.reduceOption_append]
  simp [List.reduceOption, List.filterMap_replicate, List.filterMap_map,
    Function.comp, List.filterMap_some]

theorem ef_line_entries (l : List (Option edgeflow.Tile)) (hl : l.length = 7) :
    (List.finRange 7).map (fun y : Fin 7 => (l[y.val]?).join) = l := by
  apply List.ext_getElem
  · simp [hl]
  · intro i h1 h2
    simp only [List.length_map, List.length_finRange] at h1
    simp only [List.getElem_map, List.getElem_finRange]
    rw [List.getElem?_eq_getElem (by omega)]
    rfl

theorem ef_line_entries_rev (l : List (Option edgeflow.Tile)) (hl : l.length = 7) :
    (List.finRange 7).map (fun y : Fin 7 => (l[7 - 1 - y.val]?).join) = l.reverse := by
  apply List.ext_getElem
  · simp [hl]
  · intro i h1 h2
    simp only [List.length_map, List.length_finRange] at h1
    simp only [List.getElem_map, List.getElem_finRange]
    show (l[7 - 1 - i]?).join = l.reverse[i]
    have h2' : i < l.reverse.length := h2
    have e1 : l.reverse[i]? = l[7 - 1 - i]? := by
      rw [List.getElem?_reverse (by rw [List.length_reverse] at h2'; exact h2')]
      congr 1
      rw [hl]
    rw [← e1, List.getElem?_eq_getElem h2']
    rfl

/-- The multiset of a reversed option line. -/
theorem ms_reduce_reverse (l : List (Option edgeflow.Tile)) :
    ((l.reverse.reduceOption : List edgeflow.Tile) : Multiset edgeflow.Tile) =
      (l.reduceOption : List edgeflow.Tile) := by
  rw [List.reduceOption, List.filterMap_reverse]
  exact Multiset.coe_reverse _

theorem ef_readLine_len (g : edgeflow.Board) (d : edgeflow.Dir) (fixed : Nat)
    (hf : fixed < 7) : (edgeflow.readLine g d fixed).length = 7 := by
  rw [edgeflow.readLine]
  cases hv : d.vertical <;> cases ht : d.towardStart <;>
    simp [hv, ht, hf]

theorem ef_readLine_ms_v (g : edgeflow.Board) (d : edgeflow.Dir)
    (hv : d.vertical = true) (x : Fin edgeflow.COLS) :
    (((edgeflow.readLine g d x.val).reduceOption : List edgeflow.Tile) :
      Multiset edgeflow.Tile) =
      ∑ y : Fin edgeflow.ROWS, (((g y x).toList : List edgeflow.Tile) :
        Multiset edgeflow.Tile) := by
  rw [edgeflow.readLine]
  simp only [hv, if_true, x.isLt, dif_pos]
  cases ht : d.towardStart
  · simp only [Bool.false_eq_true, if_false]
    rw [List.map_reverse, ms_reduce_reverse]
    rw [ms_reduceOption, List.map_map, ms_sum_finRange]
    apply Finset.sum_congr rfl
    intro y _
    simp [Function.comp]
  · simp only [if_true]
    rw [ms_reduceOption, List.map_map, ms_sum_finRange]
    apply Finset.sum_congr rfl
    intro y _
    simp [Function.comp]

theorem ef_readLine_ms_h (g : edgeflow.Board) (d : edgeflow.Dir)
    (hv : d.vertical = false) (y : Fin edgeflow.ROWS) :
    (((edgeflow.readLine g d y.val).reduceOption : List edgeflow.Tile) :
      Multiset edgeflow.Tile) =
      ∑ x : Fin edgeflow.COLS, (((g y x).toList : List edgeflow.Tile) :
        Multiset edgeflow.Tile) := by
  rw [edgeflow.readLine]
  simp only [hv, Bool.false_eq_true, if_false, y.isLt, dif_pos]
  cases ht : d.towardStart
  · simp only [Bool.false_eq_true, if_false]
    rw [List.map_reverse, ms_reduce_reverse]
    rw [ms_reduceOption, List.map_map, ms_sum_finRange]
    apply Finset.sum_congr rfl
    intro x _
    simp [Function.comp]
  · simp only [if_true]
    rw [ms_reduceOption, List.map_map, ms_sum_finRange]
    apply Finset.sum_congr rfl
    intro x _
    simp [Function.comp]

theorem ef_tileMS (g : edgeflow.Board) :
    edgeflow.tileMultiset g =
      ∑ y : Fin edgeflow.ROWS, ∑ x : Fin edgeflow.COLS,
        (((g y x).toList : List edgeflow.Tile) : Multiset edgeflow.Tile) := by
  rw [edgeflow.tileMultiset, edgeflow.tileList, ms_flatMap]
  calc ((List.finRange edgeflow.ROWS).map (fun y =>
        (((List.finRange edgeflow.COLS).filterMap (fun x => g y x) :
          List edgeflow.Tile) : Multiset edgeflow.Tile))).sum
      = ((List.finRange edgeflow.ROWS).map (fun y =>
          ∑ x : Fin edgeflow.COLS, (((g y x).toList : List edgeflow.Tile) :
            Multiset edgeflow.Tile))).sum := by
        congr 1
        apply List.map_congr_left
        intro y _
        rw [ms_filterMap, ← ms_sum_finRange]
    _ = ∑ y : Fin edgeflow.ROWS, ∑ x : Fin edgeflow.COLS,
          (((g y x).toList : List edgeflow.Tile) : Multiset edgeflow.Tile) := by
        rw [ms_sum_finRange]

/-- The column of the shifted board in top-to-bottom order, for a vertical
gravity direction. -/
theorem ef_grav_col_v (g : edgeflow.Board) (d : edgeflow.Dir)
    (hv : d.vertical = true) (x : Fin edgeflow.COLS) :
    (List.finRange 7).map (fun y : Fin 7 => (edgeflow.applyGravity g d).1 y x) =
      (if d.towardStart then
        edgeflow.compactFront (edgeflow.readLine g d x.val)
       else (edgeflow.compactFront (edgeflow.readLine g d x.val)).reverse) := by
  have hlen : (edgeflow.compactFront (edgeflow.readLine g d x.val)).length = 7 := by
    rw [ef_compactFront_len, ef_readLine_len g d x.val x.isLt]
  cases ht : d.towardStart
  · simp only [Bool.false_eq_true, if_false]
    rw [show (fun y : Fin 7 => (edgeflow.applyGravity g d).1 y x) =
        (fun y : Fin 7 =>
          ((edgeflow.compactFront (edgeflow.readLine g d x.val))[7 - 1 - y.val]?).join)
      from funext fun y => by simp [edgeflow.applyGravity, hv, ht]]
    exact ef_line_entries_rev _ hlen
  · simp only [if_true]
    rw [show (fun y : Fin 7 => (edgeflow.applyGravity g d).1 y x) =
        (fun y : Fin 7 =>
          ((edgeflow.compactFront (edgeflow.readLine g d x.val))[y.val]?).join)
      from funext fun y => by simp [edgeflow.applyGravity, hv, ht]]
    exact ef_line_entries _ hlen

/-- The row of the shifted board in left-to-right order, for a horizontal
gravity direction. -/
theorem ef_grav_row_h (g : edgeflow.Board) (d : edgeflow.Dir)
    (hv : d.vertical = false) (y : Fin edgeflow.ROWS) :
    (List.finRange 7).map (fun x : Fin 7 => (edgeflow.applyGravity g d).1 y x) =
      (if d.towardStart then
        edgeflow.compactFront (edgeflow.readLine g d y.val)
       else (edgeflow.compactFront (edgeflow.readLine g d y.val)).reverse) := by
  have hlen : (edgeflow.compactFront (edgeflow.readLine g d y.val)).length = 7 := by
    rw [ef_compactFront_len, ef_readLine_len g d y.val y.isLt]
  cases ht : d.towardStart
  · simp only [Bool.false_eq_true, if_false]
    rw [show (fun x : Fin 7 => (edgeflow.applyGravity g d).1 y x) =
        (fun x : Fin 7 =>
          ((edgeflow.compactFront (edgeflow.readLine g d y.val))[7 - 1 - x.val]?).join)
      from funext fun x => by simp [edgeflow.applyGravity, hv, ht]]
    exact ef_line_entries_rev _ hlen
  · simp only [if_true]
    rw [show (fun x : Fin 7 => (edgeflow.applyGravity g d).1 y x) =
        (fun x : Fin 7 =>
          ((edgeflow.compactFront (edgeflow.readLine g d y.val))[x.val]?).join)
      from funext fun x => by simp [edgeflow.applyGravity, hv, ht]]
    exact ef_line_entries _ hlen

/-- Edgeflow's four-directional gravity preserves the tile multiset. -/
theorem ef_grav_ms (g : edgeflow.Board) (d : edgeflow.Dir) :
    edgeflow.tileMultiset ((edgeflow.applyGravity g d).1) =
      edgeflow.tileMultiset g := by
  cases hv : d.vertical
  · -- horizontal: decompose by rows
    rw [ef_tileMS, ef_tileMS]
    apply Finset.sum_congr rfl
    intro y _
    have hrow := ef_grav_row_h g d hv y
    have hms : ∑ x : Fin edgeflow.COLS,
        ((((edgeflow.applyGravity g d).1 y x).toList : List edgeflow.Tile) :
          Multiset edgeflow.Tile) =
        ((((List.finRange 7).map
            (fun x : Fin 7 => (edgeflow.applyGravity g d).1 y x)).reduceOption :
          List edgeflow.Tile) : Multiset edgeflow.Tile) := by
      rw [ms_reduceOption, List.map_map, ms_sum_finRange]
      apply Finset.sum_congr rfl
      intro x _
      simp [Function.comp]
    rw [hms, hrow]
    cases ht : d.towardStart <;> simp only [Bool.false_eq_true, if_false, if_true]
    · rw [ms_reduce_reverse, ef_compactFront_reduce, ef_readLine_ms_h g d hv y]
    · rw [ef_compactFront_reduce, ef_readLine_ms_h g d hv y]
  · -- vertical: decompose by columns
    rw [ef_tileMS, ef_tileMS, Finset.sum_comm]
    rw [show ∑ y : Fin edgeflow.ROWS, ∑ x : Fin edgeflow.COLS,
        (((g y x).toList : List edgeflow.Tile) : Multiset edgeflow.Tile) =
        ∑ x : Fin edgeflow.COLS, ∑ y : Fin edgeflow.ROWS,
        (((g y x).toList : List edgeflow.Tile) : Multiset edgeflow.Tile) from
      Finset.sum_comm]
    apply Finset.sum_congr rfl
    intro x _
    have hcol := ef_grav_col_v g d hv x
    have hms : ∑ y : Fin edgeflow.ROWS,
        ((((edgeflow.applyGravity g d).1 y x).toList : List edgeflow.Tile) :
          Multiset edgeflow.Tile) =
        ((((List.finRange 7).map
            (fun y : Fin 7 => (edgeflow.applyGravity g d).1 y x)).reduceOption :
          List edgeflow.Tile) : Multiset edgeflow.Tile) := by
      rw [ms_reduceOption, List.map_map, ms_sum_finRange]
      apply Finset.sum_congr rfl
      intro y _
      simp [Function.comp]
    rw [hms, hcol]
    cases ht : d.towardStart <;> simp only [Bool.false_eq_true, if_false, if_true]
    · rw [ms_reduce_reverse, ef_compactFront_reduce, ef_readLine_ms_v g d hv x]
    · rw [ef_compactFront_reduce, ef_readLine_ms_v g d hv x]

theorem frag_grav_ms (g : fragments.Board) :
    fragments.tileMultiset (fragments.applyGravity g) = fragments.tileMultiset g := by
  rw [frag_tileMS, frag_tileMS]
  apply Finset.sum_congr rfl
  intro x _
  rw [frag_grav_present]

/-- C5: settling neither creates, destroys nor duplicates tiles — the
multiset of whole tiles (hence of ids) is preserved by Policy A's gravity
and center-out compaction (separately and composed) and by Policy B's
four-directional gravity. -/
theorem C5_conservation :
    (∀ g : fragments.Board,
      fragments.tileMultiset (fragments.settleA g) = fragments.tileMultiset g) ∧
    (∀ g : fragments.Board,
      fragments.tileMultiset (fragments.applyGravity g) =
        fragments.tileMultiset g) ∧
    (∀ g : fragments.Board,
      fragments.tileMultiset (fragments.centerOutCompressCols g) =
        fragments.tileMultiset g) ∧
    (∀ (g : edgeflow.Board) (d : edgeflow.Dir),
      edgeflow.tileMultiset ((edgeflow.applyGravity g d).1) =
        edgeflow.tileMultiset g) :=
  ⟨fun g => (frag_centerOut_ms (fragments.applyGravity g)).trans (frag_grav_ms g),
   frag_grav_ms, frag_centerOut_ms, ef_grav_ms⟩

theorem ef_reduce_pack (a : List edgeflow.Tile) (m : Nat) :
    (a.map some ++ List.replicate m (none : Option edgeflow.Tile)).reduceOption = a := by
  rw [List.reduceOption_append]
  simp [List.reduceOption, List.filterMap_replicate, List.filterMap_map,
    Function.comp, List.filterMap_some]

theorem ef_presentIdxs_cons (x : Option edgeflow.Tile) (rest : List (Option edgeflow.Tile)) :
    edgeflow.presentIdxs (x :: rest) =
      (if x.isSome then [0] else []) ++ (edgeflow.presentIdxs rest).map (· + 1) := by
  rw [edgeflow.presentIdxs, List.enum_cons', List.filterMap_cons]
  cases hx : x.isSome <;> simp only [hx, if_true, Bool.false_eq_true, if_false]
  · rw [List.nil_append, edgeflow.presentIdxs]
    rw [List.filterMap_map, List.map_filterMap]
    congr 1
    funext p
    cases hp : p.2.isSome <;> simp [Prod.map, hp]
  · rw [List.cons_append, List.nil_append, edgeflow.presentIdxs]
    rw [List.filterMap_map, List.map_filterMap]
    congr 2
    funext p
    cases hp : p.2.isSome <;> simp [Prod.map, hp]

theorem ef_presentIdxs_pack :
    ∀ (a : List edgeflow.Tile) (m : Nat),
    edgeflow.presentIdxs (a.map some ++ List.replicate m none) =
      List.range a.length := by
  intro a
  induction a with
  | nil =>
    intro m
    induction m with
    | zero => rfl
    | succ m ihm =>
      rw [List.map_nil, List.nil_append] at ihm ⊢
      rw [List.replicate_succ, ef_presentIdxs_cons, ihm]
      rfl
  | cons t a iha =>
    intro m
    rw [List.map_cons, List.cons_append, ef_presentIdxs_cons, iha m]
    rw [List.length_cons, List.range_succ_eq_map]
    rfl

theorem ef_movedLine_compact (l : List (Option edgeflow.Tile)) :
    edgeflow.movedLine (edgeflow.compactFront l) = false := by
  rw [edgeflow.movedLine, decide_eq_false_iff_not, not_not,
    edgeflow.compactFront, ef_presentIdxs_pack, ef_reduce_pack]

theorem ef_compact_idem (l : List (Option edgeflow.Tile)) :
    edgeflow.compactFront (edgeflow.compactFront l) = edgeflow.compactFront l := by
  conv_lhs => rw [edgeflow.compactFront]
  rw [ef_compactFront_reduce, ef_compactFront_len]
  rfl

/-- A line all of whose tiles precede all of its holes (in read order)
decomposes canonically as tiles followed by holes. -/
theorem ef_packed_canon :
    ∀ l : List (Option edgeflow.Tile),
    (∀ i j : Nat, i ≤ j → ((l[j]?).join).isSome = true →
      ((l[i]?).join).isSome = true) →
    ∃ (a : List edgeflow.Tile) (m : Nat),
      l = a.map some ++ List.replicate m none := by
  intro l
  induction l with
  | nil => intro _; exact ⟨[], 0, rfl⟩
  | cons x rest ih =>
    intro hp
    cases x with
    | some t =>
      obtain ⟨a, m, ha⟩ := ih (fun i j hij hj => by
        have := hp (i + 1) (j + 1) (by omega)
        simpa using this (by simpa using hj))
      exact ⟨t :: a, m, by rw [ha]; rfl⟩
    | none =>
      have hall : ∀ o ∈ rest, o = none := by
        intro o ho
        obtain ⟨j, hj, hjo⟩ := List.getElem_of_mem ho
        cases o with
        | none => rfl
        | some b =>
          have hsome : (((none :: rest : List (Option edgeflow.Tile))[j + 1]?).join).isSome
              = true := by
            rw [List.getElem?_cons_succ, List.getElem?_eq_getElem hj, hjo]
            rfl
          have h0 := hp 0 (j + 1) (by omega) hsome
          simp at h0
      exact ⟨[], rest.length + 1, by
        rw [List.map_nil, List.nil_append, List.replicate_succ]
        congr 1
        exact List.eq_replicate_of_mem hall⟩

/-- Edgeflow boards with equal columns are equal. -/
theorem ef_board_ext {g g' : edgeflow.Board}
    (h : ∀ x : Fin edgeflow.COLS,
      (List.finRange 7).map (fun y : Fin 7 => g y x) =
      (List.finRange 7).map (fun y : Fin 7 => g' y x)) : g = g' := by
  funext y x
  have h1 := congrArg (fun l => l[y.val]?) (h x)
  simp only [List.getElem?_map] at h1
  rw [List.getElem?_eq_getElem (by simp [y.isLt])] at h1
  simp only [List.getElem_finRange, Option.map_some'] at h1
  exact Option.some_injective _ (by simpa using h1)

/-- The gravity output's lines, read in scan order, are the compacted
input lines. -/
theorem ef_readLine_grav (g : edgeflow.Board) (d : edgeflow.Dir) (f : Nat)
    (hf : f < 7) :
    edgeflow.readLine ((edgeflow.applyGravity g d).1) d f =
      edgeflow.compactFront (edgeflow.readLine g d f) := by
  cases hv : d.vertical
  · have hrow := ef_grav_row_h g d hv ⟨f, hf⟩
    rw [edgeflow.readLine]
    simp only [hv, Bool.false_eq_true, if_false, hf, dif_pos]
    cases ht : d.towardStart
    · simp only [Bool.false_eq_true, if_false]
      rw [List.map_reverse, hrow]
      simp only [ht, Bool.false_eq_true, if_false]
      rw [List.reverse_reverse]
    · simp only [if_true]
      rw [hrow]
      simp only [ht, if_true]
  · have hcol := ef_grav_col_v g d hv ⟨f, hf⟩
    rw [edgeflow.readLine]
    simp only [hv, if_true, hf, dif_pos]
    cases ht : d.towardStart
    · simp only [Bool.false_eq_true, if_false]
      rw [List.map_reverse, hcol]
      simp only [ht, Bool.false_eq_true, if_false]
      rw [List.reverse_reverse]
    · simp only [if_true]
      rw [hcol]
      simp only [ht, if_true]

/-- An out-of-range fixed index gives the empty read line. -/
theorem ef_readLine_oob (g : edgeflow.Board) (d : edgeflow.Dir) (f : Nat)
    (hf : ¬ f < 7) : edgeflow.readLine g d f = [] := by
  rw [edgeflow.readLine]
  cases d.vertical
  · simp only [Bool.false_eq_true, if_false]
    rw [dif_neg hf]
  · simp only [if_true]
    rw [dif_neg hf]

/-- A board column in top-to-bottom order, versus the read line of a
vertical gravity direction. -/
theorem ef_input_col_v (g : edgeflow.Board) (d : edgeflow.Dir)
    (hv : d.vertical = true) (x : Fin edgeflow.COLS) :
    (List.finRange 7).map (fun y : Fin 7 => g y x) =
      (if d.towardStart then edgeflow.readLine g d x.val
       else (edgeflow.readLine g d x.val).reverse) := by
  rw [edgeflow.readLine]
  simp only [hv, if_true, x.isLt, dif_pos]
  cases ht : d.towardStart
  · simp only [Bool.false_eq_true, if_false]
    rw [List.map_reverse, List.reverse_reverse]
  · simp only [if_true]

/-- A board row in left-to-right order, versus the read line of a
horizontal gravity direction. -/
theorem ef_input_row_h (g : edgeflow.Board) (d : edgeflow.Dir)
    (hv : d.vertical = false) (y : Fin edgeflow.ROWS) :
    (List.finRange 7).map (fun x : Fin 7 => g y x) =
      (if d.towardStart then edgeflow.readLine g d y.val
       else (edgeflow.readLine g d y.val).reverse) := by
  rw [edgeflow.readLine]
  simp only [hv, Bool.false_eq_true, if_false, y.isLt, dif_pos]
  cases ht : d.towardStart
  · simp only [Bool.false_eq_true, if_false]
    rw [List.map_reverse, List.reverse_reverse]
  · simp only [if_true]

/-- Edgeflow boards with equal rows are equal. -/
theorem ef_board_ext_row {g g' : edgeflow.Board}
    (h : ∀ y : Fin edgeflow.ROWS,
      (List.finRange 7).map (fun x : Fin 7 => g y x) =
      (List.finRange 7).map (fun x : Fin 7 => g' y x)) : g = g' := by
  funext y x
  have h1 := congrArg (fun l => l[x.val]?) (h y)
  simp only [List.getElem?_map] at h1
  rw [List.getElem?_eq_getElem (by simp [x.isLt])] at h1
  simp only [List.getElem_finRange, Option.map_some'] at h1
  exact Option.some_injective _ (by simpa using h1)

/-- If every line of the board is already compacted, `applyGravity`
returns the board unchanged with `moved = false`. -/
theorem ef_grav_fixed (g : edgeflow.Board) (d : edgeflow.Dir)
    (hfix : ∀ f, f < 7 →
      edgeflow.compactFront (edgeflow.readLine g d f) =
        edgeflow.readLine g d f) :
    edgeflow.applyGravity g d = (g, false) := by
  have h1 : (edgeflow.applyGravity g d).1 = g := by
    cases hv : d.vertical
    · apply ef_board_ext_row
      intro y
      rw [ef_grav_row_h g d hv y, hfix y.val y.isLt, ← ef_input_row_h g d hv y]
    · apply ef_board_ext
      intro x
      rw [ef_grav_col_v g d hv x, hfix x.val x.isLt, ← ef_input_col_v g d hv x]
  have h2 : (edgeflow.applyGravity g d).2 = false := by
    show (List.range (edgeflow.fixedMax d)).any
      (fun f => edgeflow.movedLine (edgeflow.readLine g d f)) = false
    rw [List.any_eq_false]
    intro f hf
    have hf7 : f < 7 := by
      have : edgeflow.fixedMax d ≤ 7 := by
        rw [edgeflow.fixedMax]
        cases d.vertical <;> simp
      have := List.mem_range.mp hf
      omega
    rw [← hfix f hf7, ef_movedLine_compact]
    simp
  rw [Prod.ext_iff]
  exact ⟨h1, h2⟩

/-- On a board settled in direction `d`, every read line has its tiles
before its holes in scan order. -/
theorem ef_settled_pack (g : edgeflow.Board) (d : edgeflow.Dir)
    (hs : edgeflow.settledIn g d) (f : Nat) (i j : Nat) (hij : i ≤ j)
    (hj : (((edgeflow.readLine g d f)[j]?).join).isSome = true) :
    (((edgeflow.readLine g d f)[i]?).join).isSome = true := by
  have h7r : edgeflow.ROWS = 7 := rfl
  have h7c : edgeflow.COLS = 7 := rfl
  by_cases hf : f < 7
  · cases d with
    | UP =>
      have hv : edgeflow.Dir.UP.vertical = true := rfl
      have ht : edgeflow.Dir.UP.towardStart = true := rfl
      rw [edgeflow.readLine] at hj ⊢
      simp only [hv, if_true, hf, dif_pos, ht] at hj ⊢
      rw [List.getElem?_map] at hj ⊢
      have hj7 : j < 7 := by
        by_contra hje
        rw [List.getElem?_eq_none (by simp; omega)] at hj
        simp at hj
      have hi7 : i < 7 := by omega
      rw [List.getElem?_eq_getElem (by simp [hj7])] at hj
      rw [List.getElem?_eq_getElem (by simp [hi7])]
      simp only [List.getElem_finRange, Option.map_some'] at hj ⊢
      exact hs ⟨f, hf⟩ ⟨j, hj7⟩ ⟨i, hi7⟩ hij hj
    | DOWN =>
      have hv : edgeflow.Dir.DOWN.vertical = true := rfl
      have ht : edgeflow.Dir.DOWN.towardStart = false := rfl
      rw [edgeflow.readLine] at hj ⊢
      simp only [hv, if_true, hf, dif_pos, ht, Bool.false_eq_true, if_false]
        at hj ⊢
      rw [List.getElem?_map] at hj ⊢
      have hj7 : j < 7 := by
        by_contra hje
        rw [List.getElem?_eq_none (by simp; omega)] at hj
        simp at hj
      have hi7 : i < 7 := by omega
      rw [List.getElem?_reverse (by simp [hj7])] at hj
      rw [List.getElem?_reverse (by simp [hi7])]
      simp only [List.length_finRange] at hj ⊢
      rw [List.getElem?_eq_getElem (by simp; omega)] at hj
      rw [List.getElem?_eq_getElem (by simp; omega)]
      simp only [List.getElem_finRange, Option.map_some'] at hj ⊢
      exact hs ⟨f, hf⟩ ⟨7 - 1 - j, by omega⟩ ⟨7 - 1 - i, by omega⟩
        (by show 7 - 1 - j ≤ 7 - 1 - i; omega) hj
    | LEFT =>
      have hv : edgeflow.Dir.LEFT.vertical = false := rfl
      have ht : edgeflow.Dir.LEFT.towardStart = true := rfl
      rw [edgeflow.readLine] at hj ⊢
      simp only [hv, Bool.false_eq_true, if_false, hf, dif_pos, ht, if_true]
        at hj ⊢
      rw [List.getElem?_map] at hj ⊢
      have hj7 : j < 7 := by
        by_contra hje
        rw [List.getElem?_eq_none (by simp; omega)] at hj
        simp at hj
      have hi7 : i < 7 := by omega
      rw [List.getElem?_eq_getElem (by simp [hj7])] at hj
      rw [List.getElem?_eq_getElem (by simp [hi7])]
      simp only [List.getElem_finRange, Option.map_some'] at hj ⊢
      exact hs ⟨f, hf⟩ ⟨j, hj7⟩ ⟨i, hi7⟩ hij hj
    | RIGHT =>
      have hv : edgeflow.Dir.RIGHT.vertical = false := rfl
      have ht : edgeflow.Dir.RIGHT.towardStart = false := rfl
      rw [edgeflow.readLine] at hj ⊢
      simp only [hv, Bool.false_eq_true, if_false, hf, dif_pos, ht] at hj ⊢
      rw [List.getElem?_map] at hj ⊢
      have hj7 : j < 7 := by
        by_contra hje
        rw [List.getElem?_eq_none (by simp; omega)] at hj
        simp at hj
      have hi7 : i < 7 := by omega
      rw [List.getElem?_reverse (by simp [hj7])] at hj
      rw [List.getElem?_reverse (by simp [hi7])]
      simp only [List.length_finRange] at hj ⊢
      rw [List.getElem?_eq_getElem (by simp; omega)] at hj
      rw [List.getElem?_eq_getElem (by simp; omega)]
      simp only [List.getElem_finRange, Option.map_some'] at hj ⊢
      exact hs ⟨f, hf⟩ ⟨7 - 1 - j, by omega⟩ ⟨7 - 1 - i, by omega⟩
        (by show 7 - 1 - j ≤ 7 - 1 - i; omega) hj
  · rw [ef_readLine_oob g d f hf] at hj
    simp at hj

/-- A line whose tiles all precede its holes is a fixed point of
`compactFront`. -/
theorem ef_packed_compact (l : List (Option edgeflow.Tile))
    (hp : ∀ i j : Nat, i ≤ j → (((l)[j]?).join).isSome = true →
      (((l)[i]?).join).isSome = true) :
    edgeflow.compactFront l = l := by
  obtain ⟨a, m, rfl⟩ := ef_packed_canon l hp
  rw [edgeflow.compactFront, ef_reduce_pack, List.length_append,
    List.length_map, List.length_replicate]
  congr 2
  omega

/-- A board already settled in direction `d` passes through `applyGravity`
unchanged, with `moved = false`. -/
theorem ef_settled_grav (g : edgeflow.Board) (d : edgeflow.Dir)
    (hs : edgeflow.settledIn g d) :
    edgeflow.applyGravity g d = (g, false) :=
  ef_grav_fixed g d (fun f _ =>
    ef_packed_compact (edgeflow.readLine g d f) (ef_settled_pack g d hs f))

/-- Edgeflow's gravity is idempotent on its own output: re-applying it
reports `moved = false` and leaves the board unchanged. -/
theorem ef_grav_idem (g : edgeflow.Board) (d : edgeflow.Dir) :
    edgeflow.applyGravity ((edgeflow.applyGravity g d).1) d =
      ((edgeflow.applyGravity g d).1, false) :=
  ef_grav_fixed _ d (fun f hf => by
    rw [ef_readLine_grav g d f hf, ef_compact_idem])

/-- Every column of a settled fragments board is bottom-packed. -/
theorem frag_settleA_packed (g : fragments.Board) (x : Fin fragments.COLS) :
    fragments.colList (fragments.settleA g) x =
      List.replicate
          (fragments.ROWS -
            (fragments.presentCol (fragments.settleA g) x).length) none ++
        (fragments.presentCol (fragments.settleA g) x).map some := by
  by_cases hb : (fragments.nonEmptyCols (fragments.applyGravity g)).length = 0 ∨
      (fragments.nonEmptyCols (fragments.applyGravity g)).length = fragments.COLS
  · have hs : fragments.settleA g = fragments.applyGravity g := by
      rw [fragments.settleA, fragments.centerOutCompressCols, if_pos hb]
    rw [hs, frag_grav_colList, frag_grav_present]
  · rw [fragments.settleA, frag_centerOut_col _ hb, frag_centerOut_present _ hb]
    cases hsrc : fragments.srcOf (fragments.applyGravity g) x with
    | some s =>
      simp only [hsrc]
      rw [frag_grav_colList, frag_grav_present]
    | none =>
      simp only [hsrc]
      simp

/-- The settled board is a fixed point of fragments' gravity. -/
theorem frag_grav_settleA (g : fragments.Board) :
    fragments.applyGravity (fragments.settleA g) = fragments.settleA g :=
  frag_grav_fixed (frag_settleA_packed g)

/-- The non-empty columns split into the left-half and right-half lists. -/
theorem frag_nonEmpty_split (g : fragments.Board) :
    (fragments.nonEmptyCols g).length =
      (fragments.leftColsOf g).length + (fragments.rightColsOf g).length := by
  have hperm := List.filter_append_perm
    (fun x : Fin fragments.COLS => decide (x.val ≤ fragments.centerLeft))
    (fragments.nonEmptyCols g)
  have hlen := hperm.length_eq
  rw [List.length_append] at hlen
  rw [fragments.leftColsOf, frag_rightCols_not, ← hlen]

/-- Filtering the column indices by a left-anchored interval ending at the
center. -/
theorem frag_iv_left : ∀ L : Nat, L < 7 →
    (((List.finRange 12).filter
        (fun x : Fin 12 => decide (6 - L ≤ x.val ∧ x.val < 6))).length = L ∧
      ∀ i : Nat, i < L →
        ((((List.finRange 12).filter
            (fun x : Fin 12 => decide (6 - L ≤ x.val ∧ x.val < 6)))[i]?).map
          Fin.val) = some (6 - L + i)) := by decide

/-- Filtering the column indices by a right-anchored interval starting at
the center. -/
theorem frag_iv_right : ∀ R : Nat, R < 7 →
    (((List.finRange 12).filter
        (fun x : Fin 12 => decide (6 ≤ x.val ∧ x.val < 6 + R))).length = R ∧
      ∀ i : Nat, i < R →
        ((((List.finRange 12).filter
            (fun x : Fin 12 => decide (6 ≤ x.val ∧ x.val < 6 + R)))[i]?).map
          Fin.val) = some (6 + i)) := by decide

/-- `srcOf`, left half, phrased by the value of the output column. -/
theorem frag_srcOf_left_val (g : fragments.Board) (x : Fin fragments.COLS)
    (i : Nat) (hi : i < (fragments.leftColsOf g).length)
    (hx : x.val = fragments.centerRight - (fragments.leftColsOf g).length + i) :
    ∃ c, fragments.srcOf g x = some c ∧ c ∈ fragments.leftColsOf g ∧
      ((fragments.leftColsOf g)[i]?) = some c := by
  refine ⟨(fragments.leftColsOf g).get ⟨i, hi⟩, ?_, ?_, ?_⟩
  · have h1 := frag_srcOf_left g i hi
    convert h1 using 2
    exact Fin.ext hx
  · exact List.get_mem _ _ hi
  · rw [List.getElem?_eq_getElem hi]
    rfl

/-- `srcOf`, right half, phrased by the value of the output column. -/
theorem frag_srcOf_right_val (g : fragments.Board) (x : Fin fragments.COLS)
    (i : Nat) (hi : i < (fragments.rightColsOf g).length)
    (hx : x.val = fragments.centerRight + i) :
    ∃ c, fragments.srcOf g x = some c ∧ c ∈ fragments.rightColsOf g ∧
      ((fragments.rightColsOf g)[i]?) = some c := by
  refine ⟨(fragments.rightColsOf g).get ⟨i, hi⟩, ?_, ?_, ?_⟩
  · have h1 := frag_srcOf_right g i hi
    convert h1 using 2
    exact Fin.ext hx
  · exact List.get_mem _ _ hi
  · rw [List.getElem?_eq_getElem hi]
    rfl

/-- After a center-out compaction the non-empty columns are exactly the
contiguous block around the center. -/
theorem frag_settle_present (g : fragments.Board)
    (hnt : ¬ ((fragments.nonEmptyCols (fragments.applyGravity g)).length = 0 ∨
      (fragments.nonEmptyCols (fragments.applyGravity g)).length = fragments.COLS))
    (x : Fin fragments.COLS) :
    fragments.presentCol (fragments.settleA g) x = [] ↔
      ¬ (6 - (fragments.leftColsOf (fragments.applyGravity g)).length ≤ x.val ∧
         x.val < 6 + (fragments.rightColsOf (fragments.applyGravity g)).length) := by
  have h6 : fragments.centerRight = 6 := rfl
  have h5 : fragments.centerLeft = 5 := rfl
  have h12 : fragments.COLS = 12 := rfl
  have hL := frag_leftCols_len (fragments.applyGravity g)
  have hR := frag_rightCols_len (fragments.applyGravity g)
  rw [fragments.settleA, frag_centerOut_present _ hnt]
  by_cases hmem : 6 - (fragments.leftColsOf (fragments.applyGravity g)).length ≤ x.val ∧
      x.val < 6 + (fragments.rightColsOf (fragments.applyGravity g)).length
  · simp only [hmem, and_self, not_true, iff_false]
    by_cases hx6 : x.val < 6
    · obtain ⟨c, hsrc, hcm, _⟩ := frag_srcOf_left_val (fragments.applyGravity g) x
        (x.val - (6 - (fragments.leftColsOf (fragments.applyGravity g)).length))
        (by omega) (by omega)
      rw [hsrc]
      exact (frag_mem_nonEmptyCols _ c).mp (List.mem_of_mem_filter hcm)
    · obtain ⟨c, hsrc, hcm, _⟩ := frag_srcOf_right_val (fragments.applyGravity g) x
        (x.val - 6) (by omega) (by omega)
      rw [hsrc]
      exact (frag_mem_nonEmptyCols _ c).mp (List.mem_of_mem_filter hcm)
  · simp only [hmem, not_false_iff, iff_true]
    have hout : x.val + (fragments.leftColsOf (fragments.applyGravity g)).length <
        fragments.centerRight ∨
        fragments.centerRight + (fragments.rightColsOf (fragments.applyGravity g)).length
          ≤ x.val := by omega
    cases hout with
    | inl hl => rw [frag_srcOf_left_none _ x hl]
    | inr hr => rw [frag_srcOf_right_none _ x hr]

/-- The non-empty columns of the settled board form the centered interval. -/
theorem frag_settle_nonEmptyCols (g : fragments.Board)
    (hnt : ¬ ((fragments.nonEmptyCols (fragments.applyGravity g)).length = 0 ∨
      (fragments.nonEmptyCols (fragments.applyGravity g)).length = fragments.COLS)) :
    fragments.nonEmptyCols (fragments.settleA g) =
      (List.finRange 12).filter (fun x : Fin 12 =>
        decide (6 - (fragments.leftColsOf (fragments.applyGravity g)).length ≤ x.val ∧
          x.val < 6 + (fragments.rightColsOf (fragments.applyGravity g)).length)) := by
  rw [fragments.nonEmptyCols]
  apply List.filter_congr
  intro x _
  cases hdec : decide
      (6 - (fragments.leftColsOf (fragments.applyGravity g)).length ≤ x.val ∧
        x.val < 6 + (fragments.rightColsOf (fragments.applyGravity g)).length) with
  | false =>
    have hni := of_decide_eq_false hdec
    have hemp := (frag_settle_present g hnt x).mpr hni
    rw [(frag_isColEmpty_iff _ x).mpr hemp]
    rfl
  | true =>
    have hiv := of_decide_eq_true hdec
    cases hce : fragments.isColEmpty (fragments.settleA g) x with
    | false => rfl
    | true =>
      have hemp := (frag_isColEmpty_iff _ x).mp hce
      exact absurd hiv ((frag_settle_present g hnt x).mp hemp)

/-- The left half of the settled board's non-empty columns. -/
theorem frag_settle_leftCols (g : fragments.Board)
    (hnt : ¬ ((fragments.nonEmptyCols (fragments.applyGravity g)).length = 0 ∨
      (fragments.nonEmptyCols (fragments.applyGravity g)).length = fragments.COLS)) :
    fragments.leftColsOf (fragments.settleA g) =
      (List.finRange 12).filter (fun x : Fin 12 =>
        decide (6 - (fragments.leftColsOf (fragments.applyGravity g)).length ≤ x.val ∧
          x.val < 6)) := by
  have h5 : fragments.centerLeft = 5 := rfl
  rw [fragments.leftColsOf, frag_settle_nonEmptyCols g hnt, List.filter_filter]
  apply List.filter_congr
  intro x _
  apply Bool.eq_iff_iff.mpr
  simp only [Bool.and_eq_true, decide_eq_true_eq]
  rw [h5]
  omega

/-- The right half of the settled board's non-empty columns. -/
theorem frag_settle_rightCols (g : fragments.Board)
    (hnt : ¬ ((fragments.nonEmptyCols (fragments.applyGravity g)).length = 0 ∨
      (fragments.nonEmptyCols (fragments.applyGravity g)).length = fragments.COLS)) :
    fragments.rightColsOf (fragments.settleA g) =
      (List.finRange 12).filter (fun x : Fin 12 =>
        decide (6 ≤ x.val ∧
          x.val < 6 + (fragments.rightColsOf (fragments.applyGravity g)).length)) := by
  have h5 : fragments.centerLeft = 5 := rfl
  rw [fragments.rightColsOf, frag_settle_nonEmptyCols g hnt, List.filter_filter]
  apply List.filter_congr
  intro x _
  apply Bool.eq_iff_iff.mpr
  simp only [Bool.and_eq_true, decide_eq_true_eq]
  rw [h5]
  omega

/-- The settled board's left half has as many columns as the input's. -/
theorem frag_settle_leftLen (g : fragments.Board)
    (hnt : ¬ ((fragments.nonEmptyCols (fragments.applyGravity g)).length = 0 ∨
      (fragments.nonEmptyCols (fragments.applyGravity g)).length = fragments.COLS)) :
    (fragments.leftColsOf (fragments.settleA g)).length =
      (fragments.leftColsOf (fragments.applyGravity g)).length := by
  have h6 : fragments.centerRight = 6 := rfl
  have hL := frag_leftCols_len (fragments.applyGravity g)
  rw [frag_settle_leftCols g hnt]
  exact (frag_iv_left (fragments.leftColsOf (fragments.applyGravity g)).length
    (by omega)).1

/-- The settled board's right half has as many columns as the input's. -/
theorem frag_settle_rightLen (g : fragments.Board)
    (hnt : ¬ ((fragments.nonEmptyCols (fragments.applyGravity g)).length = 0 ∨
      (fragments.nonEmptyCols (fragments.applyGravity g)).length = fragments.COLS)) :
    (fragments.rightColsOf (fragments.settleA g)).length =
      (fragments.rightColsOf (fragments.applyGravity g)).length := by
  have h6 : fragments.centerRight = 6 := rfl
  have h12 : fragments.COLS = 12 := rfl
  have hR := frag_rightCols_len (fragments.applyGravity g)
  rw [frag_settle_rightCols g hnt]
  exact (frag_iv_right (fragments.rightColsOf (fragments.applyGravity g)).length
    (by omega)).1

/-- The settled board is a fixed point of the center-out compaction. -/
theorem frag_centerOut_settle (g : fragments.Board) :
    fragments.centerOutCompressCols (fragments.settleA g) = fragments.settleA g := by
  by_cases hb : (fragments.nonEmptyCols (fragments.applyGravity g)).length = 0 ∨
      (fragments.nonEmptyCols (fragments.applyGravity g)).length = fragments.COLS
  · have hs : fragments.settleA g = fragments.applyGravity g := by
      rw [fragments.settleA, fragments.centerOutCompressCols, if_pos hb]
    rw [hs, fragments.centerOutCompressCols, if_pos hb]
  · have h6 : fragments.centerRight = 6 := rfl
    have h5 : fragments.centerLeft = 5 := rfl
    have h12 : fragments.COLS = 12 := rfl
    have hL := frag_leftCols_len (fragments.applyGravity g)
    have hR := frag_rightCols_len (fragments.applyGravity g)
    have hLs := frag_settle_leftLen g hb
    have hRs := frag_settle_rightLen g hb
    have hb' : ¬ ((fragments.nonEmptyCols (fragments.settleA g)).length = 0 ∨
        (fragments.nonEmptyCols (fragments.settleA g)).length = fragments.COLS) := by
      rw [frag_nonEmpty_split, hLs, hRs]
      rw [frag_nonEmpty_split (fragments.applyGravity g)] at hb
      exact hb
    apply frag_board_ext
    intro x
    rw [frag_centerOut_col _ hb' x]
    by_cases hin : 6 - (fragments.leftColsOf (fragments.applyGravity g)).length ≤ x.val ∧
        x.val < 6 + (fragments.rightColsOf (fragments.applyGravity g)).length
    · by_cases hx6 : x.val < 6
      · obtain ⟨c, hsrc, _, hc⟩ := frag_srcOf_left_val (fragments.settleA g) x
          (x.val - (6 - (fragments.leftColsOf (fragments.applyGravity g)).length))
          (by rw [hLs]; omega) (by rw [hLs]; omega)
        have hiv := (frag_iv_left
            (fragments.leftColsOf (fragments.applyGravity g)).length (by omega)).2
          (x.val - (6 - (fragments.leftColsOf (fragments.applyGravity g)).length))
          (by omega)
        rw [← frag_settle_leftCols g hb, hc] at hiv
        simp only [Option.map_some'] at hiv
        have hcv := Option.some_injective _ hiv
        have hcx : c = x := Fin.ext (by omega)
        rw [hsrc, hcx]
      · obtain ⟨c, hsrc, _, hc⟩ := frag_srcOf_right_val (fragments.settleA g) x
          (x.val - 6) (by rw [hRs]; omega) (by omega)
        have hiv := (frag_iv_right
            (fragments.rightColsOf (fragments.applyGravity g)).length (by omega)).2
          (x.val - 6) (by omega)
        rw [← frag_settle_rightCols g hb, hc] at hiv
        simp only [Option.map_some'] at hiv
        have hcv := Option.some_injective _ hiv
        have hcx : c = x := Fin.ext (by omega)
        rw [hsrc, hcx]
    · have hno : fragments.srcOf (fragments.settleA g) x = none := by
        by_cases hx6 : x.val < 6
        · apply frag_srcOf_left_none
          rw [hLs]
          omega
        · apply frag_srcOf_right_none
          rw [hRs]
          omega
      have hemp : fragments.presentCol (fragments.settleA g) x = [] :=
        (frag_settle_present g hb x).mpr hin
      rw [hno, frag_settleA_packed g x, hemp]
      simp

/-- Policy A settling is idempotent. -/
theorem frag_settleA_idem (g : fragments.Board) :
    fragments.settleA (fragments.settleA g) = fragments.settleA g := by
  conv_lhs => rw [fragments.settleA, frag_grav_settleA]
  exact frag_centerOut_settle g

/-- C6 counterexample: a fragments board with no empty gap below any tile
(a single tile resting on the bottom of column 0) is nevertheless changed
by Policy A's settle, whose center-out compaction moves the whole column
toward the center. -/
theorem C6_cex :
    fragments.noVerticalGaps fragments.exCorner = true ∧
    fragments.settleA fragments.exCorner ≠ fragments.exCorner := by
  constructor
  · decide
  · intro heq
    have h1 := congrFun (congrFun heq ⟨14, by decide⟩) ⟨0, by decide⟩
    exact absurd h1 (by decide)

/-- C6 (corrected): Policy B's gravity returns an already-settled board
(no empty gap beyond any tile in the gravity direction) unchanged with
`moved = false`, and is idempotent on its own output; Policy A's settle is
likewise idempotent on its own output, but a fragments board with no
vertical gaps need not be a fixed point, because the center-out column
compaction can still move whole columns (see the counterexample). -/
theorem C6_settle (g : fragments.Board) (h h' : edgeflow.Board)
    (d d' : edgeflow.Dir) (hs : edgeflow.settledIn h d) :
    edgeflow.applyGravity h d = (h, false) ∧
    edgeflow.applyGravity ((edgeflow.applyGravity h' d').1) d' =
      ((edgeflow.applyGravity h' d').1, false) ∧
    fragments.settleA (fragments.settleA g) = fragments.settleA g :=
  ⟨ef_settled_grav h d hs, ef_grav_idem h' d', frag_settleA_idem g⟩

/-- C6 witness: the two-tile top-row board is settled for UP and passes
through gravity unchanged; idempotence instantiated at DOWN on the same
board, and Policy A idempotence at the corner-tile board. -/
theorem C6_settle_witness :
    edgeflow.settledIn edgeflow.exPair edgeflow.Dir.UP ∧
    (edgeflow.applyGravity edgeflow.exPair edgeflow.Dir.UP =
        (edgeflow.exPair, false) ∧
      edgeflow.applyGravity
          ((edgeflow.applyGravity edgeflow.exPair edgeflow.Dir.DOWN).1)
          edgeflow.Dir.DOWN =
        ((edgeflow.applyGravity edgeflow.exPair edgeflow.Dir.DOWN).1, false) ∧
      fragments.settleA (fragments.settleA fragments.exCorner) =
        fragments.settleA fragments.exCorner) :=
  have hs : edgeflow.settledIn edgeflow.exPair edgeflow.Dir.UP := by
    show ∀ (x : Fin edgeflow.COLS) (y y' : Fin edgeflow.ROWS),
      y'.val ≤ y.val → (edgeflow.exPair y x).isSome = true →
        (edgeflow.exPair y' x).isSome = true
    decide
  ⟨hs, C6_settle fragments.exCorner edgeflow.exPair edgeflow.exPair
    edgeflow.Dir.UP edgeflow.Dir.DOWN hs⟩

/-- A coordinate holding a cell is in bounds. -/
theorem gb_cellAt_inB {A : Type} (cols rows : Nat)
    (g : Fin rows → Fin cols → Option A) (p : GB.Coord) (c : A)
    (h : GB.cellAt cols rows g p = some c) : GB.inB cols rows p = true := by
  rw [GB.cellAt] at h
  by_cases hb : 0 ≤ p.1 ∧ p.1 < (cols : Int) ∧ 0 ≤ p.2 ∧ p.2 < (rows : Int)
  · rw [GB.inB]
    simp only [Bool.and_eq_true, decide_eq_true_eq]
    tauto
  · rw [dif_neg hb] at h
    cases h

/-- `isGood` unfolded: the cell exists, is admitted, and has the kind. -/
theorem gb_isGood_iff {A : Type} (cols rows : Nat) (kind : A → Nat)
    (adm : A → Bool) (g : Fin rows → Fin cols → Option A) (t : Nat)
    (p : GB.Coord) :
    GB.isGood cols rows kind adm g t p = true ↔
      ∃ c, GB.cellAt cols rows g p = some c ∧ adm c = true ∧ kind c = t := by
  rw [GB.isGood]
  cases hc : GB.cellAt cols rows g p with
  | none => simp
  | some c => simp [Bool.and_eq_true, beq_iff_eq]

/-- Good cells lie in the in-bounds coordinate set. -/
theorem gb_good_mem_IB {A : Type} (cols rows : Nat) (kind : A → Nat)
    (adm : A → Bool) (g : Fin rows → Fin cols → Option A) (t : Nat)
    (p : GB.Coord) (h : GB.isGood cols rows kind adm g t p = true) :
    p ∈ GB.IB cols rows := by
  obtain ⟨c, hc, -, -⟩ := (gb_isGood_iff cols rows kind adm g t p).mp h
  rw [GB.cellAt] at hc
  by_cases hb : 0 ≤ p.1 ∧ p.1 < (cols : Int) ∧ 0 ≤ p.2 ∧ p.2 < (rows : Int)
  · rw [GB.IB, Finset.mem_image]
    refine ⟨(⟨p.1.toNat, by omega⟩, ⟨p.2.toNat, by omega⟩), Finset.mem_univ _, ?_⟩
    obtain ⟨h1, h2, h3, h4⟩ := hb
    simp only []
    rw [Prod.ext_iff]
    constructor
    · simp [Int.toNat_of_nonneg h1]
    · simp [Int.toNat_of_nonneg h3]
  · rw [dif_neg hb] at hc
    cases hc

/-- The in-bounds set has one element per cell. -/
theorem gb_IB_card (cols rows : Nat) :
    (GB.IB cols rows).card = rows * cols := by
  rw [GB.IB, Finset.card_image_of_injective _ ?inj, Finset.card_univ]
  case inj =>
    intro a b hab
    simp only [Prod.mk.injEq] at hab
    obtain ⟨h1, h2⟩ := hab
    rw [Prod.ext_iff]
    exact ⟨Fin.ext (by omega), Fin.ext (by omega)⟩
  rw [Fintype.card_prod, Fintype.card_fin, Fintype.card_fin]
  ring

/-- One neighbour push either leaves the state unchanged (and then a good
neighbour was already seen) or enqueues a fresh good coordinate. -/
theorem gb_pushNb_eq {A : Type} (cols rows : Nat) (kind : A → Nat)
    (adm : A → Bool) (g : Fin rows → Fin cols → Option A) (t : Nat)
    (st : Finset GB.Coord × List GB.Coord) (nb : GB.Coord) :
    (GB.pushNb cols rows kind adm g t st nb = st ∧
      (GB.isGood cols rows kind adm g t nb = true → nb ∈ st.1)) ∨
    (nb ∉ st.1 ∧ GB.isGood cols rows kind adm g t nb = true ∧
      GB.pushNb cols rows kind adm g t st nb =
        (insert nb st.1, st.2 ++ [nb])) := by
  rw [GB.pushNb]
  by_cases hb : GB.inB cols rows nb = false
  · rw [if_pos hb]
    refine Or.inl ⟨rfl, fun hg => ?_⟩
    obtain ⟨c, hc, -, -⟩ := (gb_isGood_iff cols rows kind adm g t nb).mp hg
    rw [gb_cellAt_inB cols rows g nb c hc] at hb
    cases hb
  · rw [if_neg hb]
    by_cases hs : nb ∈ st.1
    · rw [if_pos hs]
      exact Or.inl ⟨rfl, fun _ => hs⟩
    · rw [if_neg hs]
      cases hc : GB.cellAt cols rows g nb with
      | none =>
        refine Or.inl ⟨rfl, fun hg => ?_⟩
        obtain ⟨c, hc2, -, -⟩ := (gb_isGood_iff cols rows kind adm g t nb).mp hg
        rw [hc] at hc2
        cases hc2
      | some c =>
        by_cases hcond : (adm c && (kind c == t)) = true
        · refine Or.inr ⟨hs, ?_, ?_⟩
          · rw [Bool.and_eq_true, beq_iff_eq] at hcond
            exact (gb_isGood_iff cols rows kind adm g t nb).mpr
              ⟨c, hc, hcond.1, hcond.2⟩
          · show (if (adm c && kind c == t) = true
                then (insert nb st.1, st.2 ++ [nb]) else st) = _
            rw [if_pos hcond]
        · refine Or.inl ⟨?_, fun hg => ?_⟩
          · show (if (adm c && kind c == t) = true
                then (insert nb st.1, st.2 ++ [nb]) else st) = st
            rw [if_neg hcond]
          · obtain ⟨c', hc2, ha, hk⟩ :=
              (gb_isGood_iff cols rows kind adm g t nb).mp hg
            rw [hc] at hc2
            cases hc2
            exact absurd (by rw [Bool.and_eq_true, beq_iff_eq]; exact ⟨ha, hk⟩)
              hcond

/-- The neighbour fold appends a duplicate-free batch of fresh good
coordinates to queue and seen set, and afterwards every good neighbour in
the scanned list is seen. -/
theorem gb_push_fold {A : Type} (cols rows : Nat) (kind : A → Nat)
    (adm : A → Bool) (g : Fin rows → Fin cols → Option A) (t : Nat) :
    ∀ (ns : List GB.Coord) (st : Finset GB.Coord × List GB.Coord),
    ∃ add : List GB.Coord,
      (ns.foldl (GB.pushNb cols rows kind adm g t) st).1 =
        st.1 ∪ add.toFinset ∧
      (ns.foldl (GB.pushNb cols rows kind adm g t) st).2 = st.2 ++ add ∧
      add.Nodup ∧
      (∀ a ∈ add, a ∈ ns ∧ a ∉ st.1 ∧
        GB.isGood cols rows kind adm g t a = true) ∧
      (∀ nb ∈ ns, GB.isGood cols rows kind adm g t nb = true →
        nb ∈ (ns.foldl (GB.pushNb cols rows kind adm g t) st).1) := by
  intro ns
  induction ns with
  | nil =>
    intro st
    exact ⟨[], by simp, by simp, List.nodup_nil, by simp, by simp⟩
  | cons nb ns ih =>
    intro st
    rw [List.foldl_cons]
    rcases gb_pushNb_eq cols rows kind adm g t st nb with
      ⟨heq, hcov⟩ | ⟨hnmem, hgood, heq⟩
    · rw [heq]
      obtain ⟨add, h1, h2, h3, h4, h5⟩ := ih st
      refine ⟨add, h1, h2, h3, ?_, ?_⟩
      · intro a ha
        obtain ⟨ha1, ha2, ha3⟩ := h4 a ha
        exact ⟨List.mem_cons_of_mem _ ha1, ha2, ha3⟩
      · intro x hx hgx
        rcases List.mem_cons.mp hx with hx | hx
        · subst hx
          rw [h1]
          exact Finset.mem_union_left _ (hcov hgx)
        · exact h5 x hx hgx
    · rw [heq]
      obtain ⟨add, h1, h2, h3, h4, h5⟩ := ih (insert nb st.1, st.2 ++ [nb])
      refine ⟨nb :: add, ?_, ?_, ?_, ?_, ?_⟩
      · rw [h1]
        show insert nb st.1 ∪ add.toFinset = _
        rw [Finset.insert_union, List.toFinset_cons, Finset.union_insert]
      · rw [h2]
        show st.2 ++ [nb] ++ add = _
        rw [List.append_assoc]
        rfl
      · rw [List.nodup_cons]
        refine ⟨fun hmem => ?_, h3⟩
        obtain ⟨-, hni, -⟩ := h4 nb hmem
        exact hni (Finset.mem_insert_self _ _)
      · intro a ha
        rcases List.mem_cons.mp ha with ha | ha
        · subst ha
          exact ⟨List.mem_cons_self _ _, hnmem, hgood⟩
        · obtain ⟨ha1, ha2, ha3⟩ := h4 a ha
          refine ⟨List.mem_cons_of_mem _ ha1, fun hmem => ?_, ha3⟩
          exact ha2 (Finset.mem_insert_of_mem hmem)
      · intro x hx hgx
        rcases List.mem_cons.mp hx with hx | hx
        · subst hx
          rw [h1]
          exact Finset.mem_union_left _ (Finset.mem_insert_self _ _)
        · exact h5 x hx hgx

/-- Running the BFS loop from any state satisfying the invariant, with
fuel at least the standard measure, drains the queue and preserves the
invariant. -/
theorem gb_bfs_run {A : Type} (cols rows : Nat) (kind : A → Nat)
    (adm : A → Bool) (idOf : A → Nat) (g : Fin rows → Fin cols → Option A)
    (t : Nat) (s : GB.Coord) :
    ∀ (fuel : Nat) (q : List GB.Coord) (seen : Finset GB.Coord)
      (out : List (GB.Coord × Nat)),
    GB.Inv cols rows kind adm idOf g t s q seen out →
    q.length + 2 * (rows * cols - seen.card) ≤ fuel →
    ∃ seenF, GB.Inv cols rows kind adm idOf g t s [] seenF
      (GB.bfsAux cols rows kind adm idOf g t fuel q seen out) := by
  intro fuel
  induction fuel with
  | zero =>
    intro q seen out hInv hfuel
    have hq : q = [] := List.eq_nil_of_length_eq_zero (by omega)
    subst hq
    exact ⟨seen, hInv⟩
  | succ fuel ih =>
    intro q seen out hInv hfuel
    cases q with
    | nil => exact ⟨seen, hInv⟩
    | cons p q' =>
      obtain ⟨hnd, hseen, hgood, hcl, hids, hsm⟩ := hInv
      have hpseen : p ∈ seen := by
        rw [hseen]
        simp
      have hpg := (hgood p hpseen).1
      obtain ⟨c, hc, hadm, hkind⟩ :=
        (gb_isGood_iff cols rows kind adm g t p).mp hpg
      have hcondB : (adm c && (kind c == t)) = true := by
        rw [Bool.and_eq_true, beq_iff_eq]
        exact ⟨hadm, hkind⟩
      simp only [GB.bfsAux, hc, hcondB, if_true]
      obtain ⟨add, hf1a, hf2a, hf3, hf4, hf5⟩ :=
        gb_push_fold cols rows kind adm g t (GB.nbs p) (seen, q')
      have hf1 : ((GB.nbs p).foldl (GB.pushNb cols rows kind adm g t)
          (seen, q')).1 = seen ∪ add.toFinset := hf1a
      have hf2 : ((GB.nbs p).foldl (GB.pushNb cols rows kind adm g t)
          (seen, q')).2 = q' ++ add := hf2a
      have hgood4 : ∀ a ∈ add, a ∈ GB.nbs p ∧ a ∉ seen ∧
          GB.isGood cols rows kind adm g t a = true := hf4
      rw [hf1, hf2]
      apply ih
      · refine ⟨?_, ?_, ?_, ?_, ?_, ?_⟩
        · have hdisj : (out.map Prod.fst ++ p :: q').Disjoint add := by
            intro a ha1 ha2
            have hns := (hgood4 a ha2).2.1
            rw [hseen, List.mem_toFinset] at hns
            exact hns ha1
          have hX := List.Nodup.append hnd hf3 hdisj
          simpa [List.append_assoc] using hX
        · rw [hseen]
          ext a
          simp [List.mem_append, List.mem_toFinset]
        · intro x hx
          rcases Finset.mem_union.mp hx with hx | hx
          · exact hgood x hx
          · obtain ⟨hnb, -, hgx⟩ := hgood4 x (List.mem_toFinset.mp hx)
            refine ⟨hgx, Relation.ReflTransGen.tail (hgood p hpseen).2 ?_⟩
            exact ⟨hpg, hgx, hnb⟩
        · intro y hy nb hnb hgnb
          rw [List.map_append] at hy
          rcases List.mem_append.mp hy with hy | hy
          · exact Finset.mem_union_left _ (hcl y hy nb hnb hgnb)
          · have hyp : y = p := by simpa using hy
            subst hyp
            have := hf5 nb hnb hgnb
            rw [hf1] at this
            exact this
        · intro pr hpr
          rcases List.mem_append.mp hpr with hpr | hpr
          · exact hids pr hpr
          · have hpr2 : pr = (p, idOf c) := by simpa using hpr
            subst hpr2
            exact ⟨c, hc, rfl⟩
        · exact Finset.mem_union_left _ hsm
      · have hdisj2 : Disjoint seen add.toFinset := by
          rw [Finset.disjoint_right]
          intro a ha
          exact (hgood4 a (List.mem_toFinset.mp ha)).2.1
        have hcard : (seen ∪ add.toFinset).card = seen.card + add.length := by
          rw [Finset.card_union_of_disjoint hdisj2,
            List.toFinset_card_of_nodup hf3]
        have hsub : seen ∪ add.toFinset ⊆ GB.IB cols rows := by
          intro x hx
          rcases Finset.mem_union.mp hx with hx | hx
          · exact gb_good_mem_IB cols rows kind adm g t x (hgood x hx).1
          · exact gb_good_mem_IB cols rows kind adm g t x
              (hgood4 x (List.mem_toFinset.mp hx)).2.2
        have hle : (seen ∪ add.toFinset).card ≤ rows * cols := by
          have := Finset.card_le_card hsub
          rwa [gb_IB_card] at this
        rw [List.length_append]
        rw [List.length_cons] at hfuel
        omega

/-- `groupAt` on an admitted seed: entries are duplicate-free, their
coordinates are exactly the cells reachable from the seed through
same-kind admitted cells, and each entry's id is its cell's id. -/
theorem gb_groupAt_char {A : Type} (cols rows : Nat) (kind : A → Nat)
    (adm : A → Bool) (idOf : A → Nat) (g : Fin rows → Fin cols → Option A)
    (sx sy : Int) (start : A)
    (hc : GB.cellAt cols rows g (sx, sy) = some start)
    (hadm : adm start = true) :
    ((GB.groupAt cols rows kind adm idOf g sx sy).map Prod.fst).Nodup ∧
    (∀ p, p ∈ (GB.groupAt cols rows kind adm idOf g sx sy).map Prod.fst ↔
      GB.reach cols rows kind adm g (kind start) (sx, sy) p) ∧
    (∀ pr ∈ GB.groupAt cols rows kind adm idOf g sx sy,
      ∃ c, GB.cellAt cols rows g pr.1 = some c ∧ pr.2 = idOf c) := by
  have hs : GB.isGood cols rows kind adm g (kind start) (sx, sy) = true :=
    (gb_isGood_iff cols rows kind adm g (kind start) (sx, sy)).mpr
      ⟨start, hc, hadm, rfl⟩
  have hrun := gb_bfs_run cols rows kind adm idOf g (kind start) (sx, sy)
    (2 * (rows * cols) + 1) [(sx, sy)] {(sx, sy)} [] ?hInv ?hfl
  case hInv =>
    refine ⟨by simp, by simp, ?_, by simp, by simp, by simp⟩
    intro p hp
    rw [Finset.mem_singleton] at hp
    subst hp
    exact ⟨hs, Relation.ReflTransGen.refl⟩
  case hfl =>
    rw [List.length_singleton, Finset.card_singleton]
    omega
  simp only [GB.groupAt, hc]
  rw [if_pos hadm]
  obtain ⟨seenF, hndF, hseenF, hgoodF, hclF, hidsF, hsF⟩ := hrun
  rw [List.append_nil] at hndF hseenF
  refine ⟨hndF, ?_, hidsF⟩
  intro p
  constructor
  · intro hp
    have hps : p ∈ seenF := by
      rw [hseenF]
      exact List.mem_toFinset.mpr hp
    exact (hgoodF p hps).2
  · intro hre
    induction hre with
    | refl => exact List.mem_toFinset.mp (hseenF ▸ hsF)
    | tail hab hbc ih =>
      obtain ⟨hgb, hgc, hnb⟩ := hbc
      have hcm := hclF _ ih _ hnb hgc
      rw [hseenF] at hcm
      exact List.mem_toFinset.mp hcm

/-- The four-neighbour relation is symmetric. -/
theorem gb_nbs_symm (p q : GB.Coord) (h : q ∈ GB.nbs p) : p ∈ GB.nbs q := by
  simp [GB.nbs] at h ⊢
  rcases h with h | h | h | h <;> subst h <;> simp [Prod.ext_iff]

/-- The good-neighbour edge relation is symmetric. -/
theorem gb_E_symm {A : Type} (cols rows : Nat) (kind : A → Nat)
    (adm : A → Bool) (g : Fin rows → Fin cols → Option A) (t : Nat)
    (p q : GB.Coord) (h : GB.E cols rows kind adm g t p q) :
    GB.E cols rows kind adm g t q p :=
  ⟨h.2.1, h.1, gb_nbs_symm p q h.2.2⟩

/-- Every cell reachable from a good seed is good. -/
theorem gb_reach_good {A : Type} (cols rows : Nat) (kind : A → Nat)
    (adm : A → Bool) (g : Fin rows → Fin cols → Option A) (t : Nat)
    (s p : GB.Coord) (hs : GB.isGood cols rows kind adm g t s = true)
    (h : GB.reach cols rows kind adm g t s p) :
    GB.isGood cols rows kind adm g t p = true := by
  induction h with
  | refl => exact hs
  | tail hab hbc ih => exact hbc.2.1

/-- Flood-filling from any member of a group yields the same coordinate
set. -/
theorem gb_groupAt_member {A : Type} (cols rows : Nat) (kind : A → Nat)
    (adm : A → Bool) (idOf : A → Nat) (g : Fin rows → Fin cols → Option A)
    (sx sy qx qy : Int) (start : A)
    (hc : GB.cellAt cols rows g (sx, sy) = some start)
    (hadm : adm start = true)
    (hq : GB.reach cols rows kind adm g (kind start) (sx, sy) (qx, qy)) :
    ((GB.groupAt cols rows kind adm idOf g qx qy).map Prod.fst).toFinset =
      ((GB.groupAt cols rows kind adm idOf g sx sy).map Prod.fst).toFinset := by
  have hs : GB.isGood cols rows kind adm g (kind start) (sx, sy) = true :=
    (gb_isGood_iff cols rows kind adm g (kind start) (sx, sy)).mpr
      ⟨start, hc, hadm, rfl⟩
  have hgq := gb_reach_good cols rows kind adm g (kind start) (sx, sy)
    (qx, qy) hs hq
  obtain ⟨cq, hcq, hadq, hkq⟩ :=
    (gb_isGood_iff cols rows kind adm g (kind start) (qx, qy)).mp hgq
  have hchar_s := gb_groupAt_char cols rows kind adm idOf g sx sy start hc hadm
  have hchar_q := gb_groupAt_char cols rows kind adm idOf g qx qy cq hcq hadq
  have hsymm : Symmetric (GB.E cols rows kind adm g (kind start)) :=
    fun a b hab => gb_E_symm cols rows kind adm g (kind start) a b hab
  have hsymR := Relation.ReflTransGen.symmetric hsymm
  ext p
  rw [List.mem_toFinset, List.mem_toFinset, hchar_s.2.1 p, hchar_q.2.1 p, hkq]
  constructor
  · intro h
    exact hq.trans h
  · intro h
    exact (hsymR hq).trans h

/-- C1 counterexample: fragments' flood fill has no bomb exclusion.
Seeded on a bomb tile it returns that cell (with its id) rather than the
empty list the claim requires. -/
theorem C1_cex :
    (∃ c : fragments.Tile,
      GB.cellAt fragments.COLS fragments.ROWS fragments.exBomb
          ((0 : Int), (0 : Int)) = some c ∧ c.bomb = true) ∧
    fragments.groupAt fragments.exBomb 0 0 ≠ [] := by
  refine ⟨⟨⟨1, 0, true⟩, by decide, rfl⟩, by decide⟩

/-- C1 (corrected): both flood fills return, without duplicates, exactly
the coordinates reachable from the seed through 4-connected same-kind
admitted cells, with each entry's id taken from its cell, and seeding from
any member of the group yields the same coordinate set; an empty seed
yields `[]` in both games, and a bomb seed yields `[]` in edgeflow — but
fragments' flood fill does not exclude bombs: a bomb seed (or member)
participates like any tile of its kind (see the counterexample). -/
theorem C1_groupAt :
    (∀ (g : edgeflow.Board) (sx sy : Int),
      (GB.cellAt edgeflow.COLS edgeflow.ROWS g (sx, sy) = none →
        edgeflow.groupAt g sx sy = []) ∧
      (∀ start : edgeflow.Tile,
        GB.cellAt edgeflow.COLS edgeflow.ROWS g (sx, sy) = some start →
        (start.bomb = true → edgeflow.groupAt g sx sy = []) ∧
        (start.bomb = false →
          ((edgeflow.groupAt g sx sy).map Prod.fst).Nodup ∧
          (∀ p, p ∈ (edgeflow.groupAt g sx sy).map Prod.fst ↔
            edgeflow.reachE g start.value (sx, sy) p) ∧
          (∀ pr ∈ edgeflow.groupAt g sx sy, ∃ c : edgeflow.Tile,
            GB.cellAt edgeflow.COLS edgeflow.ROWS g pr.1 = some c ∧
              pr.2 = c.id) ∧
          (∀ qx qy : Int, edgeflow.reachE g start.value (sx, sy) (qx, qy) →
            ((edgeflow.groupAt g qx qy).map Prod.fst).toFinset =
              ((edgeflow.groupAt g sx sy).map Prod.fst).toFinset)))) ∧
    (∀ (g : fragments.Board) (sx sy : Int),
      (GB.cellAt fragments.COLS fragments.ROWS g (sx, sy) = none →
        fragments.groupAt g sx sy = []) ∧
      (∀ start : fragments.Tile,
        GB.cellAt fragments.COLS fragments.ROWS g (sx, sy) = some start →
        ((fragments.groupAt g sx sy).map Prod.fst).Nodup ∧
        (∀ p, p ∈ (fragments.groupAt g sx sy).map Prod.fst ↔
          fragments.reachF g start.t (sx, sy) p) ∧
        (∀ pr ∈ fragments.groupAt g sx sy, ∃ c : fragments.Tile,
          GB.cellAt fragments.COLS fragments.ROWS g pr.1 = some c ∧
            pr.2 = c.id) ∧
        (∀ qx qy : Int, fragments.reachF g start.t (sx, sy) (qx, qy) →
          ((fragments.groupAt g qx qy).map Prod.fst).toFinset =
            ((fragments.groupAt g sx sy).map Prod.fst).toFinset))) := by
  constructor
  · intro g sx sy
    constructor
    · intro hnone
      rw [edgeflow.groupAt, GB.groupAt, hnone]
    · intro start hc
      constructor
      · intro hb
        rw [edgeflow.groupAt, GB.groupAt, hc]
        simp [hb]
      · intro hb
        have hadm : (!start.bomb) = true := by rw [hb]; rfl
        have hchar := gb_groupAt_char edgeflow.COLS edgeflow.ROWS
          edgeflow.Tile.value (fun c => !c.bomb) edgeflow.Tile.id g sx sy
          start hc hadm
        refine ⟨hchar.1, hchar.2.1, hchar.2.2, ?_⟩
        intro qx qy hq
        exact gb_groupAt_member edgeflow.COLS edgeflow.ROWS
          edgeflow.Tile.value (fun c => !c.bomb) edgeflow.Tile.id g
          sx sy qx qy start hc hadm hq
  · intro g sx sy
    constructor
    · intro hnone
      rw [fragments.groupAt, GB.groupAt, hnone]
    · intro start hc
      have hchar := gb_groupAt_char fragments.COLS fragments.ROWS
        fragments.Tile.t (fun _ => true) fragments.Tile.id g sx sy
        start hc rfl
      refine ⟨hchar.1, hchar.2.1, hchar.2.2, ?_⟩
      intro qx qy hq
      exact gb_groupAt_member fragments.COLS fragments.ROWS
        fragments.Tile.t (fun _ => true) fragments.Tile.id g
        sx sy qx qy start hc rfl hq

/-- C1 witness: both seeds exist on the example boards and the flood fill
output is duplicate-free there. -/
theorem C1_groupAt_witness :
    GB.cellAt edgeflow.COLS edgeflow.ROWS edgeflow.exPair
        ((0 : Int), (0 : Int)) = some ⟨1, 1, false⟩ ∧
    GB.cellAt fragments.COLS fragments.ROWS fragments.exCorner
        ((0 : Int), (14 : Int)) = some ⟨1, 0, false⟩ ∧
    ((edgeflow.groupAt edgeflow.exPair 0 0).map Prod.fst).Nodup ∧
    ((fragments.groupAt fragments.exCorner 0 14).map Prod.fst).Nodup :=
  ⟨by decide, by decide,
    (((C1_groupAt.1 edgeflow.exPair 0 0).2 ⟨1, 1, false⟩ (by decide)).2
      (by decide)).1,
    ((C1_groupAt.2 fragments.exCorner 0 14).2 ⟨1, 0, false⟩ (by decide)).1⟩

/-- Every blast offset is within Manhattan radius `BOMB_RADIUS`. -/
theorem ed_blast_sound :
    ∀ off ∈ edgeflow.blastOffsets,
      off.1.natAbs + off.2.natAbs ≤ edgeflow.BOMB_RADIUS := by decide

/-- Every offset within Manhattan radius `BOMB_RADIUS` is scanned. -/
theorem ed_blast_complete (off : GB.Coord)
    (h : off.1.natAbs + off.2.natAbs ≤ edgeflow.BOMB_RADIUS) :
    off ∈ edgeflow.blastOffsets := by
  obtain ⟨ox, oy⟩ := off
  have h3 : ox.natAbs + oy.natAbs ≤ 2 := by simpa using h
  have hx1 : -2 ≤ ox := by omega
  have hx2 : ox ≤ 2 := by omega
  have hy1 : -2 ≤ oy := by omega
  have hy2 : oy ≤ 2 := by omega
  clear h
  interval_cases ox <;> interval_cases oy <;> revert h3 <;> decide

/-- One diamond-scan step of `detonateBomb`: it appends at most one removal
and at most one queued bomb, both fresh occupied targets, and afterwards
the target (if occupied) is removed and (if a bomb) queued. -/
theorem ed_detOff_eq (g : edgeflow.Board) (center : GB.Coord)
    (st : edgeflow.DetSt) (off : GB.Coord) :
    ∃ aP aQ : List GB.Coord,
      (edgeflow.detOff g center st off).keys = st.keys ∪ aP.toFinset ∧
      (edgeflow.detOff g center st off).pos = st.pos ++ aP ∧
      (edgeflow.detOff g center st off).queue = st.queue ++ aQ ∧
      (edgeflow.detOff g center st off).queued = st.queued ∪ aQ.toFinset ∧
      (∀ p ∈ aP, p ∉ st.keys ∧ p = (center.1 + off.1, center.2 + off.2) ∧
        ∃ c, GB.cellAt edgeflow.COLS edgeflow.ROWS g p = some c) ∧
      (∀ b ∈ aQ, b ∉ st.queued ∧ b = (center.1 + off.1, center.2 + off.2) ∧
        ∃ c, GB.cellAt edgeflow.COLS edgeflow.ROWS g b = some c ∧
          c.bomb = true) ∧
      aP.Nodup ∧ aQ.Nodup ∧
      (∀ c, GB.cellAt edgeflow.COLS edgeflow.ROWS g
          (center.1 + off.1, center.2 + off.2) = some c →
        (center.1 + off.1, center.2 + off.2) ∈
            (edgeflow.detOff g center st off).keys ∧
          (c.bomb = true → (center.1 + off.1, center.2 + off.2) ∈
            (edgeflow.detOff g center st off).queued)) := by
  simp only [edgeflow.detOff]
  by_cases hb : GB.inB edgeflow.COLS edgeflow.ROWS
      (center.1 + off.1, center.2 + off.2) = false
  · rw [if_pos hb]
    refine ⟨[], [], by simp, by simp, by simp, by simp, by simp, by simp,
      List.nodup_nil, List.nodup_nil, ?_⟩
    intro c hc
    rw [gb_cellAt_inB _ _ g _ c hc] at hb
    cases hb
  · rw [if_neg hb]
    cases hcase : GB.cellAt edgeflow.COLS edgeflow.ROWS g
        (center.1 + off.1, center.2 + off.2) with
    | none =>
      refine ⟨[], [], by simp, by simp, by simp, by simp, by simp, by simp,
        List.nodup_nil, List.nodup_nil, ?_⟩
      intro c hc
      cases hc
    | some c =>
      by_cases hk : (center.1 + off.1, center.2 + off.2) ∈ st.keys
      · by_cases hbomb : c.bomb = true
        · by_cases hqd : (center.1 + off.1, center.2 + off.2) ∈ st.queued
          · refine ⟨[], [], by simp [hk, hbomb, hqd, Finset.insert_eq, Finset.union_comm], by simp [hk, hbomb, hqd, Finset.insert_eq, Finset.union_comm],
              by simp [hk, hbomb, hqd, Finset.insert_eq, Finset.union_comm], by simp [hk, hbomb, hqd, Finset.insert_eq, Finset.union_comm], by simp,
              by simp, List.nodup_nil, List.nodup_nil, ?_⟩
            intro c' hcc
            cases hcc
            refine ⟨?_, fun _ => ?_⟩
            · simp [hk, hbomb, hqd]
            · simp [hk, hbomb, hqd]
          · refine ⟨[], [(center.1 + off.1, center.2 + off.2)],
              by simp [hk, hbomb, hqd, Finset.insert_eq, Finset.union_comm], by simp [hk, hbomb, hqd, Finset.insert_eq, Finset.union_comm],
              by simp [hk, hbomb, hqd, Finset.insert_eq, Finset.union_comm], by simp [hk, hbomb, hqd, Finset.insert_eq, Finset.union_comm], by simp,
              ?_, List.nodup_nil, List.nodup_singleton _, ?_⟩
            · intro b hbm
              rw [List.mem_singleton] at hbm
              subst hbm
              exact ⟨hqd, rfl, c, hcase, hbomb⟩
            · intro c' hcc
              cases hcc
              refine ⟨?_, fun _ => ?_⟩
              · simp [hk, hbomb, hqd]
              · simp [hk, hbomb, hqd]
        · refine ⟨[], [], by simp [hk, hbomb, Finset.insert_eq, Finset.union_comm], by simp [hk, hbomb, Finset.insert_eq, Finset.union_comm],
            by simp [hk, hbomb, Finset.insert_eq, Finset.union_comm], by simp [hk, hbomb, Finset.insert_eq, Finset.union_comm], by simp, by simp,
            List.nodup_nil, List.nodup_nil, ?_⟩
          intro c' hcc
          cases hcc
          refine ⟨?_, fun hcb => ?_⟩
          · simp [hk, hbomb]
          · rw [hcb] at hbomb
            cases hbomb rfl
      · by_cases hbomb : c.bomb = true
        · by_cases hqd : (center.1 + off.1, center.2 + off.2) ∈ st.queued
          · refine ⟨[(center.1 + off.1, center.2 + off.2)], [],
              by simp [hk, hbomb, hqd, Finset.insert_eq, Finset.union_comm], by simp [hk, hbomb, hqd, Finset.insert_eq, Finset.union_comm],
              by simp [hk, hbomb, hqd, Finset.insert_eq, Finset.union_comm], by simp [hk, hbomb, hqd, Finset.insert_eq, Finset.union_comm], ?_,
              by simp, List.nodup_singleton _, List.nodup_nil, ?_⟩
            · intro p hpm
              rw [List.mem_singleton] at hpm
              subst hpm
              exact ⟨hk, rfl, c, hcase⟩
            · intro c' hcc
              cases hcc
              refine ⟨?_, fun _ => ?_⟩
              · simp [hk, hbomb, hqd]
              · simp [hk, hbomb, hqd]
          · refine ⟨[(center.1 + off.1, center.2 + off.2)],
              [(center.1 + off.1, center.2 + off.2)],
              by simp [hk, hbomb, hqd, Finset.insert_eq, Finset.union_comm], by simp [hk, hbomb, hqd, Finset.insert_eq, Finset.union_comm],
              by simp [hk, hbomb, hqd, Finset.insert_eq, Finset.union_comm], by simp [hk, hbomb, hqd, Finset.insert_eq, Finset.union_comm], ?_, ?_,
              List.nodup_singleton _, List.nodup_singleton _, ?_⟩
            · intro p hpm
              rw [List.mem_singleton] at hpm
              subst hpm
              exact ⟨hk, rfl, c, hcase⟩
            · intro b hbm
              rw [List.mem_singleton] at hbm
              subst hbm
              exact ⟨hqd, rfl, c, hcase, hbomb⟩
            · intro c' hcc
              cases hcc
              refine ⟨?_, fun _ => ?_⟩
              · simp [hk, hbomb, hqd]
              · simp [hk, hbomb, hqd]
        · refine ⟨[(center.1 + off.1, center.2 + off.2)], [],
            by simp [hk, hbomb, Finset.insert_eq, Finset.union_comm], by simp [hk, hbomb, Finset.insert_eq, Finset.union_comm], by simp [hk, hbomb, Finset.insert_eq, Finset.union_comm],
            by simp [hk, hbomb, Finset.insert_eq, Finset.union_comm], ?_, by simp, List.nodup_singleton _,
            List.nodup_nil, ?_⟩
          · intro p hpm
            rw [List.mem_singleton] at hpm
            subst hpm
            exact ⟨hk, rfl, c, hcase⟩
          · intro c' hcc
            cases hcc
            refine ⟨?_, fun hcb => ?_⟩
            · simp [hk, hbomb]
            · rw [hcb] at hbomb
              cases hbomb rfl

/-- The diamond scan of one centre: appends duplicate-free batches of
fresh removals (occupied scanned targets) and fresh queued bombs, and
afterwards every occupied scanned target is removed and every scanned
bomb is queued. -/
theorem ed_det_fold (g : edgeflow.Board) (center : GB.Coord) :
    ∀ (ns : List GB.Coord) (st : edgeflow.DetSt),
    ∃ addP addQ : List GB.Coord,
      (ns.foldl (edgeflow.detOff g center) st).keys =
        st.keys ∪ addP.toFinset ∧
      (ns.foldl (edgeflow.detOff g center) st).pos = st.pos ++ addP ∧
      (ns.foldl (edgeflow.detOff g center) st).queue = st.queue ++ addQ ∧
      (ns.foldl (edgeflow.detOff g center) st).queued =
        st.queued ∪ addQ.toFinset ∧
      addP.Nodup ∧ addQ.Nodup ∧
      (∀ p ∈ addP, p ∉ st.keys ∧
        (∃ off ∈ ns, p = (center.1 + off.1, center.2 + off.2)) ∧
        ∃ c, GB.cellAt edgeflow.COLS edgeflow.ROWS g p = some c) ∧
      (∀ b ∈ addQ, b ∉ st.queued ∧
        (∃ off ∈ ns, b = (center.1 + off.1, center.2 + off.2)) ∧
        ∃ c, GB.cellAt edgeflow.COLS edgeflow.ROWS g b = some c ∧
          c.bomb = true) ∧
      (∀ off ∈ ns, ∀ c, GB.cellAt edgeflow.COLS edgeflow.ROWS g
          (center.1 + off.1, center.2 + off.2) = some c →
        (center.1 + off.1, center.2 + off.2) ∈
            (ns.foldl (edgeflow.detOff g center) st).keys ∧
          (c.bomb = true → (center.1 + off.1, center.2 + off.2) ∈
            (ns.foldl (edgeflow.detOff g center) st).queued)) := by
  intro ns
  induction ns with
  | nil =>
    intro st
    exact ⟨[], [], by simp, by simp, by simp, by simp, List.nodup_nil,
      List.nodup_nil, by simp, by simp, by simp⟩
  | cons off ns ih =>
    intro st
    rw [List.foldl_cons]
    obtain ⟨aP, aQ, s1, s2, s3, s4, s5, s6, s7, s8, s9⟩ :=
      ed_detOff_eq g center st off
    obtain ⟨addP, addQ, f1, f2, f3, f4, f5, f6, f7, f8, f9⟩ :=
      ih (edgeflow.detOff g center st off)
    refine ⟨aP ++ addP, aQ ++ addQ, ?_, ?_, ?_, ?_, ?_, ?_, ?_, ?_, ?_⟩
    · rw [f1, s1, List.toFinset_append, Finset.union_assoc]
    · rw [f2, s2, List.append_assoc]
    · rw [f3, s3, List.append_assoc]
    · rw [f4, s4, List.toFinset_append, Finset.union_assoc]
    · rw [List.nodup_append]
      refine ⟨s7, f5, ?_⟩
      intro p hp hp2
      have h1 := (f7 p hp2).1
      rw [s1] at h1
      exact h1 (Finset.mem_union_right _ (List.mem_toFinset.mpr hp))
    · rw [List.nodup_append]
      refine ⟨s8, f6, ?_⟩
      intro b hb hb2
      have h1 := (f8 b hb2).1
      rw [s4] at h1
      exact h1 (Finset.mem_union_right _ (List.mem_toFinset.mpr hb))
    · intro p hp
      rcases List.mem_append.mp hp with hp | hp
      · obtain ⟨h1, h2, h3⟩ := s5 p hp
        exact ⟨h1, ⟨off, List.mem_cons_self _ _, h2⟩, h3⟩
      · obtain ⟨h1, h2, h3⟩ := f7 p hp
        rw [s1] at h1
        obtain ⟨off', hoff', heq⟩ := h2
        exact ⟨fun hm => h1 (Finset.mem_union_left _ hm),
          ⟨off', List.mem_cons_of_mem _ hoff', heq⟩, h3⟩
    · intro b hb
      rcases List.mem_append.mp hb with hb | hb
      · obtain ⟨h1, h2, h3⟩ := s6 b hb
        exact ⟨h1, ⟨off, List.mem_cons_self _ _, h2⟩, h3⟩
      · obtain ⟨h1, h2, h3⟩ := f8 b hb
        rw [s4] at h1
        obtain ⟨off', hoff', heq⟩ := h2
        exact ⟨fun hm => h1 (Finset.mem_union_left _ hm),
          ⟨off', List.mem_cons_of_mem _ hoff', heq⟩, h3⟩
    · intro off' hoff' c hcell
      rcases List.mem_cons.mp hoff' with hoff' | hoff'
      · subst hoff'
        obtain ⟨h1, h2⟩ := s9 c hcell
        constructor
        · rw [f1]
          exact Finset.mem_union_left _ h1
        · intro hcb
          rw [f4]
          exact Finset.mem_union_left _ (h2 hcb)
      · exact f9 off' hoff' c hcell

/-- In-bounds coordinates lie in the in-bounds set. -/
theorem gb_inB_mem_IB (cols rows : Nat) (p : GB.Coord)
    (h : GB.inB cols rows p = true) : p ∈ GB.IB cols rows := by
  rw [GB.inB] at h
  simp only [Bool.and_eq_true, decide_eq_true_eq] at h
  obtain ⟨⟨⟨h1, h2⟩, h3⟩, h4⟩ := h
  rw [GB.IB, Finset.mem_image]
  refine ⟨(⟨p.1.toNat, by omega⟩, ⟨p.2.toNat, by omega⟩), Finset.mem_univ _, ?_⟩
  rw [Prod.ext_iff]
  constructor
  · simp [Int.toNat_of_nonneg h1]
  · simp [Int.toNat_of_nonneg h3]

/-- Running the detonation loop from any state satisfying the invariant,
with fuel at least the standard measure, drains the bomb queue and
preserves the invariant. -/
theorem ed_det_run (g : edgeflow.Board) (o : GB.Coord) :
    ∀ (fuel : Nat) (st : edgeflow.DetSt),
    edgeflow.DInv g o st →
    st.queue.length +
      2 * ((edgeflow.ROWS * edgeflow.COLS + 1) - st.queued.card) ≤ fuel →
    edgeflow.DInv g o (edgeflow.detAux g fuel st) ∧
      (edgeflow.detAux g fuel st).queue = [] := by
  intro fuel
  induction fuel with
  | zero =>
    intro st hInv hfl
    have hq : st.queue = [] := List.eq_nil_of_length_eq_zero (by omega)
    exact ⟨hInv, hq⟩
  | succ fuel ih =>
    intro st hInv hfl
    obtain ⟨i1, i2, i3, i4, i5, i6, i7, i8, i9⟩ := hInv
    cases hq : st.queue with
    | nil =>
      have hstep : edgeflow.detAux g (fuel + 1) st = st := by
        show (match st.queue with
          | [] => st
          | center :: rest => edgeflow.detAux g fuel
              (edgeflow.blastOffsets.foldl (edgeflow.detOff g center)
                { st with queue := rest })) = st
        rw [hq]
      rw [hstep]
      exact ⟨⟨i1, i2, i3, i4, i5, i6, i7, i8, i9⟩, hq⟩
    | cons center rest =>
      have hstep : edgeflow.detAux g (fuel + 1) st =
          edgeflow.detAux g fuel (edgeflow.blastOffsets.foldl
            (edgeflow.detOff g center) { st with queue := rest }) := by
        show (match st.queue with
          | [] => st
          | center :: rest => edgeflow.detAux g fuel
              (edgeflow.blastOffsets.foldl (edgeflow.detOff g center)
                { st with queue := rest })) = _
        rw [hq]
      rw [hstep]
      rw [hq] at i1 i2 i9 hfl
      have hcq : center ∈ st.queued := i2 center (List.mem_cons_self _ _)
      obtain ⟨addP, addQ, f1, f2, f3, f4, f5, f6, f7, f8, f9⟩ :=
        ed_det_fold g center edgeflow.blastOffsets { st with queue := rest }
      have hf1 : (edgeflow.blastOffsets.foldl (edgeflow.detOff g center)
          { st with queue := rest }).keys = st.keys ∪ addP.toFinset := f1
      have hf2 : (edgeflow.blastOffsets.foldl (edgeflow.detOff g center)
          { st with queue := rest }).pos = st.pos ++ addP := f2
      have hf3 : (edgeflow.blastOffsets.foldl (edgeflow.detOff g center)
          { st with queue := rest }).queue = rest ++ addQ := f3
      have hf4 : (edgeflow.blastOffsets.foldl (edgeflow.detOff g center)
          { st with queue := rest }).queued = st.queued ∪ addQ.toFinset := f4
      have hfP : ∀ p ∈ addP, p ∉ st.keys ∧
          (∃ off ∈ edgeflow.blastOffsets,
            p = (center.1 + off.1, center.2 + off.2)) ∧
          ∃ c, GB.cellAt edgeflow.COLS edgeflow.ROWS g p = some c := f7
      have hfQ : ∀ b ∈ addQ, b ∉ st.queued ∧
          (∃ off ∈ edgeflow.blastOffsets,
            b = (center.1 + off.1, center.2 + off.2)) ∧
          ∃ c, GB.cellAt edgeflow.COLS edgeflow.ROWS g b = some c ∧
            c.bomb = true := f8
      apply ih
      · refine ⟨?_, ?_, ?_, ?_, ?_, ?_, ?_, ?_, ?_⟩
        · rw [hf3, List.nodup_append]
          refine ⟨(List.nodup_cons.mp i1).2, f6, ?_⟩
          intro b hb hb2
          exact (hfQ b hb2).1 (i2 b (List.mem_cons_of_mem _ hb))
        · intro b hb
          rw [hf3] at hb
          rw [hf4]
          rcases List.mem_append.mp hb with hb | hb
          · exact Finset.mem_union_left _ (i2 b (List.mem_cons_of_mem _ hb))
          · exact Finset.mem_union_right _ (List.mem_toFinset.mpr hb)
        · intro b hb
          rw [hf4] at hb
          rcases Finset.mem_union.mp hb with hb | hb
          · exact i3 b hb
          · obtain ⟨-, ⟨off, hoff, heq⟩, cb, hcb, hbb⟩ :=
              hfQ b (List.mem_toFinset.mp hb)
            refine Relation.ReflTransGen.tail (i3 center hcq) ?_
            refine ⟨?_, cb, hcb, hbb⟩
            have hd := ed_blast_sound off hoff
            subst heq
            simpa using hd
        · intro b hb
          rw [hf4] at hb
          rcases Finset.mem_union.mp hb with hb | hb
          · exact i4 b hb
          · obtain ⟨-, -, cb, hcb, -⟩ := hfQ b (List.mem_toFinset.mp hb)
            exact Or.inr (gb_inB_mem_IB _ _ b
              (gb_cellAt_inB _ _ g b cb hcb))
        · rw [hf4]
          exact Finset.mem_union_left _ i5
        · rw [hf2, List.nodup_append]
          refine ⟨i6, f5, ?_⟩
          intro p hp hp2
          have h1 := (hfP p hp2).1
          rw [i7] at h1
          exact h1 (List.mem_toFinset.mpr hp)
        · rw [hf1, hf2, List.toFinset_append, i7]
        · intro p hp
          rw [hf1] at hp
          rcases Finset.mem_union.mp hp with hp | hp
          · obtain ⟨b, hb, hd, hc⟩ := i8 p hp
            exact ⟨b, by rw [hf4]; exact Finset.mem_union_left _ hb, hd, hc⟩
          · obtain ⟨-, ⟨off, hoff, heq⟩, hc⟩ := hfP p (List.mem_toFinset.mp hp)
            refine ⟨center, by rw [hf4]; exact Finset.mem_union_left _ hcq,
              ?_, hc⟩
            have hd := ed_blast_sound off hoff
            subst heq
            simpa using hd
        · intro b hb hbq p hd c hcell
          rw [hf4] at hb
          rw [hf3] at hbq
          have hbr : b ∉ rest := fun hm => hbq (List.mem_append_left _ hm)
          have hba : b ∉ addQ := fun hm => hbq (List.mem_append_right _ hm)
          rcases Finset.mem_union.mp hb with hb | hb
          · by_cases hbc : b = center
            · subst hbc
              have hoff : (p.1 - b.1, p.2 - b.2) ∈ edgeflow.blastOffsets :=
                ed_blast_complete _ (by simpa using hd)
              have hpt : (b.1 + (p.1 - b.1), b.2 + (p.2 - b.2)) = p := by
                rw [Prod.ext_iff]
                constructor <;> simp
              have hcov := f9 (p.1 - b.1, p.2 - b.2) hoff c (by rw [hpt]; exact hcell)
              rw [hpt] at hcov
              exact hcov
            · have hbq2 : b ∉ center :: rest := by
                intro hm
                rcases List.mem_cons.mp hm with hm | hm
                · exact hbc hm
                · exact hbr hm
              obtain ⟨hk2, hq2⟩ := i9 b hb hbq2 p hd c hcell
              constructor
              · rw [hf1]
                exact Finset.mem_union_left _ hk2
              · intro hcb
                rw [hf4]
                exact Finset.mem_union_left _ (hq2 hcb)
          · exact absurd (List.mem_toFinset.mp hb) hba
      · have hdisj : Disjoint st.queued addQ.toFinset := by
          rw [Finset.disjoint_right]
          intro b hb
          exact (hfQ b (List.mem_toFinset.mp hb)).1
        have hcard : (st.queued ∪ addQ.toFinset).card =
            st.queued.card + addQ.length := by
          rw [Finset.card_union_of_disjoint hdisj,
            List.toFinset_card_of_nodup f6]
        have hsub : st.queued ∪ addQ.toFinset ⊆
            insert o (GB.IB edgeflow.COLS edgeflow.ROWS) := by
          intro b hb
          rcases Finset.mem_union.mp hb with hb | hb
          · rcases i4 b hb with hb | hb
            · rw [hb]
              exact Finset.mem_insert_self _ _
            · exact Finset.mem_insert_of_mem hb
          · obtain ⟨-, -, cb, hcb, -⟩ := hfQ b (List.mem_toFinset.mp hb)
            exact Finset.mem_insert_of_mem (gb_inB_mem_IB _ _ b
              (gb_cellAt_inB _ _ g b cb hcb))
        have hle : (st.queued ∪ addQ.toFinset).card ≤
            edgeflow.ROWS * edgeflow.COLS + 1 := by
          have h1 := Finset.card_le_card hsub
          have h2 := Finset.card_insert_le o (GB.IB edgeflow.COLS edgeflow.ROWS)
          rw [gb_IB_card] at h2
          omega
        rw [hf3, hf4, List.length_append, hcard]
        rw [List.length_cons] at hfl
        omega

/-- `detonateBomb`'s removal list: duplicate-free, mirrored by the
`removeKeys` set, and containing exactly the in-bounds occupied cells
within blast radius of some transitively triggered centre. -/
theorem ed_detonate_char (g : edgeflow.Board) (cx cy : Int) :
    (edgeflow.detonateRemove g cx cy).pos.Nodup ∧
    (∀ p, p ∈ (edgeflow.detonateRemove g cx cy).pos ↔
      ∃ b, edgeflow.trigReach g (cx, cy) b ∧
        (p.1 - b.1).natAbs + (p.2 - b.2).natAbs ≤ edgeflow.BOMB_RADIUS ∧
        ∃ c, GB.cellAt edgeflow.COLS edgeflow.ROWS g p = some c) ∧
    (edgeflow.detonateRemove g cx cy).keys =
      (edgeflow.detonateRemove g cx cy).pos.toFinset := by
  have hrun := ed_det_run g (cx, cy)
    (2 * (edgeflow.ROWS * edgeflow.COLS + 1) + 1)
    { queue := [(cx, cy)], queued := {(cx, cy)}, keys := ∅, pos := [],
      ids := ∅ } ?hInv ?hfl
  case hInv =>
    refine ⟨List.nodup_singleton _, ?_, ?_, ?_, ?_, List.nodup_nil, by simp,
      ?_, ?_⟩
    · intro b hb
      rw [List.mem_singleton] at hb
      subst hb
      exact Finset.mem_singleton_self _
    · intro b hb
      rw [Finset.mem_singleton] at hb
      subst hb
      exact Relation.ReflTransGen.refl
    · intro b hb
      rw [Finset.mem_singleton] at hb
      exact Or.inl hb
    · exact Finset.mem_singleton_self _
    · intro p hp
      exact absurd hp (Finset.not_mem_empty p)
    · intro b hb hbq
      rw [Finset.mem_singleton] at hb
      subst hb
      exact absurd (List.mem_singleton_self _) hbq
  case hfl =>
    rw [List.length_singleton, Finset.card_singleton]
    omega
  obtain ⟨⟨j1, j2, j3, j4, j5, j6, j7, j8, j9⟩, jq⟩ := hrun
  have hcomp : ∀ b, edgeflow.trigReach g (cx, cy) b →
      b ∈ (edgeflow.detAux g
        (2 * (edgeflow.ROWS * edgeflow.COLS + 1) + 1)
        { queue := [(cx, cy)], queued := {(cx, cy)}, keys := ∅, pos := [],
          ids := ∅ }).queued := by
    intro b hre
    induction hre with
    | refl => exact j5
    | tail hab hbc ih =>
      obtain ⟨hd2, cb, hcb, hbb⟩ := hbc
      refine (j9 _ ih ?_ _ hd2 cb hcb).2 hbb
      rw [jq]
      exact List.not_mem_nil _
  refine ⟨j6, ?_, j7⟩
  intro p
  constructor
  · intro hp
    have hk : p ∈ (edgeflow.detAux g
        (2 * (edgeflow.ROWS * edgeflow.COLS + 1) + 1)
        { queue := [(cx, cy)], queued := {(cx, cy)}, keys := ∅, pos := [],
          ids := ∅ }).keys := by
      rw [j7]
      exact List.mem_toFinset.mpr hp
    obtain ⟨b, hb, hd, hc⟩ := j8 p hk
    exact ⟨b, j3 b hb, hd, hc⟩
  · rintro ⟨b, hre, hd, c, hc⟩
    have hbq := hcomp b hre
    have hfin := (j9 b hbq (by rw [jq]; exact List.not_mem_nil _) p hd c hc).1
    rw [j7] at hfin
    exact List.mem_toFinset.mp hfin

/-- Detonating the single bomb at `(3,3)` of the fully occupied board
removes exactly the 13 cells of the radius-2 diamond. -/
theorem ed_diamond13 :
    (edgeflow.detonateRemove edgeflow.exFull 3 3).pos.toFinset =
      edgeflow.diamond13 := by decide

/-- C3: detonation removes, exactly once each, exactly the in-bounds
occupied cells lying within Manhattan radius `BOMB_RADIUS` of some
transitively triggered centre, and on the fully occupied board with a
single bomb at `(3,3)` this is precisely the 13-cell diamond of the
specification. -/
theorem C3_detonate :
    (∀ (g : edgeflow.Board) (cx cy : Int),
      (edgeflow.detonateRemove g cx cy).pos.Nodup ∧
      (∀ p, p ∈ (edgeflow.detonateRemove g cx cy).pos ↔
        ∃ b, edgeflow.trigReach g (cx, cy) b ∧
          (p.1 - b.1).natAbs + (p.2 - b.2).natAbs ≤ edgeflow.BOMB_RADIUS ∧
          ∃ c, GB.cellAt edgeflow.COLS edgeflow.ROWS g p = some c) ∧
      (edgeflow.detonateRemove g cx cy).keys =
        (edgeflow.detonateRemove g cx cy).pos.toFinset) ∧
    (edgeflow.detonateRemove edgeflow.exFull 3 3).pos.toFinset =
      edgeflow.diamond13 :=
  ⟨fun g cx cy => ed_detonate_char g cx cy, ed_diamond13⟩

/-- `cellAt` at the integer image of grid indices reads the grid. -/
theorem gb_cellAt_fin {A : Type} (cols rows : Nat)
    (g : Fin rows → Fin cols → Option A) (y : Fin rows) (x : Fin cols) :
    GB.cellAt cols rows g ((x.val : Int), (y.val : Int)) = g y x := by
  rw [GB.cellAt]
  rw [dif_pos (by
    refine ⟨by omega, ?_, by omega, ?_⟩
    · have := x.isLt
      omega
    · have := y.isLt
      omega)]
  congr 1

/-- Unfolding of one step of the `hasAvailableMoves` scan. -/
theorem ed_hamAux_cons (g : edgeflow.Board)
    (p : Fin edgeflow.ROWS × Fin edgeflow.COLS)
    (rest : List (Fin edgeflow.ROWS × Fin edgeflow.COLS))
    (seen : Finset GB.Coord) :
    edgeflow.hamAux g (p :: rest) seen =
      (match g p.1 p.2 with
       | none => edgeflow.hamAux g rest seen
       | some c =>
         if c.bomb then true
         else if ((p.2.val : Int), (p.1.val : Int)) ∈ seen then
           edgeflow.hamAux g rest seen
         else
           if edgeflow.MIN_GROUP ≤ (edgeflow.groupAt g p.2.val p.1.val).length
           then true
           else edgeflow.hamAux g rest
             (seen ∪ ((edgeflow.groupAt g p.2.val p.1.val).map
               Prod.fst).toFinset)) := rfl

/-- A `true` result of the scan exhibits a bomb or a large group. -/
theorem ed_hamAux_true (g : edgeflow.Board) :
    ∀ (l : List (Fin edgeflow.ROWS × Fin edgeflow.COLS))
      (seen : Finset GB.Coord),
    edgeflow.hamAux g l seen = true →
    (∃ (y : Fin edgeflow.ROWS) (x : Fin edgeflow.COLS)
      (c : edgeflow.Tile), g y x = some c ∧ c.bomb = true) ∨
    (∃ (y : Fin edgeflow.ROWS) (x : Fin edgeflow.COLS),
      edgeflow.MIN_GROUP ≤ (edgeflow.groupAt g x.val y.val).length) := by
  intro l
  induction l with
  | nil =>
    intro seen h
    cases h
  | cons p rest ih =>
    intro seen h
    cases hcell : g p.1 p.2 with
    | none =>
      refine ih seen ?_
      rw [ed_hamAux_cons, hcell] at h
      exact h
    | some c =>
      by_cases hbomb : c.bomb = true
      · exact Or.inl ⟨p.1, p.2, c, hcell, hbomb⟩
      · by_cases hseen : ((p.2.val : Int), (p.1.val : Int)) ∈ seen
        · refine ih seen ?_
          rw [ed_hamAux_cons, hcell] at h
          simpa [hbomb, hseen] using h
        · by_cases hlen : edgeflow.MIN_GROUP ≤
              (edgeflow.groupAt g p.2.val p.1.val).length
          · exact Or.inr ⟨p.1, p.2, hlen⟩
          · refine ih (seen ∪ ((edgeflow.groupAt g p.2.val p.1.val).map
              Prod.fst).toFinset) ?_
            rw [ed_hamAux_cons, hcell] at h
            simpa [hbomb, hseen, hlen] using h

/-- All members of a flood-fill group have groups of the same size. -/
theorem ed_group_member_len (g : edgeflow.Board) (x : Fin edgeflow.COLS)
    (y : Fin edgeflow.ROWS) (c : edgeflow.Tile) (hcell : g y x = some c)
    (hnb : c.bomb = false) (m : GB.Coord)
    (hm : m ∈ (edgeflow.groupAt g x.val y.val).map Prod.fst) :
    (edgeflow.groupAt g m.1 m.2).length =
      (edgeflow.groupAt g x.val y.val).length := by
  have hc : GB.cellAt edgeflow.COLS edgeflow.ROWS g
      ((x.val : Int), (y.val : Int)) = some c := by
    rw [gb_cellAt_fin]
    exact hcell
  have hadm : (!c.bomb) = true := by rw [hnb]; rfl
  have hchar := gb_groupAt_char edgeflow.COLS edgeflow.ROWS
    edgeflow.Tile.value (fun t => !t.bomb) edgeflow.Tile.id g
    x.val y.val c hc hadm
  rw [edgeflow.groupAt] at hm
  have hre := (hchar.2.1 m).mp hm
  have hmem := gb_groupAt_member edgeflow.COLS edgeflow.ROWS
    edgeflow.Tile.value (fun t => !t.bomb) edgeflow.Tile.id g
    x.val y.val m.1 m.2 c hc hadm hre
  have hgm := gb_reach_good edgeflow.COLS edgeflow.ROWS edgeflow.Tile.value
    (fun t => !t.bomb) g c.value _ m
    ((gb_isGood_iff _ _ _ _ g c.value _).mpr ⟨c, hc, hadm, rfl⟩) hre
  obtain ⟨cm, hcm, hadmm, -⟩ := (gb_isGood_iff _ _ _ _ g c.value m).mp hgm
  have hcharm := gb_groupAt_char edgeflow.COLS edgeflow.ROWS
    edgeflow.Tile.value (fun t => !t.bomb) edgeflow.Tile.id g
    m.1 m.2 cm hcm hadmm
  have h1 := List.toFinset_card_of_nodup hcharm.1
  have h2 := List.toFinset_card_of_nodup hchar.1
  rw [List.length_map] at h1 h2
  rw [edgeflow.groupAt, edgeflow.groupAt, ← h1, ← h2, hmem]

/-- A `false` scan: no scanned cell is a bomb and every scanned cell's
group is small, given every already-seen coordinate has a small group. -/
theorem ed_hamAux_false (g : edgeflow.Board) :
    ∀ (l : List (Fin edgeflow.ROWS × Fin edgeflow.COLS))
      (seen : Finset GB.Coord),
    (∀ s ∈ seen, (edgeflow.groupAt g s.1 s.2).length < edgeflow.MIN_GROUP) →
    edgeflow.hamAux g l seen = false →
    ∀ p ∈ l, ∀ c : edgeflow.Tile, g p.1 p.2 = some c →
      c.bomb = false ∧
      (edgeflow.groupAt g p.2.val p.1.val).length < edgeflow.MIN_GROUP := by
  intro l
  induction l with
  | nil =>
    intro seen hInv h p hp
    cases hp
  | cons p rest ih =>
    intro seen hInv h q hq
    cases hcell : g p.1 p.2 with
    | none =>
      have h' : edgeflow.hamAux g rest seen = false := by
        rw [ed_hamAux_cons, hcell] at h
        exact h
      rcases List.mem_cons.mp hq with hq | hq
      · subst hq
        intro c hcc
        rw [hcell] at hcc
        cases hcc
      · exact ih seen hInv h' q hq
    | some c =>
      by_cases hbomb : c.bomb = true
      · rw [ed_hamAux_cons, hcell] at h
        simp [hbomb] at h
      · by_cases hseen : ((p.2.val : Int), (p.1.val : Int)) ∈ seen
        · have h' : edgeflow.hamAux g rest seen = false := by
            rw [ed_hamAux_cons, hcell] at h
            simpa [hbomb, hseen] using h
          rcases List.mem_cons.mp hq with hq | hq
          · subst hq
            intro c' hcc
            rw [hcell] at hcc
            cases hcc
            refine ⟨Bool.eq_false_iff.mpr hbomb, ?_⟩
            exact hInv _ hseen
          · exact ih seen hInv h' q hq
        · by_cases hlen : edgeflow.MIN_GROUP ≤
              (edgeflow.groupAt g p.2.val p.1.val).length
          · rw [ed_hamAux_cons, hcell] at h
            simp [hbomb, hseen, hlen] at h
          · have h' : edgeflow.hamAux g rest
                (seen ∪ ((edgeflow.groupAt g p.2.val p.1.val).map
                  Prod.fst).toFinset) = false := by
              rw [ed_hamAux_cons, hcell] at h
              simpa [hbomb, hseen, hlen] using h
            have hInv' : ∀ s ∈ seen ∪ ((edgeflow.groupAt g p.2.val
                p.1.val).map Prod.fst).toFinset,
                (edgeflow.groupAt g s.1 s.2).length < edgeflow.MIN_GROUP := by
              intro s hs
              rcases Finset.mem_union.mp hs with hs | hs
              · exact hInv s hs
              · have hlm := ed_group_member_len g p.2 p.1 c hcell
                  (Bool.eq_false_iff.mpr hbomb) s (List.mem_toFinset.mp hs)
                omega
            rcases List.mem_cons.mp hq with hq | hq
            · subst hq
              intro c' hcc
              rw [hcell] at hcc
              cases hcc
              exact ⟨Bool.eq_false_iff.mpr hbomb, by omega⟩
            · exact ih _ hInv' h' q hq

/-- `hasAvailableMoves` is `true` exactly when the board has a bomb or a
group of size at least `MIN_GROUP`. -/
theorem ed_ham_iff (g : edgeflow.Board) :
    edgeflow.hasAvailableMoves g = true ↔
      ((∃ (y : Fin edgeflow.ROWS) (x : Fin edgeflow.COLS)
        (c : edgeflow.Tile), g y x = some c ∧ c.bomb = true) ∨
      (∃ (y : Fin edgeflow.ROWS) (x : Fin edgeflow.COLS),
        edgeflow.MIN_GROUP ≤ (edgeflow.groupAt g x.val y.val).length)) := by
  constructor
  · intro h
    exact ed_hamAux_true g edgeflow.allCells ∅ h
  · intro h
    cases hham : edgeflow.hasAvailableMoves g
    · exfalso
      have hfalse := ed_hamAux_false g edgeflow.allCells ∅
        (fun s hs => absurd hs (Finset.not_mem_empty s)) hham
      rcases h with ⟨y, x, c, hcell, hbomb⟩ | ⟨y, x, hlen⟩
      · have hp := hfalse (y, x) (by simp [edgeflow.allCells]) c hcell
        rw [hp.1] at hbomb
        cases hbomb
      · cases hc0 : GB.cellAt edgeflow.COLS edgeflow.ROWS g
            ((x.val : Int), (y.val : Int)) with
        | none =>
          rw [edgeflow.groupAt, GB.groupAt, hc0] at hlen
          simp [edgeflow.MIN_GROUP] at hlen
        | some start =>
          rw [gb_cellAt_fin] at hc0
          have hp := hfalse (y, x) (by simp [edgeflow.allCells]) start hc0
          have hp2 : (edgeflow.groupAt g x.val y.val).length <
              edgeflow.MIN_GROUP := hp.2
          omega
    · rfl

/-- `ensurePlayable` with no shuffle budget. -/
theorem ed_ensure_zero (shuffle : edgeflow.Board → edgeflow.Board)
    (g : edgeflow.Board) : edgeflow.ensurePlayable shuffle g 0 = g := rfl

/-- `ensurePlayable` with remaining budget. -/
theorem ed_ensure_succ (shuffle : edgeflow.Board → edgeflow.Board)
    (g : edgeflow.Board) (n : Nat) :
    edgeflow.ensurePlayable shuffle g (n + 1) =
      (if edgeflow.hasAvailableMoves g then g
       else edgeflow.ensurePlayable shuffle (shuffle g) n) := rfl

/-- `ensurePlayable` performs some number `k ≤ n` of shuffles, all earlier
boards being unplayable, and stops early only on a playable board. -/
theorem ed_ensure_char (shuffle : edgeflow.Board → edgeflow.Board) :
    ∀ (n : Nat) (g : edgeflow.Board),
    ∃ k, k ≤ n ∧
      edgeflow.ensurePlayable shuffle g n = shuffle^[k] g ∧
      (∀ j, j < k → edgeflow.hasAvailableMoves (shuffle^[j] g) = false) ∧
      (edgeflow.hasAvailableMoves (edgeflow.ensurePlayable shuffle g n) =
        true ∨ k = n) := by
  intro n
  induction n with
  | zero =>
    intro g
    exact ⟨0, Nat.le_refl 0, by rw [ed_ensure_zero, Function.iterate_zero_apply],
      fun j hj => absurd hj (Nat.not_lt_zero j), Or.inr rfl⟩
  | succ n ih =>
    intro g
    by_cases hham : edgeflow.hasAvailableMoves g = true
    · refine ⟨0, Nat.zero_le _, ?_, fun j hj => absurd hj (Nat.not_lt_zero j),
        Or.inl ?_⟩
      · rw [ed_ensure_succ, if_pos hham, Function.iterate_zero_apply]
      · rw [ed_ensure_succ, if_pos hham]
        exact hham
    · obtain ⟨k, hk, heq, hjs, hend⟩ := ih (shuffle g)
      have hstep : edgeflow.ensurePlayable shuffle g (n + 1) =
          edgeflow.ensurePlayable shuffle (shuffle g) n := by
        rw [ed_ensure_succ, if_neg hham]
      refine ⟨k + 1, by omega, ?_, ?_, ?_⟩
      · rw [hstep, heq, Function.iterate_succ_apply]
      · intro j hj
        cases j with
        | zero =>
          rw [Function.iterate_zero_apply]
          exact Bool.eq_false_iff.mpr hham
        | succ j =>
          rw [Function.iterate_succ_apply]
          exact hjs j (by omega)
      · rcases hend with hend | hend
        · exact Or.inl (by rw [hstep]; exact hend)
        · exact Or.inr (by omega)

/-- C8: `ensurePlayable` shuffles at most `n` times — the returned board is
`shuffle^[k] g` for some `k ≤ n` with every earlier board unplayable — and
the result has available moves unless all `n` shuffles were consumed, in
which case the last shuffled board is returned as-is; `hasAvailableMoves`
holds exactly when the board has a bomb or a 4-connected same-value group
of size at least `MIN_GROUP`. -/
theorem C8_ensurePlayable (shuffle : edgeflow.Board → edgeflow.Board)
    (g : edgeflow.Board) (n : Nat) :
    (∃ k, k ≤ n ∧
      edgeflow.ensurePlayable shuffle g n = shuffle^[k] g ∧
      (∀ j, j < k → edgeflow.hasAvailableMoves (shuffle^[j] g) = false) ∧
      (edgeflow.hasAvailableMoves (edgeflow.ensurePlayable shuffle g n) =
        true ∨ k = n)) ∧
    (∀ h : edgeflow.Board, edgeflow.hasAvailableMoves h = true ↔
      ((∃ (y : Fin edgeflow.ROWS) (x : Fin edgeflow.COLS)
        (c : edgeflow.Tile), h y x = some c ∧ c.bomb = true) ∨
      (∃ (y : Fin edgeflow.ROWS) (x : Fin edgeflow.COLS),
        edgeflow.MIN_GROUP ≤ (edgeflow.groupAt h x.val y.val).length))) :=
  ⟨ed_ensure_char shuffle n g, fun h => ed_ham_iff h⟩

/-- C8 witness: on the fully occupied board, available moves exist and the
scan indeed finds the bomb. -/
theorem C8_ensurePlayable_witness :
    edgeflow.hasAvailableMoves edgeflow.exFull = true ∧
    ((∃ (y : Fin edgeflow.ROWS) (x : Fin edgeflow.COLS)
      (c : edgeflow.Tile), edgeflow.exFull y x = some c ∧ c.bomb = true) ∨
    (∃ (y : Fin edgeflow.ROWS) (x : Fin edgeflow.COLS),
      edgeflow.MIN_GROUP ≤
        (edgeflow.groupAt edgeflow.exFull x.val y.val).length)) :=
  ⟨by decide,
    ((C8_ensurePlayable id edgeflow.exFull 0).2 edgeflow.exFull).mp
      (by decide)⟩
